import Mathlib

/-!
# Row compression, block framing and page geometry of `oh_brother`
(src/compress.c, src/pcl.c, src/parameters.c, src/main.c)

A shallow embedding of the row compressor and of its helpers, followed by the
properties of the byte layout it produces: the escaped counts, the layout of the
two kinds of group, the blank and the unchanged row, the bound on the group
counter, the forced flush, the round trip through the decoder that the
specification describes, the padding group, rows encoded as one group, the
size of the output, and its self-delimiting form. A further part embeds
`raster_data` with the final flush of `pcl_page` and proves the bounds and the
framing of the blocks of rows. The last part treats the two counting functions
on their own, the positions that the groups skip and encode, the stored group
count, `param_validate` with the printable region that `pcl_page` derives from
its result, and the row loop of `pcl_page` with the previous row it hands to
`compress`.

Conventions of the embedding:

* a byte buffer the C code reads through a pointer is the list of the bytes
  from the pointer on (`in`, `last`, `bytes`); advancing the pointer drops
  from the list; `in_length` is the length of the list `inp`;
* the output buffer written through `*(*buffer)++` is the list of the bytes
  written so far, a write appends one byte;
* bytes and `size_t` values are natural numbers; a store into a `uint8_t`
  is taken modulo `2 ^ 8` (`to_u8`), a `size_t` subtraction that the code
  does not guard is taken modulo `2 ^ 64` (`size_sub`);
* the global `p_padding` is a parameter of `compress`; the globals that
  `param_validate` and `pcl_page` read are parameters, those that
  `param_validate` writes are its result;
* `in` of `pcl_page` is an offset into the list of the bytes of the page.
-/

namespace OhBrother

/-! ## Machine arithmetic -/

/-- Store of a value into a `uint8_t` object: reduction modulo `2 ^ 8`. -/
def to_u8 (v : Nat) : Nat := v % 2 ^ 8

/-- Subtraction of two `size_t` values on a 64-bit target: modulo `2 ^ 64`. -/
def size_sub (a b : Nat) : Nat := (a + 2 ^ 64 - b) % 2 ^ 64

/-- Addition of two `size_t` values on a 64-bit target: modulo `2 ^ 64`. -/
def size_add (a b : Nat) : Nat := (a + b) % 2 ^ 64

/-- Read of `p[i]`; a read past the end of the modelled buffer yields `0`. -/
def rd (p : List Nat) (i : Nat) : Nat := p.getD i 0

/-! ## `encode_count` (compress.c, lines 258-262) -/

/-- The `for` loop of `encode_count`: `n` iterations, each writing one byte `255`. -/
def encode_count_loop : Nat → List Nat → List Nat
  | 0, buffer => buffer
  | n + 1, buffer => encode_count_loop n (buffer ++ [to_u8 255])

/-- Source function `encode_count(buffer, count)`: `count / 255` bytes of `255`, then
`count % 255`. -/
def encode_count (buffer : List Nat) (count : Nat) : List Nat :=
  encode_count_loop (count / 255) buffer ++ [to_u8 (count % 255)]

/-! ## `encode_repeat` (compress.c, lines 166-187) -/

/-- Source function `encode_repeat(buffer, skip, count, byte)`. -/
def encode_repeat (buffer : List Nat) (skip count byte : Nat) : List Nat :=
  let count := size_sub count 2
  let first := to_u8 (1 <<< 7)
  let first := to_u8 (first ||| ((if skip > 2 then 3 else skip) <<< 5))
  let first := to_u8 (first ||| (if count > 30 then 31 else count))
  let buffer := buffer ++ [first]
  let buffer := if skip ≥ 3 then encode_count buffer (skip - 3) else buffer
  let buffer := if count ≥ 31 then encode_count buffer (count - 31) else buffer
  buffer ++ [byte]

/-! ## `encode` (compress.c, lines 221-246) -/

/-- Source function `encode(buffer, skip, count, bytes)`; `memcpy` copies the first `count`
bytes found at `bytes`. -/
def encode (buffer : List Nat) (skip count : Nat) (bytes : List Nat) : List Nat :=
  let count := size_sub count 1
  let first := 0
  let first := to_u8 (first ||| ((if skip > 14 then 15 else skip) <<< 3))
  let first := to_u8 (first ||| (if count > 6 then 7 else count))
  let buffer := buffer ++ [first]
  let buffer := if skip ≥ 15 then encode_count buffer (skip - 15) else buffer
  let buffer := if count ≥ 7 then encode_count buffer (count - 7) else buffer
  let count := size_add count 1
  buffer ++ bytes.take count

/-! ## `count_repeat` (compress.c, lines 148-152) -/

/-- The `for` loop of `count_repeat`, from index `i`; the first argument bounds the number
of iterations. -/
def count_repeat_loop (buffer : List Nat) (length : Nat) : Nat → Nat → Nat
  | 0, i => i
  | fuel + 1, i =>
    if i < length ∧ rd buffer i = rd buffer (i - 1) then
      count_repeat_loop buffer length fuel (i + 1)
    else i

/-- Source function `count_repeat(buffer, length)`; the loop starts at `i = 3` and runs at
most `length` times. The counter `int i` is a natural number here: it stays at or below
`length`, the length of a window of one row. The function `count_repeat_int` keeps the
32-bit counter of the source; the two agree on every window of fewer than `2 ^ 31` bytes
(`count_repeat_int_eq`), so that the embedding of `compress` is that of the source on rows
without a run of `2 ^ 31` or more equal bytes; statements about longer runs are made on
`count_repeat_int` and `window_count_int`. -/
def count_repeat (buffer : List Nat) (length : Nat) : Nat :=
  count_repeat_loop buffer length length 3

/-! ## `count_no_repeat` (compress.c, lines 199-207) -/

/-- The `for` loop of `count_no_repeat`, from index `i`; the first argument bounds the
number of iterations. -/
def count_no_repeat_loop (buffer : List Nat) (length : Nat) : Nat → Nat → Nat
  | 0, i => i
  | fuel + 1, i =>
    if i < length then
      if rd buffer i = rd buffer (i - 1) ∧ rd buffer i = rd buffer (i - 2) then i - 2
      else count_no_repeat_loop buffer length fuel (i + 1)
    else i

/-- Source function `count_no_repeat(buffer, length)`; the loop starts at
`length <= 2 ? length : 2`. -/
def count_no_repeat (buffer : List Nat) (length : Nat) : Nat :=
  count_no_repeat_loop buffer length length (if length ≤ 2 then length else 2)

/-! ## `compress` (compress.c, lines 52-136) -/

/-- One invocation of a group encoder, as made by `compress`. -/
inductive Call where
  | rep (skip count byte : Nat)
  | lit (skip count : Nat) (bytes : List Nat)
  deriving DecidableEq, Repr

/-- Output side of `compress`: the bytes written after the group-count byte, the
group-count byte `*groups`, and a log of the encoder invocations made so far (the log is
never read by the code). -/
structure Cursor where
  out : List Nat
  groups : Nat
  calls : List Call
  deriving DecidableEq, Repr

/-- Statement `encode_repeat(&out, skip, count, byte); ++*groups;`. -/
def emit_repeat (c : Cursor) (skip count byte : Nat) : Cursor :=
  { out := encode_repeat c.out skip count byte,
    groups := to_u8 (c.groups + 1),
    calls := c.calls ++ [Call.rep skip count byte] }

/-- Statement `encode(&out, skip, count, in); ++*groups;`. -/
def emit_literal (c : Cursor) (skip count : Nat) (inp : List Nat) : Cursor :=
  { out := encode c.out skip count inp,
    groups := to_u8 (c.groups + 1),
    calls := c.calls ++ [Call.lit skip count (inp.take count)] }

/-- The blank test of `compress` (lines 59-64): no byte of the row is non-zero. -/
def is_blank : List Nat → Bool
  | [] => true
  | b :: rest => if b ≠ 0 then false else is_blank rest

/-- The loop of lines 84-89: `while (in_length && *in == *last)`, advancing `in` and `last`
and counting in `skip`. Returns `skip` and the advanced `in` and `last`. -/
def skip_loop : List Nat → List Nat → Nat → Nat × List Nat × List Nat
  | [], last, skip => (skip, [], last)
  | a :: inp, last, skip =>
    if a = rd last 0 then skip_loop inp (last.drop 1) (skip + 1)
    else (skip, a :: inp, last)

/-- The loop of lines 97-98: `while (different < in_length && in[different] != last[different])`;
the first argument bounds the number of iterations. -/
def different_loop (inp last : List Nat) : Nat → Nat → Nat
  | 0, different => different
  | fuel + 1, different =>
    if different < inp.length ∧ rd inp different ≠ rd last different then
      different_loop inp last fuel (different + 1)
    else different

/-- The loop of lines 99-126, `while (different)`. Returns the cursor and the advanced `in`
and `last` at the exit of the loop, or `none` if the bound on the iterations is used up.
The test of line 104 is written once for `count` and once for the encoder that is called. -/
def window_loop : Nat → Cursor → List Nat → Option (List Nat) → Nat → Nat →
    Option (Cursor × List Nat × Option (List Nat))
  | 0, _, _, _, _, _ => none
  | fuel + 1, c, inp, last, different, skip =>
    if different = 0 then some (c, inp, last)
    else
      let count :=
        if different ≥ 3 ∧ rd inp 0 = rd inp 1 ∧ rd inp 0 = rd inp 2 then
          count_repeat inp different
        else count_no_repeat inp different
      let c :=
        if different ≥ 3 ∧ rd inp 0 = rd inp 1 ∧ rd inp 0 = rd inp 2 then
          emit_repeat c skip count (rd inp 0)
        else emit_literal c skip count inp
      let inp := inp.drop count
      let last := last.map (fun l => l.drop count)
      let different := different - count
      if c.groups ≥ 253 then some (c, inp, last)
      else window_loop fuel c inp last different 0

/-- The loop of lines 80-134, `while (in_length)`. Returns the cursor at the `return`, or
`none` if the bound on the iterations is used up. -/
def main_loop : Nat → Cursor → List Nat → Option (List Nat) → Option Cursor
  | 0, _, _, _ => none
  | fuel + 1, c, inp, last =>
    if inp.length = 0 then some c
    else
      let s : Nat × List Nat × Option (List Nat) :=
        match last with
        | some l => ((skip_loop inp l 0).1, (skip_loop inp l 0).2.1, some (skip_loop inp l 0).2.2)
        | none => (0, inp, none)
      let skip := s.1
      let inp := s.2.1
      let last := s.2.2
      if inp.length = 0 then some c
      else
        let different :=
          match last with
          | some l => different_loop inp l inp.length 0
          | none => inp.length
        match window_loop (different + 1) c inp last different skip with
        | none => none
        | some (c, inp, last) =>
          if c.groups ≥ 253 then some (emit_literal c 0 inp.length inp)
          else main_loop fuel c inp last

/-- The cursor after `uint8_t *groups = out++; *groups = 0;` (lines 54-55). -/
def start_cursor : Cursor := { out := [], groups := 0, calls := [] }

/-- Lines 72-75: the padding, when it is more than one byte, is encoded as a repeat of the
byte `0`. -/
def prepend_padding (c : Cursor) (p_padding : Nat) : Cursor :=
  if p_padding > 1 then emit_repeat c 0 p_padding 0 else c

/-- The body of `compress` with its output side: the cursor at the `return`. -/
def compress_run (inp : List Nat) (last : Option (List Nat)) (p_padding : Nat) :
    Option Cursor :=
  if is_blank inp then some { start_cursor with groups := 255 }
  else main_loop (inp.length + 1) (prepend_padding start_cursor p_padding) inp last

/-- Source function `compress(out, in, last, in_length)` with `p_padding`: the bytes written
to `out`, the group-count byte first; the C return value is the length of this list. -/
def compress (inp : List Nat) (last : Option (List Nat)) (p_padding : Nat) :
    Option (List Nat) :=
  (compress_run inp last p_padding).map (fun c => c.groups :: c.out)

/-! ## The decoder of the specification

The repository has no decoder. The specification describes one for testing (§4.1 for the
escaped counts, §4.2 and §8 for the groups and the row); the definitions below follow its
words and are only used to state the properties of the encoder. -/

/-- Escape decoder of §4.1: add `255` for each leading byte equal to `255`, then add the
first byte that is not `255` and stop. Returns the value and the unread bytes. -/
def decode_count : List Nat → Option (Nat × List Nat)
  | [] => none
  | b :: rest =>
    if b = 255 then (decode_count rest).map (fun r => (r.1 + 255, r.2))
    else some (b, rest)

/-- A bit field of a group header: the value `limit` (all ones) signals that an escaped
count follows, to be added to `limit`. -/
def decode_field (field limit : Nat) (input : List Nat) : Option (Nat × List Nat) :=
  if field = limit then (decode_count input).map (fun r => (r.1 + limit, r.2))
  else some (field, input)

/-- A group of a compressed row (§3 of the specification). -/
inductive Group where
  | literal (skip count : Nat) (bytes : List Nat)
  | rep (skip count byte : Nat)
  deriving DecidableEq, Repr

/-- Inverse of the bit layout of §4.2 for one group. Returns the group and the unread
bytes. -/
def decode_group : List Nat → Option (Group × List Nat)
  | [] => none
  | first :: input =>
    if first ≥ 128 then
      match decode_field (first / 32 % 4) 3 input with
      | none => none
      | some (skip, input) =>
        match decode_field (first % 32) 31 input with
        | none => none
        | some (biased, input) =>
          match input with
          | [] => none
          | b :: input => some (Group.rep skip (biased + 2) b, input)
    else
      match decode_field (first / 8 % 16) 15 input with
      | none => none
      | some (skip, input) =>
        match decode_field (first % 8) 7 input with
        | none => none
        | some (biased, input) =>
          if input.length < biased + 1 then none
          else some (Group.literal skip (biased + 1) (input.take (biased + 1)),
            input.drop (biased + 1))

/-- The bytes of an escaped count as §4.1 words them: `v / 255` bytes of value `255`, then
one byte `v % 255`. -/
def escape_bytes (v : Nat) : List Nat := List.replicate (v / 255) 255 ++ [v % 255]

/-- The bit-level encoding of a group as §4.2 words it. -/
def Group.encoding : Group → List Nat
  | Group.rep skip count byte =>
    [128 ||| (min skip 3 <<< 5) ||| min (count - 2) 31]
      ++ (if skip ≥ 3 then escape_bytes (skip - 3) else [])
      ++ (if count - 2 ≥ 31 then escape_bytes (count - 2 - 31) else [])
      ++ [byte]
  | Group.literal skip count bytes =>
    [(min skip 15 <<< 3) ||| min (count - 1) 7]
      ++ (if skip ≥ 15 then escape_bytes (skip - 15) else [])
      ++ (if count - 1 ≥ 7 then escape_bytes (count - 1 - 7) else [])
      ++ bytes

/-- Well-formed groups of §3: a literal carries `count ≥ 1` bytes, a repeat has
`count ≥ 2`. -/
def Group.wf : Group → Prop
  | Group.rep _ count _ => 2 ≤ count
  | Group.literal _ count bytes => 1 ≤ count ∧ bytes.length = count

/-- The effect of one group on the row decoded so far (§3, §4.2): copy `skip` bytes of
the previous row, from the position reached, then append the repeated byte `count` times or
the literal bytes. Fails if the previous row has no `skip` bytes left. -/
def apply_group (prev row : List Nat) : Group → Option (List Nat)
  | Group.literal skip _ bytes =>
    if (prev.drop row.length).length < skip then none
    else some (row ++ (prev.drop row.length).take skip ++ bytes)
  | Group.rep skip count byte =>
    if (prev.drop row.length).length < skip then none
    else some (row ++ (prev.drop row.length).take skip ++ List.replicate count byte)

/-- Decoding of `g` groups in sequence, from the row decoded so far. Returns the row and the
unread bytes. -/
def decode_groups : Nat → List Nat → List Nat → List Nat → Option (List Nat × List Nat)
  | 0, _, input, row => some (row, input)
  | g + 1, prev, input, row =>
    match decode_group input with
    | none => none
    | some (grp, input) =>
      match apply_group prev row grp with
      | none => none
      | some row => decode_groups g prev input row

/-- Row decoder of the specification, for a row of `n` bytes: the count byte `255` is the
all-zero row, the count byte `0` a copy of the previous row, any other count byte is
followed by that many groups, and the bytes after the last group are copied from the
previous row. Returns the row and the unread bytes. -/
def decode_row (n : Nat) (prev : Option (List Nat)) : List Nat → Option (List Nat × List Nat)
  | [] => none
  | g :: body =>
    if g = 255 then some (List.replicate n 0, body)
    else if g = 0 then prev.map (fun p => (p, body))
    else
      match decode_groups g (prev.getD []) body [] with
      | none => none
      | some (row, unread) => some (row ++ (prev.getD []).drop row.length, unread)

/-! ## The main loop up to the forced flush -/

/-- The loop of lines 80-134 without the statement of lines 129-133: the cursor and the
bytes of the row not yet consumed at the point where the loop is left, which is either one
of the two `return` tests or the test `*groups >= 253` of line 129 (the forced flush is
not performed). Same bound on the passes as `main_loop`. -/
def main_scan : Nat → Cursor → List Nat → Option (List Nat) → Option (Cursor × List Nat)
  | 0, _, _, _ => none
  | fuel + 1, c, inp, last =>
    if inp.length = 0 then some (c, inp)
    else
      let s : Nat × List Nat × Option (List Nat) :=
        match last with
        | some l => ((skip_loop inp l 0).1, (skip_loop inp l 0).2.1, some (skip_loop inp l 0).2.2)
        | none => (0, inp, none)
      let skip := s.1
      let inp := s.2.1
      let last := s.2.2
      if inp.length = 0 then some (c, inp)
      else
        let different :=
          match last with
          | some l => different_loop inp l inp.length 0
          | none => inp.length
        match window_loop (different + 1) c inp last different skip with
        | none => none
        | some (c, inp, last) =>
          if c.groups ≥ 253 then some (c, inp)
          else main_scan fuel c inp last

/-- Lines 129-133 applied to the state in which the main loop is left. -/
def forced_flush (s : Cursor × List Nat) : Cursor :=
  if s.1.groups ≥ 253 then emit_literal s.1 0 s.2.length s.2 else s.1

/-! ## The groups behind the encoder calls -/

/-- The group an encoder call stands for. -/
def Call.group : Call → Group
  | Call.rep skip count byte => Group.rep skip count byte
  | Call.lit skip count bytes => Group.literal skip count bytes

/-- The effect of a sequence of groups on the row decoded so far. -/
def apply_groups (prev : List Nat) : List Group → List Nat → Option (List Nat)
  | [], row => some row
  | g :: gs, row =>
    match apply_group prev row g with
    | none => none
    | some row => apply_groups prev gs row

/-- The bytes written after the count byte are the encodings of the groups of the encoder
calls, in order, and each of these groups is well-formed. -/
def Cursor.sound (c : Cursor) : Prop :=
  c.out = (c.calls.map (fun k => k.group.encoding)).flatten ∧ ∀ k ∈ c.calls, k.group.wf

/-! ## One pass of the window loop -/

/-- The value of `count` in one pass of the window loop (lines 103-110). -/
def window_count (inp : List Nat) (different : Nat) : Nat :=
  if different ≥ 3 ∧ rd inp 0 = rd inp 1 ∧ rd inp 0 = rd inp 2 then count_repeat inp different
  else count_no_repeat inp different

/-- The cursor after the encoder call and `++*groups` of one pass of the window loop
(lines 103-111). -/
def window_emit (c : Cursor) (inp : List Nat) (different skip : Nat) : Cursor :=
  if different ≥ 3 ∧ rd inp 0 = rd inp 1 ∧ rd inp 0 = rd inp 2 then
    emit_repeat c skip (window_count inp different) (rd inp 0)
  else emit_literal c skip (window_count inp different) inp

/-! ## One pass of the main loop -/

/-- Lines 82-89: the skip count and the advanced `in` and `last` after the skip loop, which
only runs when there is a previous row. -/
def skip_step (inp : List Nat) (last : Option (List Nat)) : Nat × List Nat × Option (List Nat) :=
  match last with
  | some l => ((skip_loop inp l 0).1, (skip_loop inp l 0).2.1, some (skip_loop inp l 0).2.2)
  | none => (0, inp, none)

/-- Lines 96-98: the value of `different` when the window loop is entered. -/
def window_size (inp : List Nat) (last : Option (List Nat)) : Nat :=
  match last with
  | some l => different_loop inp l inp.length 0
  | none => inp.length

/-- The `skip` argument of an encoder call. -/
def Call.skip : Call → Nat
  | Call.rep skip _ _ => skip
  | Call.lit skip _ _ => skip

/-- The `count` argument of an encoder call. -/
def Call.count : Call → Nat
  | Call.rep _ count _ => count
  | Call.lit _ count _ => count

/-- The encoder calls `ks` made from some point on have skip 0 and their counts add up to
the bytes of a row of `n` bytes that are no longer in `inp`. -/
def consumed_unskipped (n : Nat) (ks : List Call) (inp : List Nat) : Prop :=
  (∀ k ∈ ks, k.skip = 0) ∧ (ks.map Call.count).sum + inp.length = n

/-! ## The parser of the specification

A parser for the bytes of one compressed row that needs no previous row: it reads the
group-count byte and then that many groups (the count bytes `0` and `255` announce no
group). -/

/-- Parsing of `g` groups in sequence. Returns the groups and the unread bytes. -/
def parse_groups : Nat → List Nat → Option (List Group × List Nat)
  | 0, input => some ([], input)
  | g + 1, input =>
    match decode_group input with
    | none => none
    | some (grp, input) =>
      match parse_groups g input with
      | none => none
      | some (gs, rest) => some (grp :: gs, rest)

/-- Parsing of one compressed row. Returns its groups and the unread bytes. -/
def parse_row : List Nat → Option (List Group × List Nat)
  | [] => none
  | g :: body => if g = 255 ∨ g = 0 then some ([], body) else parse_groups g body

/-! ## `raster_data` and the final flush of `pcl_page` (pcl.c, lines 244-258 and 209-214)

The block buffer is the list of the `*buffer_length` bytes it holds; `stdout` is the list of
the bytes written to it so far. -/

/-- The text `printf` writes for `%zu`: the decimal digits, as ASCII codes (C library). -/
def decimal_ascii (n : Nat) : List Nat := (Nat.toDigits 10 n).map Char.toNat

/-- The bytes written by `printf("%zuw%c%c", length + 2, 0, rows)`. -/
def block_header (length rows : Nat) : List Nat :=
  decimal_ascii (length + 2) ++ [119, to_u8 0, to_u8 rows]

/-- The state `raster_data` works on: the standard output, the block buffer (its length is
`*buffer_length`) and the row counter `*buffer_rows` (a `uint8_t`). -/
structure Framer where
  stdout : List Nat
  buffer : List Nat
  buffer_rows : Nat
  deriving DecidableEq, Repr

/-- The state at the start of `pcl_page`: nothing written, `block_len = 0`,
`block_rows = 0`. -/
def empty_framer : Framer := { stdout := [], buffer := [], buffer_rows := 0 }

/-- The `if` statement of `raster_data` (lines 247-253): emit the block and reset it when
the row does not fit or the block holds 128 rows. -/
def flush_if_full (s : Framer) (row : List Nat) : Framer :=
  if row.length + s.buffer.length > 16384 ∨ s.buffer_rows ≥ 128 then
    { stdout := s.stdout ++ block_header s.buffer.length s.buffer_rows ++ s.buffer,
      buffer := [], buffer_rows := 0 }
  else s

/-- Source function `raster_data(buffer, buffer_length, buffer_rows, row, row_length)`. -/
def raster_data (s : Framer) (row : List Nat) : Framer :=
  { stdout := (flush_if_full s row).stdout,
    buffer := (flush_if_full s row).buffer ++ row,
    buffer_rows := to_u8 ((flush_if_full s row).buffer_rows + 1) }

/-- The successive calls of `raster_data` for a sequence of rows. -/
def raster_rows (s : Framer) (rows : List (List Nat)) : Framer := rows.foldl raster_data s

/-- The final flush of `pcl_page` (lines 211-214): the bytes on the standard output after
it. -/
def final_flush (s : Framer) : List Nat :=
  if s.buffer.length ≠ 0 then s.stdout ++ block_header s.buffer.length s.buffer_rows ++ s.buffer
  else s.stdout

/-- The bytes of one emitted block that holds the rows `b`: the decimal text of the payload
length plus 2, the character `w`, a zero byte, the number of rows, and the payload. -/
def block_bytes (b : List (List Nat)) : List Nat :=
  decimal_ascii (b.flatten.length + 2) ++ [119, 0, b.length] ++ b.flatten

/-- The state of the framer after the rows `rows`: the standard output holds the blocks
`blocks`, the buffer holds the rows `pending`, and together these are the rows, in order. -/
def framed (s : Framer) (rows : List (List Nat)) (blocks : List (List (List Nat)))
    (pending : List (List Nat)) : Prop :=
  blocks.flatten ++ pending = rows
    ∧ s.stdout = (blocks.map block_bytes).flatten
    ∧ s.buffer = pending.flatten
    ∧ s.buffer_rows = pending.length
    ∧ pending.length ≤ 128
    ∧ s.buffer.length ≤ 16384
    ∧ (∀ b ∈ blocks, 1 ≤ b.length ∧ b.length ≤ 128 ∧ b.flatten.length ≤ 16384)

/-! ## The counter of `count_repeat` as the source declares it -/

/-- The `for` loop of `count_repeat` (compress.c, lines 149-151) with the counter as the
source declares it, `int i` of 32 bits: the test `i < length` compares the non-negative `i`
with the `size_t` value `length`, and the increment of `i = 2 ^ 31 - 1` overflows, which C
leaves undefined (`none`). The first argument bounds the number of iterations. -/
def count_repeat_int_loop (buffer : List Nat) (length : Nat) : Nat → Nat → Option Nat
  | 0, i => some i
  | fuel + 1, i =>
    if i < length ∧ rd buffer i = rd buffer (i - 1) then
      if i + 1 ≤ 2 ^ 31 - 1 then count_repeat_int_loop buffer length fuel (i + 1) else none
    else some i

/-- Source function `count_repeat(buffer, length)` with the counter `int i`: the loop starts
at `i = 3` and runs at most `length` times; the result is the value of `i` converted to
`size_t`, and `none` stands for the signed overflow of `i`. -/
def count_repeat_int (buffer : List Nat) (length : Nat) : Option Nat :=
  count_repeat_int_loop buffer length length 3

/-! ## The row positions behind the encoder calls -/

/-- The enumeration `Resolution` of parameters.h. -/
inductive Resolution where
  | RES_300
  | RES_600
  | RES_1200
  | RES_HQ1200A
  | RES_HQ1200B
  | RES_600x300
  deriving DecidableEq, Repr

/-- The enumeration `Paper` of parameters.h. -/
inductive Paper where
  | P_LEGAL
  | P_LETTER
  | P_A4
  | P_EXECUTIVE
  | P_JISB5
  | P_B5
  | P_A5
  | P_B6
  | P_A6
  | P_C5
  | P_DL
  | P_COM10
  | P_MONARCH
  deriving DecidableEq, Repr

/-- The first `switch` of `param_validate` (lines 160-214): `paper_width` and `paper_height`
in dots at 120 DPI. -/
def paper_dots : Paper → Nat × Nat
  | Paper.P_LEGAL => (1020, 1680)
  | Paper.P_A4 => (992, 1403)
  | Paper.P_EXECUTIVE => (870, 1260)
  | Paper.P_JISB5 => (860, 1214)
  | Paper.P_B5 => (832, 1180)
  | Paper.P_A5 => (701, 992)
  | Paper.P_B6 => (590, 832)
  | Paper.P_A6 => (496, 701)
  | Paper.P_C5 => (767, 1082)
  | Paper.P_DL => (520, 1039)
  | Paper.P_COM10 => (495, 1140)
  | Paper.P_MONARCH => (465, 900)
  | Paper.P_LETTER => (1020, 1320)

/-- The second `switch` of `param_validate` (lines 216-236): `paper_width` and
`paper_height` in dots at the selected resolution (`size_t` products of at most 16800, which
do not wrap). -/
def paper_size (p_paper : Paper) (p_resolution : Resolution) : Nat × Nat :=
  match p_resolution with
  | Resolution.RES_300 => ((paper_dots p_paper).1 * 5 / 2, (paper_dots p_paper).2 * 5 / 2)
  | Resolution.RES_1200 => ((paper_dots p_paper).1 * 10, (paper_dots p_paper).2 * 10)
  | Resolution.RES_HQ1200A => ((paper_dots p_paper).1 * 10, (paper_dots p_paper).2 * 10)
  | Resolution.RES_HQ1200B => ((paper_dots p_paper).1 * 10, (paper_dots p_paper).2 * 10)
  | Resolution.RES_600x300 => ((paper_dots p_paper).1 * 5, (paper_dots p_paper).2 * 5 / 2)
  | Resolution.RES_600 => ((paper_dots p_paper).1 * 5, (paper_dots p_paper).2 * 5)

/-- The globals `p_width`, `p_height` and `p_padding` when `param_validate` returns. -/
structure Geometry where
  p_width : Nat
  p_height : Nat
  p_padding : Nat
  deriving DecidableEq, Repr

/-- Source function `param_validate()`, lines 238-249, for the paper and the resolution
selected and the values of `p_width` and `p_height` on entry (0 when not set). `none` is the
exit of the program through `errx`. The subtraction is guarded by the test on the width. -/
def param_validate (p_paper : Paper) (p_resolution : Resolution) (p_width p_height : Nat) :
    Option Geometry :=
  let paper_width := (paper_size p_paper p_resolution).1
  let paper_height := (paper_size p_paper p_resolution).2
  let p_width := if p_width = 0 then paper_width else p_width
  let p_height := if p_height = 0 then paper_height else p_height
  if p_width > paper_width then none
  else if p_height > paper_height then none
  else some { p_width := p_width, p_height := p_height,
              p_padding := ((paper_width - p_width) / 2) >>> 3 }

/-! ## The page geometry of `main` and `pcl_page` (main.c, line 53; pcl.c, lines 128-159) -/

/-- The value `main` gives to `row_length` (main.c, line 53): `(p_width + 7) >> 3`. -/
def main_row_length (p_width : Nat) : Nat := size_add p_width 7 >>> 3

/-- The margins of `pcl_page` for a resolution: the number of rows and the number of bytes
that `in += rows * row_length + bytes` skips at the top and on the left, which are also
half the amounts subtracted from `row_count` and from `row_length`. -/
def page_margins : Resolution → Nat × Nat
  | Resolution.RES_300 => (50, 6)
  | Resolution.RES_1200 => (200, 25)
  | Resolution.RES_HQ1200A => (200, 25)
  | Resolution.RES_HQ1200B => (200, 25)
  | Resolution.RES_600x300 => (50, 12)
  | Resolution.RES_600 => (100, 12)

/-- The value of `printable_length` after the `switch` of `pcl_page` (`size_t` arithmetic,
none of it guarded). -/
def printable_length (p_resolution : Resolution) (p_padding row_length : Nat) : Nat :=
  match p_resolution with
  | Resolution.RES_300 =>
    if size_sub row_length 12 > 624 then 624 else size_sub row_length 12
  | Resolution.RES_1200 =>
    if size_add (size_sub row_length 50) p_padding > 2496 then size_sub 2496 p_padding
    else size_sub row_length 50
  | Resolution.RES_HQ1200A =>
    if size_add (size_sub row_length 50) p_padding > 2496 then size_sub 2496 p_padding
    else size_sub row_length 50
  | Resolution.RES_HQ1200B =>
    if size_add (size_sub row_length 50) p_padding > 2496 then size_sub 2496 p_padding
    else size_sub row_length 50
  | Resolution.RES_600x300 =>
    if size_add (size_sub row_length 24) p_padding > 1248 then size_sub 1248 p_padding
    else size_sub row_length 24
  | Resolution.RES_600 =>
    if size_add (size_sub row_length 24) p_padding > 1248 then size_sub 1248 p_padding
    else size_sub row_length 24

/-- The value of `printable_rows` after the `switch` of `pcl_page`. -/
def printable_rows (p_resolution : Resolution) (row_count : Nat) : Nat :=
  match p_resolution with
  | Resolution.RES_300 => size_sub row_count 100
  | Resolution.RES_1200 => size_sub row_count 400
  | Resolution.RES_HQ1200A => size_sub row_count 400
  | Resolution.RES_HQ1200B => size_sub row_count 400
  | Resolution.RES_600x300 => size_sub row_count 100
  | Resolution.RES_600 => size_sub row_count 200

/-- The number of bytes by which the `switch` of `pcl_page` advances `in`. -/
def first_printable (p_resolution : Resolution) (row_length : Nat) : Nat :=
  (page_margins p_resolution).1 * row_length + (page_margins p_resolution).2

/-! ## The row loop of `pcl_page` (pcl.c, lines 176-204)

The page is the list of its bytes and `in` is an offset into it. -/

/-- One call of `compress` by the row loop, as logged: the row index, whether a previous row
was passed (`last_row` not null), and whether `raster_data` emitted the block before it
appended the compressed row. -/
structure RowEvent where
  row : Nat
  with_last : Bool
  flushed : Bool
  deriving DecidableEq, Repr

/-- The state of the row loop: the framer (`out_block`, `block_len`, `block_rows` and the
standard output), the offset of `in` in the page, and the log of the `compress` calls (the
log is never read by the code). -/
structure PageLoop where
  framer : Framer
  pos : Nat
  events : List RowEvent
  deriving DecidableEq, Repr

/-- The test of `raster_data` (line 247) for a row of `row_length` bytes. -/
def block_is_full (s : Framer) (row_length : Nat) : Bool :=
  decide (row_length + s.buffer.length > 16384 ∨ s.buffer_rows ≥ 128)

/-- One pass of the row loop (lines 176-204) for the row index `row`; `none` if `compress`
does not return. -/
def row_step (p_resolution : Resolution) (p_padding : Nat) (page : List Nat)
    (row_length printable_length : Nat) (s : PageLoop) (row : Nat) : Option PageLoop :=
  if p_resolution = Resolution.RES_HQ1200A ∧ row % 2 = 1 then
    some { framer := raster_data s.framer [0], pos := s.pos + row_length, events := s.events }
  else
    let last_row : Option (List Nat) :=
      if s.framer.buffer_rows < 128 ∧ row ≠ 0 then
        some ((page.drop (s.pos - row_length)).take printable_length)
      else none
    match compress ((page.drop s.pos).take printable_length) last_row p_padding with
    | none => none
    | some out_row =>
      some { framer :=
               if p_resolution = Resolution.RES_600x300 then
                 raster_data (raster_data s.framer out_row) [0]
               else raster_data s.framer out_row,
             pos := s.pos + row_length,
             events := s.events ++ [{ row := row, with_last := last_row.isSome,
                                      flushed := block_is_full s.framer out_row.length }] }

/-- The row loop `for (row = 0; row < printable_rows; row++)`, from the row index `row` with
`remaining` rows to go. -/
def row_loop (p_resolution : Resolution) (p_padding : Nat) (page : List Nat)
    (row_length printable_length : Nat) : Nat → Nat → PageLoop → Option PageLoop
  | 0, _, s => some s
  | remaining + 1, row, s =>
    match row_step p_resolution p_padding page row_length printable_length s row with
    | none => none
    | some s => row_loop p_resolution p_padding page row_length printable_length remaining
        (row + 1) s

/-- Source function `pcl_page(in, row_length, row_count)` with the globals `p_resolution` and
`p_padding`: the state of the row loop at its exit and the bytes on the standard output when
the function returns (the text of the command, the blocks, the final flush of lines 211-214,
and the text `1030M` with a form feed). The two calls of `calloc` are taken to succeed. -/
def pcl_page (p_resolution : Resolution) (p_padding : Nat) (page : List Nat)
    (row_length row_count : Nat) : Option (PageLoop × List Nat) :=
  match row_loop p_resolution p_padding page row_length
      (printable_length p_resolution p_padding row_length)
      (printable_rows p_resolution row_count) 0
      { framer := { empty_framer with stdout := [27, 42, 98, 49, 48, 51, 48, 109] },
        pos := first_printable p_resolution row_length, events := [] } with
  | none => none
  | some s => some (s, final_flush s.framer ++ [49, 48, 51, 48, 77, 12])

/-! ## A page whose rows fill a block before 128 rows

A page for letter paper at 300 dpi with the data width 1136 and the data height 221: rows of
142 bytes, of which `pcl_page` prints the 130 bytes after the first 6 of each of the 121 rows
that follow the first 50. The printable bytes alternate between `01 02 01 02 ...` and
`02 01 02 01 ...` from row to row, so that no row has three equal bytes in sequence and every
byte differs from the byte above it. -/

/-- The 130 printable bytes of the printable row `r` of `dense_page`. -/
def dense_row (r : Nat) : List Nat :=
  if r % 2 = 0 then (List.replicate 65 [1, 2]).flatten else (List.replicate 65 [2, 1]).flatten

/-- The `k` rows of `dense_page` from the printable row `r` on, each of 142 bytes. -/
def dense_rows : Nat → Nat → List Nat
  | 0, _ => []
  | k + 1, r => (List.replicate 6 0 ++ dense_row r ++ List.replicate 6 0) ++ dense_rows k (r + 1)

/-- The page: 50 zero rows, the 121 printable rows, 50 zero rows. -/
def dense_page : List Nat :=
  List.replicate 7100 0 ++ (dense_rows 121 0 ++ List.replicate 7100 0)

/-! ## A row of 253 groups

In the row `flush_row` every second byte differs from the all-zero previous row
`flush_prev`: each of its 253 non-zero bytes is a window of its own and is encoded as a
literal of one byte, and the 253rd group ends the row. -/

/-- The row `01 00 01 00 ... 01` of 505 bytes. -/
def flush_row : List Nat := (List.replicate 252 [1, 0]).flatten ++ [1]

/-- The all-zero previous row of 505 bytes. -/
def flush_prev : List Nat := List.replicate 505 0

/-- The encodings of the 253 literal groups of `flush_row` over `flush_prev`: the first with
skip 0, the others with skip 1. -/
def flush_body : List Nat := [0, 1] ++ (List.replicate 252 [8, 1]).flatten

/-- The encoder calls for the 253 literal groups of `flush_row` over `flush_prev`. -/
def flush_calls : List Call := Call.lit 0 1 [1] :: List.replicate 252 (Call.lit 1 1 [1])

/-! ## A row of 253 groups without a previous row

The row `nr_row` is encoded, without a previous row, as 126 pairs of a literal of one byte
and a repeat of three bytes, then a literal of one byte: the 253rd group ends the row. -/

/-- The row `01 02 02 02` 126 times, then `01`: 505 bytes. -/
def nr_row : List Nat := (List.replicate 126 [1, 2, 2, 2]).flatten ++ [1]

/-- The encodings of the 253 groups of `nr_row`. -/
def nr_body : List Nat := (List.replicate 126 [0, 1, 129, 2]).flatten ++ [0, 1]

/-- The encoder calls for the 253 groups of `nr_row`. -/
def nr_calls : List Call :=
  (List.replicate 126 [Call.lit 0 1 [1], Call.rep 0 3 2]).flatten ++ [Call.lit 0 1 [1]]

/-! ## One pass of the window loop with the counter of `count_repeat` as declared -/

/-- The value of `count` in one pass of the window loop (lines 103-110) when `count_repeat`
counts in `int i` as the source declares it; `none` stands for the signed overflow of
`i`. -/
def window_count_int (inp : List Nat) (different : Nat) : Option Nat :=
  if different ≥ 3 ∧ rd inp 0 = rd inp 1 ∧ rd inp 0 = rd inp 2 then
    count_repeat_int inp different
  else some (count_no_repeat inp different)

/-! ## `compress` with the counter of `count_repeat` as declared

The same loops as `window_loop` and `main_loop`, with the count of line 105 taken from
`count_repeat_int`. -/

/-- The loop of lines 99-126, `while (different)`, when `count_repeat` counts in `int i`.
Returns `none` if the counter `int i` overflows (or if the bound on the iterations is used
up). -/
def window_loop_int : Nat → Cursor → List Nat → Option (List Nat) → Nat → Nat →
    Option (Cursor × List Nat × Option (List Nat))
  | 0, _, _, _, _, _ => none
  | fuel + 1, c, inp, last, different, skip =>
    if different = 0 then some (c, inp, last)
    else
      match window_count_int inp different with
      | none => none
      | some count =>
        let c :=
          if different ≥ 3 ∧ rd inp 0 = rd inp 1 ∧ rd inp 0 = rd inp 2 then
            emit_repeat c skip count (rd inp 0)
          else emit_literal c skip count inp
        let inp := inp.drop count
        let last := last.map (fun l => l.drop count)
        let different := different - count
        if c.groups ≥ 253 then some (c, inp, last)
        else window_loop_int fuel c inp last different 0

/-- The loop of lines 80-134, `while (in_length)`, when `count_repeat` counts in `int i`. -/
def main_loop_int : Nat → Cursor → List Nat → Option (List Nat) → Option Cursor
  | 0, _, _, _ => none
  | fuel + 1, c, inp, last =>
    if inp.length = 0 then some c
    else
      let s : Nat × List Nat × Option (List Nat) :=
        match last with
        | some l => ((skip_loop inp l 0).1, (skip_loop inp l 0).2.1, some (skip_loop inp l 0).2.2)
        | none => (0, inp, none)
      let skip := s.1
      let inp := s.2.1
      let last := s.2.2
      if inp.length = 0 then some c
      else
        let different :=
          match last with
          | some l => different_loop inp l inp.length 0
          | none => inp.length
        match window_loop_int (different + 1) c inp last different skip with
        | none => none
        | some (c, inp, last) =>
          if c.groups ≥ 253 then some (emit_literal c 0 inp.length inp)
          else main_loop_int fuel c inp last

/-- The body of `compress` when `count_repeat` counts in `int i`. -/
def compress_run_int (inp : List Nat) (last : Option (List Nat)) (p_padding : Nat) :
    Option Cursor :=
  if is_blank inp then some { start_cursor with groups := 255 }
  else main_loop_int (inp.length + 1) (prepend_padding start_cursor p_padding) inp last

/-- Source function `compress(out, in, last, in_length)` with `p_padding`, when
`count_repeat` counts in `int i` as the source declares it: the bytes written to `out`, or
`none` if the counter overflows. -/
def compress_int (inp : List Nat) (last : Option (List Nat)) (p_padding : Nat) :
    Option (List Nat) :=
  (compress_run_int inp last p_padding).map (fun c => c.groups :: c.out)

end OhBrother

namespace OhBrother

/-! ## Machine arithmetic lemmas -/

theorem to_u8_of_lt {v : Nat} (h : v < 256) : to_u8 v = v := by
  unfold to_u8
  exact Nat.mod_eq_of_lt (by norm_num; exact h)

theorem size_sub_of_le {a b : Nat} (hb : b ≤ a) (ha : a < 2 ^ 64) : size_sub a b = a - b := by
  unfold size_sub
  have : a + 2 ^ 64 - b = (a - b) + 2 ^ 64 := by omega
  rw [this, Nat.add_mod_right]
  exact Nat.mod_eq_of_lt (by omega)

theorem size_add_of_lt {a b : Nat} (h : a + b < 2 ^ 64) : size_add a b = a + b := by
  unfold size_add
  exact Nat.mod_eq_of_lt h

/-- The header byte of a repeat group: the three fields do not overlap. -/
theorem repeat_first_byte : ∀ s, s ≤ 3 → ∀ c, c ≤ 31 →
    to_u8 (to_u8 (to_u8 (1 <<< 7) ||| (s <<< 5)) ||| c) = 128 + 32 * s + c
      ∧ 128 ||| (s <<< 5) ||| c = 128 + 32 * s + c := by
  decide

/-- The header byte of a literal group: the two fields do not overlap. -/
theorem literal_first_byte : ∀ s, s ≤ 15 → ∀ c, c ≤ 7 →
    to_u8 (to_u8 (0 ||| (s <<< 3)) ||| c) = 8 * s + c
      ∧ (s <<< 3) ||| c = 8 * s + c := by
  decide

/-! ## `encode_count` -/

theorem encode_count_loop_eq (n : Nat) (buffer : List Nat) :
    encode_count_loop n buffer = buffer ++ List.replicate n 255 := by
  induction n generalizing buffer with
  | zero => simp [encode_count_loop]
  | succ n ih =>
    rw [encode_count_loop, ih, to_u8_of_lt (by norm_num), List.append_assoc]
    rfl

theorem encode_count_eq (buffer : List Nat) (v : Nat) :
    encode_count buffer v = buffer ++ (List.replicate (v / 255) 255 ++ [v % 255]) := by
  have h : v % 255 < 256 := by omega
  rw [encode_count, encode_count_loop_eq, to_u8_of_lt h, List.append_assoc]

theorem decode_count_replicate (k r : Nat) (rest : List Nat) (hr : r ≠ 255) :
    decode_count (List.replicate k 255 ++ r :: rest) = some (r + 255 * k, rest) := by
  induction k with
  | zero => simp [decode_count, hr]
  | succ k ih =>
    rw [List.replicate_succ, List.cons_append, decode_count, if_pos rfl, ih]
    have h : r + 255 * k + 255 = r + 255 * (k + 1) := by omega
    simp only [Option.map_some', h]

theorem decode_count_encode_count (v : Nat) (rest : List Nat) :
    decode_count (encode_count [] v ++ rest) = some (v, rest) := by
  rw [encode_count_eq, List.nil_append, List.append_assoc, List.singleton_append,
    decode_count_replicate _ _ _ (by omega)]
  have h : v % 255 + 255 * (v / 255) = v := Nat.mod_add_div v 255
  rw [h]

/-- C4: `encode_count` appends `v / 255` bytes of value `255` followed by the one byte
`v % 255`, which is below `255`; these are `v / 255 + 1` bytes and the bytes already in the
buffer are unchanged. -/
theorem encode_count_layout (buffer : List Nat) (v : Nat) :
    encode_count buffer v = buffer ++ (List.replicate (v / 255) 255 ++ [v % 255])
      ∧ (encode_count buffer v).length = buffer.length + (v / 255 + 1)
      ∧ v % 255 < 255 := by
  refine ⟨encode_count_eq buffer v, ?_, Nat.mod_lt _ (by norm_num)⟩
  rw [encode_count_eq]
  simp

/-- C5: the escape decoder applied to the bytes of `encode_count v` followed by any bytes
`rest` returns `v` and leaves exactly `rest` unread, for every `v`; in particular for the
values 254, 255, 256, 509, 510 and 511. -/
theorem escape_round_trip :
    (∀ (v : Nat) (rest : List Nat), decode_count (encode_count [] v ++ rest) = some (v, rest))
      ∧ ∀ v ∈ [254, 255, 256, 509, 510, 511], ∀ rest : List Nat,
          decode_count (encode_count [] v ++ rest) = some (v, rest) :=
  ⟨decode_count_encode_count, fun v _ rest => decode_count_encode_count v rest⟩

/-! ## Group layout -/

theorem encode_count_nil (v : Nat) : encode_count [] v = escape_bytes v := by
  rw [encode_count_eq, List.nil_append, escape_bytes]

theorem encode_count_append (buffer : List Nat) (v : Nat) :
    encode_count buffer v = buffer ++ escape_bytes v := by
  rw [encode_count_eq, escape_bytes]

theorem decode_count_escape_bytes (v : Nat) (rest : List Nat) :
    decode_count (escape_bytes v ++ rest) = some (v, rest) := by
  rw [← encode_count_nil]
  exact decode_count_encode_count v rest

/-- A header field below its limit is the value itself. -/
theorem decode_field_small {v limit : Nat} (h : v < limit) (input : List Nat) :
    decode_field (min v limit) limit input = some (v, input) := by
  have hm : min v limit = v := by omega
  have hne : v ≠ limit := by omega
  rw [hm, decode_field, if_neg hne]

/-- A header field at its limit is followed by the escaped excess. -/
theorem decode_field_escape {v limit : Nat} (h : limit ≤ v) (input : List Nat) :
    decode_field (min v limit) limit (escape_bytes (v - limit) ++ input) = some (v, input) := by
  have hm : min v limit = limit := by omega
  have hv : v - limit + limit = v := by omega
  rw [hm, decode_field, if_pos rfl, decode_count_escape_bytes]
  simp only [Option.map_some', hv]

/-- Both cases of a header field, in the shape the group layout uses. -/
theorem decode_field_layout (v limit : Nat) (input : List Nat) :
    decode_field (min v limit) limit
      ((if v ≥ limit then escape_bytes (v - limit) else []) ++ input) = some (v, input) := by
  by_cases h : v ≥ limit
  · rw [if_pos h]
    exact decode_field_escape h input
  · rw [if_neg h, List.nil_append]
    exact decode_field_small (by omega) input

theorem repeat_header (skip biased : Nat) :
    128 ||| (min skip 3 <<< 5) ||| min biased 31 = 128 + 32 * min skip 3 + min biased 31 :=
  (repeat_first_byte (min skip 3) (by omega) (min biased 31) (by omega)).2

theorem literal_header (skip biased : Nat) :
    (min skip 15 <<< 3) ||| min biased 7 = 8 * min skip 15 + min biased 7 :=
  (literal_first_byte (min skip 15) (by omega) (min biased 7) (by omega)).2

/-- The group decoder inverts the layout of §4.2 on every well-formed group. -/
theorem decode_group_encoding (g : Group) (hg : g.wf) (rest : List Nat) :
    decode_group (g.encoding ++ rest) = some (g, rest) := by
  cases g with
  | rep skip count byte =>
    have h2 : 2 ≤ count := hg
    have hge : 128 + 32 * min skip 3 + min (count - 2) 31 ≥ 128 := by omega
    have hs : (128 + 32 * min skip 3 + min (count - 2) 31) / 32 % 4 = min skip 3 := by omega
    have hc : (128 + 32 * min skip 3 + min (count - 2) 31) % 32 = min (count - 2) 31 := by
      omega
    have hcount : count - 2 + 2 = count := by omega
    simp only [Group.encoding, repeat_header, List.append_assoc, List.singleton_append,
      List.cons_append, List.nil_append, decode_group, if_pos hge, hs, hc,
      decode_field_layout, hcount]
  | literal skip count bytes =>
    obtain ⟨h1, hlen⟩ : 1 ≤ count ∧ bytes.length = count := hg
    have hlt : ¬ 8 * min skip 15 + min (count - 1) 7 ≥ 128 := by omega
    have hs : (8 * min skip 15 + min (count - 1) 7) / 8 % 16 = min skip 15 := by omega
    have hc : (8 * min skip 15 + min (count - 1) 7) % 8 = min (count - 1) 7 := by omega
    have hcount : count - 1 + 1 = count := by omega
    have hnot : ¬ (bytes ++ rest).length < count := by
      rw [List.length_append]
      omega
    have htake : (bytes ++ rest).take count = bytes := by
      rw [← hlen]
      exact List.take_left' rfl
    have hdrop : (bytes ++ rest).drop count = rest := by
      rw [← hlen]
      exact List.drop_left' rfl
    simp only [Group.encoding, literal_header, List.append_assoc, List.singleton_append,
      List.cons_append, List.nil_append, decode_group, if_neg hlt, hs, hc,
      decode_field_layout, hcount, if_neg hnot, htake, hdrop]

/-- The stores of `encode_repeat` build the header byte of the repeat layout. -/
theorem encode_repeat_header (skip biased : Nat) :
    to_u8 (to_u8 (to_u8 (1 <<< 7) ||| ((if skip > 2 then 3 else skip) <<< 5))
        ||| (if biased > 30 then 31 else biased))
      = 128 ||| (min skip 3 <<< 5) ||| min biased 31 := by
  have hs : (if skip > 2 then 3 else skip) = min skip 3 := by split <;> omega
  have hb : (if biased > 30 then 31 else biased) = min biased 31 := by split <;> omega
  rw [hs, hb, repeat_header]
  exact (repeat_first_byte (min skip 3) (by omega) (min biased 31) (by omega)).1

/-- The stores of `encode` build the header byte of the literal layout. -/
theorem encode_header (skip biased : Nat) :
    to_u8 (to_u8 (0 ||| ((if skip > 14 then 15 else skip) <<< 3))
        ||| (if biased > 6 then 7 else biased))
      = (min skip 15 <<< 3) ||| min biased 7 := by
  have hs : (if skip > 14 then 15 else skip) = min skip 15 := by split <;> omega
  have hb : (if biased > 6 then 7 else biased) = min biased 7 := by split <;> omega
  rw [hs, hb, literal_header]
  exact (literal_first_byte (min skip 15) (by omega) (min biased 7) (by omega)).1

/-- On a count of at least two, `encode_repeat` appends the repeat layout of §4.2. -/
theorem encode_repeat_eq (buffer : List Nat) (skip count byte : Nat)
    (h2 : 2 ≤ count) (hc : count < 2 ^ 64) :
    encode_repeat buffer skip count byte
      = buffer ++ (Group.rep skip count byte).encoding := by
  simp only [encode_repeat, size_sub_of_le h2 hc, encode_repeat_header, Group.encoding,
    encode_count_append]
  by_cases hs : skip ≥ 3 <;> by_cases hb : count - 2 ≥ 31 <;>
    simp [hs, hb]

/-- On a count of at least one, `encode` appends the literal layout of §4.2 for the first
`count` bytes at `bytes`. -/
theorem encode_eq (buffer : List Nat) (skip count : Nat) (bytes : List Nat)
    (h1 : 1 ≤ count) (hc : count < 2 ^ 64) :
    encode buffer skip count bytes
      = buffer ++ (Group.literal skip count (bytes.take count)).encoding := by
  have hadd : size_add (count - 1) 1 = count := by
    rw [size_add_of_lt (by omega)]
    omega
  simp only [encode, size_sub_of_le h1 hc, encode_header, Group.encoding,
    encode_count_append, hadd]
  by_cases hs : skip ≥ 15 <;> by_cases hb : count - 1 ≥ 7 <;>
    simp [hs, hb]

/-- C6: for `count ≥ 2` (a `size_t` value), `encode_repeat` appends one header byte
`0x80 | (min(skip,3) << 5) | min(count-2,31)`, then `encode_count(skip-3)` exactly when
`skip ≥ 3`, then `encode_count(count-2-31)` exactly when `count-2 ≥ 31`, then the byte `b`;
and the group decoder recovers `skip`, `count` and `b` from these bytes, leaving what
follows them unread. -/
theorem encode_repeat_layout (buffer rest : List Nat) (skip count b : Nat)
    (h2 : 2 ≤ count) (hc : count < 2 ^ 64) :
    encode_repeat buffer skip count b
        = buffer ++ ([128 ||| (min skip 3 <<< 5) ||| min (count - 2) 31]
            ++ (if skip ≥ 3 then encode_count [] (skip - 3) else [])
            ++ (if count - 2 ≥ 31 then encode_count [] (count - 2 - 31) else [])
            ++ [b])
      ∧ decode_group (encode_repeat [] skip count b ++ rest)
          = some (Group.rep skip count b, rest) := by
  constructor
  · rw [encode_repeat_eq buffer skip count b h2 hc]
    simp only [Group.encoding, encode_count_nil]
  · rw [encode_repeat_eq [] skip count b h2 hc, List.nil_append]
    exact decode_group_encoding (Group.rep skip count b) h2 rest

/-- Instance of C6 with both escapes present: `skip = 5`, `count = 40`. -/
theorem encode_repeat_layout_witness :
    encode_repeat [9] 5 40 7
        = [9] ++ ([128 ||| (min 5 3 <<< 5) ||| min (40 - 2) 31]
            ++ (if 5 ≥ 3 then encode_count [] (5 - 3) else [])
            ++ (if 40 - 2 ≥ 31 then encode_count [] (40 - 2 - 31) else [])
            ++ [7])
      ∧ decode_group (encode_repeat [] 5 40 7 ++ [4]) = some (Group.rep 5 40 7, [4]) :=
  encode_repeat_layout [9] [4] 5 40 7 (by decide) (by norm_num)

/-- C7: for `count ≥ 1` (a `size_t` value) and `count` bytes `bytes`, `encode` appends one
header byte `(min(skip,15) << 3) | min(count-1,7)`, whose bit 7 is clear, then
`encode_count(skip-15)` exactly when `skip ≥ 15`, then `encode_count(count-1-7)` exactly
when `count-1 ≥ 7`, then the `count` bytes verbatim; and the group decoder recovers the
group from these bytes. -/
theorem encode_layout (buffer rest bytes : List Nat) (skip count : Nat)
    (h1 : 1 ≤ count) (hc : count < 2 ^ 64) (hlen : bytes.length = count) :
    encode buffer skip count bytes
        = buffer ++ ([(min skip 15 <<< 3) ||| min (count - 1) 7]
            ++ (if skip ≥ 15 then encode_count [] (skip - 15) else [])
            ++ (if count - 1 ≥ 7 then encode_count [] (count - 1 - 7) else [])
            ++ bytes)
      ∧ (min skip 15 <<< 3) ||| min (count - 1) 7 < 128
      ∧ decode_group (encode [] skip count bytes ++ rest)
          = some (Group.literal skip count bytes, rest) := by
  have htake : bytes.take count = bytes := by
    rw [← hlen]
    exact List.take_length bytes
  refine ⟨?_, ?_, ?_⟩
  · rw [encode_eq buffer skip count bytes h1 hc, htake]
    simp only [Group.encoding, encode_count_nil]
  · rw [literal_header]
    omega
  · rw [encode_eq [] skip count bytes h1 hc, htake, List.nil_append]
    exact decode_group_encoding (Group.literal skip count bytes) ⟨h1, hlen⟩ rest

/-- Instance of C7 with both escapes present: `skip = 20`, `count = 9`. -/
theorem encode_layout_witness :
    encode [9] 20 9 [1, 2, 3, 4, 5, 6, 7, 8, 9]
        = [9] ++ ([(min 20 15 <<< 3) ||| min (9 - 1) 7]
            ++ (if 20 ≥ 15 then encode_count [] (20 - 15) else [])
            ++ (if 9 - 1 ≥ 7 then encode_count [] (9 - 1 - 7) else [])
            ++ [1, 2, 3, 4, 5, 6, 7, 8, 9])
      ∧ (min 20 15 <<< 3) ||| min (9 - 1) 7 < 128
      ∧ decode_group (encode [] 20 9 [1, 2, 3, 4, 5, 6, 7, 8, 9] ++ [4])
          = some (Group.literal 20 9 [1, 2, 3, 4, 5, 6, 7, 8, 9], [4]) :=
  encode_layout [9] [4] [1, 2, 3, 4, 5, 6, 7, 8, 9] 20 9 (by decide) (by norm_num) rfl

/-! ## Blank and unchanged rows -/

theorem is_blank_iff (inp : List Nat) : is_blank inp = true ↔ ∀ b ∈ inp, b = 0 := by
  induction inp with
  | nil => simp [is_blank]
  | cons a rest ih =>
    by_cases ha : a = 0
    · simp [is_blank, ha, ih]
    · simp [is_blank, ha]

theorem is_blank_false_iff (inp : List Nat) : is_blank inp = false ↔ ∃ b ∈ inp, b ≠ 0 := by
  rw [← Bool.not_eq_true, is_blank_iff]
  push_neg
  rfl

theorem compress_of_blank (inp : List Nat) (last : Option (List Nat)) (p_padding : Nat)
    (h : is_blank inp = true) : compress inp last p_padding = some [255] := by
  simp [compress, compress_run, start_cursor, h]

/-- The skip loop run on a row and itself consumes the whole row. -/
theorem skip_loop_self (inp : List Nat) (skip : Nat) :
    skip_loop inp inp skip = (skip + inp.length, [], []) := by
  induction inp generalizing skip with
  | nil => simp [skip_loop]
  | cons a rest ih =>
    have h : a = rd (a :: rest) 0 := by simp [rd]
    rw [skip_loop, if_pos h, List.drop_one, List.tail_cons, ih, List.length_cons]
    congr 1
    omega

/-- C2: if every byte of the current row is zero then, for every row length (zero
included), every previous row and every padding, `compress` writes exactly the byte `255`
and returns the length 1. -/
theorem blank_row (inp : List Nat) (last : Option (List Nat)) (p_padding : Nat)
    (h : ∀ b ∈ inp, b = 0) :
    compress inp last p_padding = some [255]
      ∧ (compress inp last p_padding).map List.length = some 1 := by
  have hc := compress_of_blank inp last p_padding ((is_blank_iff inp).2 h)
  rw [hc]
  exact ⟨rfl, rfl⟩

/-- Instance of C2: a blank row of four bytes over a non-blank previous row, padding 5. -/
theorem blank_row_witness :
    compress [0, 0, 0, 0] (some [1, 2, 3, 4]) 5 = some [255]
      ∧ (compress [0, 0, 0, 0] (some [1, 2, 3, 4]) 5).map List.length = some 1 :=
  blank_row [0, 0, 0, 0] (some [1, 2, 3, 4]) 5 (by decide)

/-- C3 as stated fails: a non-empty all-zero row equal to its previous row is encoded as
the blank sentinel `255`, and with a padding of two a non-blank row equal to its previous
row is encoded as the padding group alone, under the group count `1`. -/
theorem unchanged_row_counterexample :
    compress [0] (some [0]) 0 = some [255]
      ∧ compress [5, 5, 5, 5] (some [5, 5, 5, 5]) 2 = some [1, 128, 0] := by
  decide

/-- C3, amended: for every current row with at least one non-zero byte that is
byte-for-byte equal to the supplied previous row, with a padding of 0 or 1, the output of
`compress` is exactly the single byte `0`. -/
theorem unchanged_row (inp : List Nat) (p_padding : Nat)
    (h : ∃ b ∈ inp, b ≠ 0) (hp : p_padding ≤ 1) :
    compress inp (some inp) p_padding = some [0] := by
  have hb : is_blank inp = false := (is_blank_false_iff inp).2 h
  have hpad : ¬ p_padding > 1 := by omega
  have hlen : ¬ inp.length = 0 := by
    obtain ⟨b, hmem, _⟩ := h
    intro h0
    rw [List.length_eq_zero] at h0
    rw [h0] at hmem
    exact List.not_mem_nil b hmem
  simp [compress, compress_run, prepend_padding, start_cursor, hb, hpad, main_loop, hlen,
    skip_loop_self]

/-- Instance of the amended C3: scenario 2 of the specification. -/
theorem unchanged_row_witness : compress [5, 5, 5, 5] (some [5, 5, 5, 5]) 0 = some [0] :=
  unchanged_row [5, 5, 5, 5] 0 ⟨5, by decide, by decide⟩ (by decide)

/-! ## Run lengths -/

theorem count_repeat_loop_ge (buffer : List Nat) (length fuel i : Nat) :
    i ≤ count_repeat_loop buffer length fuel i := by
  induction fuel generalizing i with
  | zero => simp [count_repeat_loop]
  | succ fuel ih =>
    rw [count_repeat_loop]
    split
    · exact Nat.le_trans (Nat.le_succ i) (ih (i + 1))
    · exact Nat.le_refl i

theorem count_repeat_loop_le (buffer : List Nat) (length fuel i : Nat) (hi : i ≤ length) :
    count_repeat_loop buffer length fuel i ≤ length := by
  induction fuel generalizing i with
  | zero => simpa [count_repeat_loop] using hi
  | succ fuel ih =>
    rw [count_repeat_loop]
    split
    · next h => exact ih (i + 1) h.1
    · exact hi

/-- On a window of at least three bytes `count_repeat` returns between 3 and the window
length. -/
theorem count_repeat_bounds (buffer : List Nat) (length : Nat) (h : 3 ≤ length) :
    3 ≤ count_repeat buffer length ∧ count_repeat buffer length ≤ length :=
  ⟨count_repeat_loop_ge buffer length length 3, count_repeat_loop_le buffer length length 3 h⟩

theorem count_no_repeat_loop_le (buffer : List Nat) (length fuel i : Nat) (hi : i ≤ length) :
    count_no_repeat_loop buffer length fuel i ≤ length := by
  induction fuel generalizing i with
  | zero => simpa [count_no_repeat_loop] using hi
  | succ fuel ih =>
    rw [count_no_repeat_loop]
    split
    · next h =>
      split
      · omega
      · exact ih (i + 1) h
    · exact hi

theorem count_no_repeat_loop_ge (buffer : List Nat) (length fuel i : Nat) :
    i - 2 ≤ count_no_repeat_loop buffer length fuel i := by
  induction fuel generalizing i with
  | zero => simp [count_no_repeat_loop]
  | succ fuel ih =>
    rw [count_no_repeat_loop]
    split
    · split
      · exact Nat.le_refl _
      · exact Nat.le_trans (by omega) (ih (i + 1))
    · omega

theorem count_no_repeat_le (buffer : List Nat) (length : Nat) :
    count_no_repeat buffer length ≤ length := by
  unfold count_no_repeat
  apply count_no_repeat_loop_le
  split <;> omega

/-- Under the condition of the caller (a non-empty window that does not start with three
equal bytes) `count_no_repeat` returns at least 1. -/
theorem count_no_repeat_pos (buffer : List Nat) (length : Nat) (h1 : 1 ≤ length)
    (h : ¬ (length ≥ 3 ∧ rd buffer 0 = rd buffer 1 ∧ rd buffer 0 = rd buffer 2)) :
    1 ≤ count_no_repeat buffer length := by
  unfold count_no_repeat
  by_cases h2 : length ≤ 2
  · rw [if_pos h2]
    obtain ⟨n, rfl⟩ : ∃ n, length = n + 1 := ⟨length - 1, by omega⟩
    rw [count_no_repeat_loop, if_neg (Nat.lt_irrefl _)]
    exact h1
  · rw [if_neg h2]
    obtain ⟨n, rfl⟩ : ∃ n, length = n + 1 := ⟨length - 1, by omega⟩
    have hlt : 2 < n + 1 := by omega
    have hne : ¬ (rd buffer 2 = rd buffer (2 - 1) ∧ rd buffer 2 = rd buffer (2 - 2)) := by
      intro hh
      apply h
      refine ⟨by omega, ?_, ?_⟩
      · exact hh.2.symm.trans hh.1
      · exact hh.2.symm
    rw [count_no_repeat_loop, if_pos hlt, if_neg hne]
    exact Nat.le_trans (by omega) (count_no_repeat_loop_ge buffer (n + 1) n (2 + 1))

theorem different_loop_ge (inp last : List Nat) (fuel d : Nat) :
    d ≤ different_loop inp last fuel d := by
  induction fuel generalizing d with
  | zero => simp [different_loop]
  | succ fuel ih =>
    rw [different_loop]
    split
    · exact Nat.le_trans (Nat.le_succ d) (ih (d + 1))
    · exact Nat.le_refl d

theorem different_loop_le (inp last : List Nat) (fuel d : Nat) (hd : d ≤ inp.length) :
    different_loop inp last fuel d ≤ inp.length := by
  induction fuel generalizing d with
  | zero => simpa [different_loop] using hd
  | succ fuel ih =>
    rw [different_loop]
    split
    · next h => exact ih (d + 1) h.1
    · exact hd

/-- After the skip loop, a non-empty remainder starts with a byte that differs from the
previous row, so the window that follows is not empty. -/
theorem different_loop_pos (inp last : List Nat) (h1 : 1 ≤ inp.length)
    (h : rd inp 0 ≠ rd last 0) : 1 ≤ different_loop inp last inp.length 0 := by
  obtain ⟨n, hn⟩ : ∃ n, inp.length = n + 1 := ⟨inp.length - 1, by omega⟩
  rw [hn, different_loop, if_pos ⟨by omega, h⟩]
  exact different_loop_ge inp last n (0 + 1)

theorem skip_loop_length (inp last : List Nat) (skip : Nat) :
    (skip_loop inp last skip).2.1.length ≤ inp.length := by
  induction inp generalizing last skip with
  | nil => simp [skip_loop]
  | cons a rest ih =>
    rw [skip_loop]
    split
    · exact Nat.le_trans (ih _ _) (by simp)
    · exact Nat.le_refl _

theorem skip_loop_differs (inp last : List Nat) (skip : Nat)
    (h : 1 ≤ (skip_loop inp last skip).2.1.length) :
    rd (skip_loop inp last skip).2.1 0 ≠ rd (skip_loop inp last skip).2.2 0 := by
  induction inp generalizing last skip with
  | nil => simp [skip_loop] at h
  | cons a rest ih =>
    rw [skip_loop] at h ⊢
    split
    · next heq =>
      rw [if_pos heq] at h
      exact ih _ _ h
    · next hne =>
      simpa [rd] using hne

/-! ## The group counter -/

theorem emit_repeat_groups (c : Cursor) (skip count byte : Nat) (h : c.groups < 253) :
    (emit_repeat c skip count byte).groups = c.groups + 1 :=
  to_u8_of_lt (by omega)

theorem emit_literal_groups (c : Cursor) (skip count : Nat) (inp : List Nat)
    (h : c.groups < 254) : (emit_literal c skip count inp).groups = c.groups + 1 :=
  to_u8_of_lt (by omega)

theorem emit_repeat_calls (c : Cursor) (skip count byte : Nat) :
    (emit_repeat c skip count byte).calls = c.calls ++ [Call.rep skip count byte] := rfl

theorem emit_literal_calls (c : Cursor) (skip count : Nat) (inp : List Nat) :
    (emit_literal c skip count inp).calls = c.calls ++ [Call.lit skip count (inp.take count)] :=
  rfl

/-- One pass of the window loop: the number of bytes it consumes and the cursor after
`++*groups`. -/
theorem window_step (c : Cursor) (inp : List Nat) (different skip : Nat)
    (h0 : different ≠ 0) (hg : c.groups = c.calls.length) (hlt : c.groups < 253) :
    ∃ count c1,
      (if different ≥ 3 ∧ rd inp 0 = rd inp 1 ∧ rd inp 0 = rd inp 2 then
          count_repeat inp different
        else count_no_repeat inp different) = count
      ∧ (if different ≥ 3 ∧ rd inp 0 = rd inp 1 ∧ rd inp 0 = rd inp 2 then
          emit_repeat c skip count (rd inp 0)
        else emit_literal c skip count inp) = c1
      ∧ 1 ≤ count ∧ count ≤ different
      ∧ c1.groups = c1.calls.length ∧ c1.groups = c.groups + 1 := by
  by_cases hrep : different ≥ 3 ∧ rd inp 0 = rd inp 1 ∧ rd inp 0 = rd inp 2
  · have hb := count_repeat_bounds inp different hrep.1
    refine ⟨count_repeat inp different, emit_repeat c skip (count_repeat inp different) (rd inp 0),
      if_pos hrep, if_pos hrep, by omega, hb.2, ?_, emit_repeat_groups c _ _ _ hlt⟩
    rw [emit_repeat_groups c _ _ _ hlt, emit_repeat_calls, List.length_append, hg]
    rfl
  · have hpos := count_no_repeat_pos inp different (by omega) hrep
    refine ⟨count_no_repeat inp different, emit_literal c skip (count_no_repeat inp different) inp,
      if_neg hrep, if_neg hrep, hpos, count_no_repeat_le inp different, ?_,
      emit_literal_groups c _ _ _ (by omega)⟩
    rw [emit_literal_groups c _ _ _ (by omega), emit_literal_calls, List.length_append, hg]
    rfl

/-- The window loop returns within `different + 1` passes; the group counter counts the
encoder calls, does not pass 253, and the input only shrinks. -/
theorem window_loop_spec (fuel : Nat) (c : Cursor) (inp : List Nat) (last : Option (List Nat))
    (different skip : Nat) (hf : different < fuel) (hd : different ≤ inp.length)
    (hg : c.groups = c.calls.length) (hlt : c.groups < 253) :
    ∃ c1 inp1 last1, window_loop fuel c inp last different skip = some (c1, inp1, last1)
      ∧ c1.groups = c1.calls.length ∧ c1.groups ≤ 253
      ∧ inp1.length ≤ inp.length ∧ (1 ≤ different → inp1.length < inp.length) := by
  induction fuel generalizing c inp last different skip with
  | zero => omega
  | succ fuel ih =>
    by_cases h0 : different = 0
    · refine ⟨c, inp, last, ?_, hg, by omega, Nat.le_refl _, by omega⟩
      rw [window_loop, if_pos h0]
    · obtain ⟨count, c1, hcount, hc1, h1, hle, hg1, hgr⟩ := window_step c inp different skip h0 hg hlt
      have hdrop : (inp.drop count).length < inp.length := by
        rw [List.length_drop]
        omega
      have hunfold : window_loop (fuel + 1) c inp last different skip
          = if c1.groups ≥ 253 then some (c1, inp.drop count, last.map (fun l => l.drop count))
            else window_loop fuel c1 (inp.drop count) (last.map (fun l => l.drop count))
              (different - count) 0 := by
        rw [window_loop, if_neg h0]
        simp only [hcount, hc1]
      rw [hunfold]
      by_cases h253 : c1.groups ≥ 253
      · rw [if_pos h253]
        exact ⟨c1, _, _, rfl, hg1, by omega, Nat.le_of_lt hdrop, fun _ => hdrop⟩
      · rw [if_neg h253]
        have hd1 : different - count ≤ (inp.drop count).length := by
          rw [List.length_drop]
          omega
        obtain ⟨c2, inp2, last2, hw, hg2, hle2, hlen2, _⟩ :=
          ih c1 (inp.drop count) (last.map (fun l => l.drop count)) (different - count) 0
            (by omega) hd1 hg1 (by omega)
        exact ⟨c2, inp2, last2, hw, hg2, hle2, by omega, fun _ => by omega⟩

/-- The part of a pass of the main loop that follows the sizing of the window. -/
theorem main_loop_tail (fuel : Nat) (c : Cursor) (inp : List Nat) (last : Option (List Nat))
    (different skip : Nat) (h1 : 1 ≤ different) (hd : different ≤ inp.length)
    (hf : inp.length < fuel + 1) (hg : c.groups = c.calls.length) (hlt : c.groups < 253)
    (ih : ∀ (c : Cursor) (inp : List Nat) (last : Option (List Nat)), inp.length < fuel →
      c.groups = c.calls.length → c.groups < 253 →
      ∃ c1, main_loop fuel c inp last = some c1 ∧ c1.groups = c1.calls.length
        ∧ c1.groups ≤ 254) :
    ∃ c1, (match window_loop (different + 1) c inp last different skip with
        | none => none
        | some (c, inp, last) =>
          if c.groups ≥ 253 then some (emit_literal c 0 inp.length inp)
          else main_loop fuel c inp last) = some c1
      ∧ c1.groups = c1.calls.length ∧ c1.groups ≤ 254 := by
  obtain ⟨c1, inp1, last1, hw, hg1, hle1, _, hlen1⟩ :=
    window_loop_spec (different + 1) c inp last different skip (by omega) hd hg hlt
  rw [hw]
  by_cases h253 : c1.groups ≥ 253
  · refine ⟨emit_literal c1 0 inp1.length inp1, by simp only [if_pos h253], ?_, ?_⟩
    · rw [emit_literal_groups c1 _ _ _ (by omega), emit_literal_calls, List.length_append, hg1]
      rfl
    · rw [emit_literal_groups c1 _ _ _ (by omega)]
      omega
  · obtain ⟨c2, hm, hg2, hle2⟩ := ih c1 inp1 last1 (by have := hlen1 h1; omega) hg1 (by omega)
    exact ⟨c2, by simp only [if_neg h253, hm], hg2, hle2⟩

/-- The main loop returns within `in_length + 1` passes; the group counter counts the
encoder calls and does not pass 254. -/
theorem main_loop_spec (fuel : Nat) (c : Cursor) (inp : List Nat) (last : Option (List Nat))
    (hf : inp.length < fuel) (hg : c.groups = c.calls.length) (hlt : c.groups < 253) :
    ∃ c1, main_loop fuel c inp last = some c1 ∧ c1.groups = c1.calls.length
      ∧ c1.groups ≤ 254 := by
  induction fuel generalizing c inp last with
  | zero => omega
  | succ fuel ih =>
    by_cases h0 : inp.length = 0
    · exact ⟨c, by simp only [main_loop, if_pos h0], hg, by omega⟩
    · cases last with
      | none =>
        have hunfold : main_loop (fuel + 1) c inp none
            = (match window_loop (inp.length + 1) c inp none inp.length 0 with
              | none => none
              | some (c, inp, last) =>
                if c.groups ≥ 253 then some (emit_literal c 0 inp.length inp)
                else main_loop fuel c inp last) := by
          rw [main_loop, if_neg h0]
          simp only [if_neg h0]
        rw [hunfold]
        exact main_loop_tail fuel c inp none inp.length 0 (by omega) (Nat.le_refl _) hf hg hlt ih
      | some l =>
        by_cases h1 : (skip_loop inp l 0).2.1.length = 0
        · refine ⟨c, ?_, hg, by omega⟩
          rw [main_loop, if_neg h0]
          simp only [if_pos h1]
        · have hunfold : main_loop (fuel + 1) c inp (some l)
              = (match window_loop
                  (different_loop (skip_loop inp l 0).2.1 (skip_loop inp l 0).2.2
                    (skip_loop inp l 0).2.1.length 0 + 1) c (skip_loop inp l 0).2.1
                  (some (skip_loop inp l 0).2.2)
                  (different_loop (skip_loop inp l 0).2.1 (skip_loop inp l 0).2.2
                    (skip_loop inp l 0).2.1.length 0) (skip_loop inp l 0).1 with
                | none => none
                | some (c, inp, last) =>
                  if c.groups ≥ 253 then some (emit_literal c 0 inp.length inp)
                  else main_loop fuel c inp last) := by
            rw [main_loop, if_neg h0]
            simp only [if_neg h1]
          rw [hunfold]
          have hlen := skip_loop_length inp l 0
          exact main_loop_tail fuel c _ _ _ _
            (different_loop_pos _ _ (by omega) (skip_loop_differs inp l 0 (by omega)))
            (different_loop_le _ _ _ 0 (Nat.zero_le _)) (by omega) hg hlt ih

/-- The cursor at the `return` of `compress` on a non-blank row. -/
theorem compress_run_spec (inp : List Nat) (last : Option (List Nat)) (p_padding : Nat)
    (h : is_blank inp = false) :
    ∃ c, compress_run inp last p_padding = some c ∧ c.groups = c.calls.length
      ∧ c.groups ≤ 254 := by
  unfold compress_run
  rw [h]
  simp only [Bool.false_eq_true, if_false]
  apply main_loop_spec _ _ _ _ (Nat.lt_succ_self _)
  · unfold prepend_padding
    split
    · rfl
    · rfl
  · unfold prepend_padding
    split
    · rw [emit_repeat_groups _ _ _ _ (by decide)]
      decide
    · decide

theorem forced_flush_of_lt (c : Cursor) (inp : List Nat) (h : c.groups < 253) :
    forced_flush (c, inp) = c := by
  unfold forced_flush
  exact if_neg (by simpa using h)

theorem main_loop_eq_scan (fuel : Nat) (c : Cursor) (inp : List Nat)
    (last : Option (List Nat)) (hlt : c.groups < 253) :
    main_loop fuel c inp last = (main_scan fuel c inp last).map forced_flush := by
  induction fuel generalizing c inp last with
  | zero => rfl
  | succ fuel ih =>
    simp only [main_loop, main_scan]
    by_cases h0 : inp.length = 0
    · simp only [if_pos h0, Option.map_some', forced_flush_of_lt c inp hlt]
    · simp only [if_neg h0]
      split
      · simp only [Option.map_some', forced_flush_of_lt c _ hlt]
      · split
        · rfl
        · next c1 inp1 last1 hw =>
          by_cases h253 : c1.groups ≥ 253
          · simp only [if_pos h253, Option.map_some', forced_flush]
          · simp only [if_neg h253]
            exact ih c1 inp1 last1 (by omega)

set_option maxRecDepth 1000000 in
theorem flush_scan :
    main_scan (flush_row.length + 1) (prepend_padding start_cursor 0) flush_row
        (some flush_prev)
      = some ({ out := flush_body, groups := 253, calls := flush_calls }, []) := by
  decide!

theorem encode_zero_count (buffer bytes : List Nat) :
    encode buffer 0 0 bytes = buffer ++ 7 :: escape_bytes (2 ^ 64 - 8) := by
  have h1 : size_sub 0 1 = 2 ^ 64 - 1 := by decide
  have h2 : size_add (2 ^ 64 - 1) 1 = 0 := by decide
  have h3 : to_u8 (to_u8 (0 ||| ((if 0 > 14 then 15 else 0) <<< 3))
      ||| (if 2 ^ 64 - 1 > 6 then 7 else 2 ^ 64 - 1)) = 7 := by decide
  have h4 : ¬ (0 ≥ 15) := by decide
  have h5 : 2 ^ 64 - 1 ≥ 7 := by decide
  have h6 : 2 ^ 64 - 1 - 7 = 2 ^ 64 - 8 := by decide
  simp only [encode, h1, h2, h3, if_neg h4, if_pos h5, h6, encode_count_append, List.take_zero,
    List.append_nil, List.append_assoc, List.singleton_append]



theorem decode_count_append (input t : List Nat) (v : Nat) (u : List Nat)
    (h : decode_count input = some (v, u)) : decode_count (input ++ t) = some (v, u ++ t) := by
  induction input generalizing v u with
  | nil => simp [decode_count] at h
  | cons b rest ih =>
    rw [List.cons_append, decode_count]
    rw [decode_count] at h
    by_cases hb : b = 255
    · rw [if_pos hb] at h ⊢
      cases hr : decode_count rest with
      | none => rw [hr] at h; simp at h
      | some r =>
        rw [hr] at h
        simp only [Option.map_some', Option.some.injEq, Prod.mk.injEq] at h
        rw [ih r.1 r.2 hr]
        simp only [Option.map_some', h.1, h.2]
    · rw [if_neg hb] at h ⊢
      simp only [Option.some.injEq, Prod.mk.injEq] at h
      rw [h.1, h.2]

theorem decode_field_append (field limit : Nat) (input t : List Nat) (v : Nat) (u : List Nat)
    (h : decode_field field limit input = some (v, u)) :
    decode_field field limit (input ++ t) = some (v, u ++ t) := by
  unfold decode_field at h ⊢
  by_cases hf : field = limit
  · rw [if_pos hf] at h ⊢
    cases hr : decode_count input with
    | none => rw [hr] at h; simp at h
    | some r =>
      rw [hr] at h
      simp only [Option.map_some', Option.some.injEq, Prod.mk.injEq] at h
      rw [decode_count_append input t r.1 r.2 hr]
      simp only [Option.map_some', h.1, h.2]
  · rw [if_neg hf] at h ⊢
    simp only [Option.some.injEq, Prod.mk.injEq] at h
    rw [h.1, h.2]

theorem decode_group_append (input t : List Nat) (g : Group) (u : List Nat)
    (h : decode_group input = some (g, u)) : decode_group (input ++ t) = some (g, u ++ t) := by
  cases input with
  | nil => simp [decode_group] at h
  | cons first input =>
    rw [List.cons_append, decode_group]
    rw [decode_group] at h
    by_cases hf : first ≥ 128
    · rw [if_pos hf] at h ⊢
      cases h1 : decode_field (first / 32 % 4) 3 input with
      | none => rw [h1] at h; simp at h
      | some r1 =>
        obtain ⟨skip, input1⟩ := r1
        rw [h1] at h
        rw [decode_field_append _ _ input t skip input1 h1]
        simp only at h ⊢
        cases h2 : decode_field (first % 32) 31 input1 with
        | none => rw [h2] at h; simp at h
        | some r2 =>
          obtain ⟨biased, input2⟩ := r2
          rw [h2] at h
          rw [decode_field_append _ _ input1 t biased input2 h2]
          simp only at h ⊢
          cases input2 with
          | nil => simp at h
          | cons b input3 =>
            simp only [Option.some.injEq, Prod.mk.injEq] at h
            simp only [List.cons_append, h.1, h.2]
    · rw [if_neg hf] at h ⊢
      cases h1 : decode_field (first / 8 % 16) 15 input with
      | none => rw [h1] at h; simp at h
      | some r1 =>
        obtain ⟨skip, input1⟩ := r1
        rw [h1] at h
        rw [decode_field_append _ _ input t skip input1 h1]
        simp only at h ⊢
        cases h2 : decode_field (first % 8) 7 input1 with
        | none => rw [h2] at h; simp at h
        | some r2 =>
          obtain ⟨biased, input2⟩ := r2
          rw [h2] at h
          rw [decode_field_append _ _ input1 t biased input2 h2]
          simp only at h ⊢
          by_cases hl : input2.length < biased + 1
          · rw [if_pos hl] at h
            simp at h
          · rw [if_neg hl] at h
            have hl2 : ¬ (input2 ++ t).length < biased + 1 := by
              rw [List.length_append]
              omega
            rw [if_neg hl2]
            simp only [Option.some.injEq, Prod.mk.injEq] at h
            rw [List.take_append_of_le_length (by omega),
              List.drop_append_of_le_length (by omega), h.1, h.2]

theorem decode_groups_append (k : Nat) (prev input t row row1 u : List Nat)
    (h : decode_groups k prev input row = some (row1, u)) :
    decode_groups k prev (input ++ t) row = some (row1, u ++ t) := by
  induction k generalizing input row with
  | zero =>
    simp only [decode_groups, Option.some.injEq, Prod.mk.injEq] at h ⊢
    rw [h.1, h.2]
    exact ⟨rfl, rfl⟩
  | succ k ih =>
    rw [decode_groups] at h ⊢
    cases hg : decode_group input with
    | none => rw [hg] at h; simp at h
    | some r =>
      obtain ⟨g, input1⟩ := r
      rw [hg] at h
      rw [decode_group_append input t g input1 hg]
      simp only at h ⊢
      cases ha : apply_group prev row g with
      | none => rw [ha] at h; simp at h
      | some row2 =>
        rw [ha] at h
        simp only at h ⊢
        exact ih input1 row2 h

set_option maxRecDepth 1000000 in
theorem flush_decode_groups :
    decode_groups 253 flush_prev flush_body [] = some (flush_row, []) := by
  decide!


theorem decode_groups_succ (k : Nat) (prev input row : List Nat) :
    decode_groups (k + 1) prev input row
      = (decode_groups k prev input row).bind (fun r => decode_groups 1 prev r.2 r.1) := by
  induction k generalizing input row with
  | zero =>
    simp only [decode_groups, Option.some_bind]
  | succ k ih =>
    rw [decode_groups]
    conv => rhs; rw [decode_groups]
    cases hg : decode_group input with
    | none => rfl
    | some r =>
      obtain ⟨g, input1⟩ := r
      simp only
      cases ha : apply_group prev row g with
      | none => rfl
      | some row2 =>
        simp only
        exact ih input1 row2

/-- A literal header `7` followed by an escaped count and nothing else is not a group: the
literal bytes it announces are missing. -/
theorem decode_group_seven (v : Nat) : decode_group (7 :: escape_bytes v) = none := by
  have hf : ¬ (7 ≥ 128) := by decide
  have h1 : decode_field (7 / 8 % 16) 15 (escape_bytes v) = some (0, escape_bytes v) := by
    rw [decode_field, if_neg (by decide)]
  have h2 : decode_field (7 % 8) 7 (escape_bytes v) = some (v + 7, []) := by
    have h := decode_count_escape_bytes v []
    rw [List.append_nil] at h
    rw [decode_field, if_pos (by decide), h]
    rfl
  have h3 : ([] : List Nat).length < v + 7 + 1 := Nat.succ_pos _
  rw [decode_group, if_neg hf, h1]
  simp only [h2]
  exact if_pos h3

set_option maxRecDepth 100000 in
/-- The cursor at the `return` of `compress` on `flush_row` over `flush_prev`: after the
253 groups of the row, the forced flush calls `encode` with a count of zero. -/
theorem flush_run :
    compress_run flush_row (some flush_prev) 0
      = some { out := flush_body ++ 7 :: escape_bytes (2 ^ 64 - 8), groups := 254,
               calls := flush_calls ++ [Call.lit 0 0 []] } := by
  have hb : is_blank flush_row = false := by decide
  have hlt : (prepend_padding start_cursor 0).groups < 253 := by decide
  rw [compress_run, hb]
  simp only [Bool.false_eq_true, if_false]
  rw [main_loop_eq_scan _ _ _ _ hlt, flush_scan]
  have hg : to_u8 (253 + 1) = 254 := by decide
  have h253 : (253 : Nat) ≥ 253 := Nat.le_refl _
  simp only [Bool.false_eq_true, if_false, Option.map_some', forced_flush, emit_literal,
    List.length_nil, List.take_nil, encode_zero_count, hg, if_pos h253]

theorem skip_loop_suffix (inp last : List Nat) (skip : Nat) :
    (skip_loop inp last skip).2.1 <:+ inp := by
  induction inp generalizing last skip with
  | nil => simp [skip_loop]
  | cons a rest ih =>
    rw [skip_loop]
    split
    · exact List.IsSuffix.trans (ih _ _) (List.suffix_cons a rest)
    · exact List.suffix_refl _

theorem window_loop_suffix (fuel : Nat) (c : Cursor) (inp : List Nat)
    (last : Option (List Nat)) (different skip : Nat) (c1 : Cursor) (inp1 : List Nat)
    (last1 : Option (List Nat))
    (h : window_loop fuel c inp last different skip = some (c1, inp1, last1)) :
    inp1 <:+ inp := by
  induction fuel generalizing c inp last different skip with
  | zero => simp [window_loop] at h
  | succ fuel ih =>
    rw [window_loop] at h
    by_cases h0 : different = 0
    · rw [if_pos h0] at h
      simp only [Option.some.injEq, Prod.mk.injEq] at h
      exact h.2.1 ▸ List.suffix_refl inp
    · rw [if_neg h0] at h
      simp only at h
      generalize (if different ≥ 3 ∧ rd inp 0 = rd inp 1 ∧ rd inp 0 = rd inp 2 then
          count_repeat inp different
        else count_no_repeat inp different) = count at h
      generalize (if different ≥ 3 ∧ rd inp 0 = rd inp 1 ∧ rd inp 0 = rd inp 2 then
          emit_repeat c skip count (rd inp 0)
        else emit_literal c skip count inp) = c2 at h
      by_cases h253 : c2.groups ≥ 253
      · rw [if_pos h253] at h
        simp only [Option.some.injEq, Prod.mk.injEq] at h
        rw [← h.2.1]
        exact List.drop_suffix _ _
      · rw [if_neg h253] at h
        exact List.IsSuffix.trans (ih _ _ _ _ _ h) (List.drop_suffix _ _)

/-- Where the main loop is left: the group counter counts the encoder calls and is at most
253, and the bytes not yet consumed are a suffix of the row. -/
theorem main_scan_spec (fuel : Nat) (c : Cursor) (inp : List Nat) (last : Option (List Nat))
    (c1 : Cursor) (rest : List Nat) (h : main_scan fuel c inp last = some (c1, rest))
    (hg : c.groups = c.calls.length) (hlt : c.groups < 253) :
    c1.groups = c1.calls.length ∧ c1.groups ≤ 253 ∧ rest <:+ inp := by
  induction fuel generalizing c inp last with
  | zero => simp [main_scan] at h
  | succ fuel ih =>
    simp only [main_scan] at h
    by_cases h0 : inp.length = 0
    · simp only [if_pos h0, Option.some.injEq, Prod.mk.injEq] at h
      rw [← h.1, ← h.2]
      exact ⟨hg, by omega, List.suffix_refl _⟩
    · simp only [if_neg h0] at h
      cases last with
      | none =>
        simp only [if_neg h0] at h
        obtain ⟨c2, inp2, last2, hw, hg2, hle2, _, _⟩ :=
          window_loop_spec (inp.length + 1) c inp none inp.length 0 (by omega) (Nat.le_refl _)
            hg hlt
        have hsuf := window_loop_suffix _ _ _ _ _ _ _ _ _ hw
        rw [hw] at h
        simp only at h
        by_cases h253 : c2.groups ≥ 253
        · simp only [if_pos h253, Option.some.injEq, Prod.mk.injEq] at h
          rw [← h.1, ← h.2]
          exact ⟨hg2, hle2, hsuf⟩
        · simp only [if_neg h253] at h
          obtain ⟨r1, r2, r3⟩ := ih c2 inp2 last2 h hg2 (by omega)
          exact ⟨r1, r2, List.IsSuffix.trans r3 hsuf⟩
      | some l =>
        simp only at h
        have hskip := skip_loop_suffix inp l 0
        by_cases h1 : (skip_loop inp l 0).2.1.length = 0
        · simp only [if_pos h1, Option.some.injEq, Prod.mk.injEq] at h
          rw [← h.1, ← h.2]
          exact ⟨hg, by omega, hskip⟩
        · simp only [if_neg h1] at h
          obtain ⟨c2, inp2, last2, hw, hg2, hle2, _, _⟩ :=
            window_loop_spec
              (different_loop (skip_loop inp l 0).2.1 (skip_loop inp l 0).2.2
                (skip_loop inp l 0).2.1.length 0 + 1) c (skip_loop inp l 0).2.1
              (some (skip_loop inp l 0).2.2)
              (different_loop (skip_loop inp l 0).2.1 (skip_loop inp l 0).2.2
                (skip_loop inp l 0).2.1.length 0) (skip_loop inp l 0).1 (by omega)
              (different_loop_le _ _ _ 0 (Nat.zero_le _)) hg hlt
          have hsuf := window_loop_suffix _ _ _ _ _ _ _ _ _ hw
          rw [hw] at h
          simp only at h
          by_cases h253 : c2.groups ≥ 253
          · simp only [if_pos h253, Option.some.injEq, Prod.mk.injEq] at h
            rw [← h.1, ← h.2]
            exact ⟨hg2, hle2, List.IsSuffix.trans hsuf hskip⟩
          · simp only [if_neg h253] at h
            obtain ⟨r1, r2, r3⟩ := ih c2 inp2 last2 h hg2 (by omega)
            exact ⟨r1, r2, List.IsSuffix.trans r3 (List.IsSuffix.trans hsuf hskip)⟩

theorem prepend_padding_counted (p_padding : Nat) :
    (prepend_padding start_cursor p_padding).groups
        = (prepend_padding start_cursor p_padding).calls.length
      ∧ (prepend_padding start_cursor p_padding).groups < 253 := by
  unfold prepend_padding
  split
  · rw [emit_repeat_groups _ _ _ _ (by decide)]
    exact ⟨rfl, by decide⟩
  · exact ⟨rfl, by decide⟩

theorem decode_row_groups (n g : Nat) (prev body : List Nat) (h255 : g ≠ 255) (h0 : g ≠ 0) :
    decode_row n (some prev) (g :: body)
      = (decode_groups g prev body []).map (fun r => (r.1 ++ prev.drop r.1.length, r.2)) := by
  rw [decode_row, if_neg h255, if_neg h0]
  simp only [Option.getD_some]
  cases decode_groups g prev body [] with
  | none => rfl
  | some r => rfl

set_option maxRecDepth 100000 in
/-- The bytes `compress` returns on `flush_row` over `flush_prev`. -/
theorem flush_output :
    compress flush_row (some flush_prev) 0
      = some (254 :: (flush_body ++ 7 :: escape_bytes (2 ^ 64 - 8))) := by
  rw [compress, flush_run]
  rfl

/-- If `k` groups are decoded from `body` and what follows is not a group, then decoding
`k + 1` groups fails. -/
theorem decode_groups_fail (k : Nat) (prev body t row : List Nat)
    (h : decode_groups k prev body [] = some (row, [])) (ht : decode_group t = none) :
    decode_groups (k + 1) prev (body ++ t) [] = none := by
  rw [decode_groups_succ, decode_groups_append k prev body t [] row [] h]
  simp only [Option.some_bind, List.nil_append, decode_groups, ht]

/-- The group decoder stops at the bytes of the forced flush of `flush_row`. -/
theorem flush_decode_fails (v : Nat) :
    decode_groups 254 flush_prev (flush_body ++ 7 :: escape_bytes v) [] = none :=
  decode_groups_fail 253 flush_prev flush_body _ flush_row flush_decode_groups
    (decode_group_seven v)

/-! ## Claims on the forced flush -/

set_option maxRecDepth 100000 in
/-- C1 fails on the code at `flush_row` (505 bytes, every second byte `01`) over the
all-zero previous row of the same length, padding 0: `compress` returns bytes that the
decoder of the specification cannot decode, so the row is not recovered. -/
theorem round_trip_fails :
    flush_prev.length = flush_row.length
      ∧ ∃ out, compress flush_row (some flush_prev) 0 = some out
          ∧ decode_row flush_row.length (some flush_prev) out = none := by
  refine ⟨by decide, _, flush_output, ?_⟩
  rw [decode_row_groups _ _ _ _ (by decide) (by decide), flush_decode_fails]
  rfl

/-- C9 fails on the code at `flush_row` over `flush_prev`, padding 0: the group counter
reaches 253 when no byte of the row is left, and the statement of lines 129-133 still calls
`encode`, with a count of zero; under the group count 254 `compress` writes the header `7`
and an escaped count, and these bytes are not a group: no Literal is emitted. -/
theorem forced_flush_fails :
    main_scan (flush_row.length + 1) (prepend_padding start_cursor 0) flush_row (some flush_prev)
        = some ({ out := flush_body, groups := 253, calls := flush_calls }, [])
      ∧ compress flush_row (some flush_prev) 0
        = some (254 :: (flush_body ++ 7 :: escape_bytes (2 ^ 64 - 8)))
      ∧ decode_group (7 :: escape_bytes (2 ^ 64 - 8)) = none :=
  ⟨flush_scan, flush_output, decode_group_seven _⟩

/-- The forced flush with at least one byte left: on every input (a row of less than
`2 ^ 64` bytes) on which the group counter reaches 253 during the main scan while at least
one byte of the row is not yet consumed, `compress` emits exactly one more group after the
bytes written so far; that
group is the literal with skip 0 whose bytes are all the bytes `rest` not yet consumed (a
suffix of the row); the stored group count is 254, it counts 253 earlier groups and this
one; nothing is written after the literal. -/
theorem forced_flush_literal (inp : List Nat) (last : Option (List Nat)) (p_padding : Nat)
    (c : Cursor) (rest : List Nat) (hn : inp.length < 2 ^ 64) (hb : ∃ b ∈ inp, b ≠ 0)
    (hs : main_scan (inp.length + 1) (prepend_padding start_cursor p_padding) inp last
      = some (c, rest))
    (h253 : c.groups ≥ 253) (hrest : rest ≠ []) :
    compress_run inp last p_padding
        = some { out := c.out ++ (Group.literal 0 rest.length rest).encoding, groups := 254,
                 calls := c.calls ++ [Call.lit 0 rest.length rest] }
      ∧ compress inp last p_padding
        = some (254 :: (c.out ++ (Group.literal 0 rest.length rest).encoding))
      ∧ c.calls.length = 253 ∧ rest <:+ inp := by
  obtain ⟨hg0, hlt0⟩ := prepend_padding_counted p_padding
  obtain ⟨hg, hle, hsuf⟩ := main_scan_spec _ _ _ _ _ _ hs hg0 hlt0
  have hgroups : c.groups = 253 := by omega
  have hpos : 1 ≤ rest.length := by
    cases rest with
    | nil => exact absurd rfl hrest
    | cons a t => simp
  have hlen : rest.length < 2 ^ 64 := Nat.lt_of_le_of_lt hsuf.length_le hn
  have hrun : compress_run inp last p_padding
      = some { out := c.out ++ (Group.literal 0 rest.length rest).encoding, groups := 254,
               calls := c.calls ++ [Call.lit 0 rest.length rest] } := by
    rw [compress_run, (is_blank_false_iff inp).2 hb]
    simp only [Bool.false_eq_true, if_false]
    rw [main_loop_eq_scan _ _ _ _ hlt0, hs]
    simp only [Option.map_some', forced_flush, if_pos h253, emit_literal,
      encode_eq c.out 0 rest.length rest hpos hlen, List.take_length, hgroups]
    rfl
  refine ⟨hrun, ?_, by omega, hsuf⟩
  rw [compress, hrun]
  rfl

set_option maxRecDepth 100000 in
theorem flush_scan_longer :
    main_scan ((flush_row ++ [0, 7, 7, 7]).length + 1) (prepend_padding start_cursor 0)
        (flush_row ++ [0, 7, 7, 7]) (some (List.replicate 509 0))
      = some ({ out := flush_body, groups := 253, calls := flush_calls }, [0, 7, 7, 7]) := by
  decide!

set_option maxRecDepth 100000 in
/-- Instance of the forced flush: `flush_row` followed by the four bytes `00 07 07 07`, over
an all-zero previous row; the forced flush encodes these four bytes as one literal although
the first matches the previous row and the other three repeat. -/
theorem forced_flush_literal_witness :
    compress_run (flush_row ++ [0, 7, 7, 7]) (some (List.replicate 509 0)) 0
        = some { out := flush_body ++ (Group.literal 0 [0, 7, 7, 7].length [0, 7, 7, 7]).encoding,
                 groups := 254,
                 calls := flush_calls ++ [Call.lit 0 [0, 7, 7, 7].length [0, 7, 7, 7]] }
      ∧ compress (flush_row ++ [0, 7, 7, 7]) (some (List.replicate 509 0)) 0
        = some (254 :: (flush_body ++ (Group.literal 0 [0, 7, 7, 7].length [0, 7, 7, 7]).encoding))
      ∧ flush_calls.length = 253 ∧ [0, 7, 7, 7] <:+ flush_row ++ [0, 7, 7, 7] :=
  forced_flush_literal (flush_row ++ [0, 7, 7, 7]) (some (List.replicate 509 0)) 0
    { out := flush_body, groups := 253, calls := flush_calls } [0, 7, 7, 7]
    (by decide) ⟨7, by simp, by decide⟩ flush_scan_longer (by decide) (by decide)

set_option maxRecDepth 100000 in
/-- C10 fails on the code at `flush_row` over `flush_prev`: the last of the 254 encoder
calls of `compress` is `encode` with a count of zero, made by the forced flush when the
253rd group has consumed the last byte of the row. -/
theorem encode_called_with_zero_count :
    ∃ c, compress_run flush_row (some flush_prev) 0 = some c
      ∧ c.calls.length = 254 ∧ c.calls.getLast? = some (Call.lit 0 0 []) := by
  refine ⟨_, flush_run, ?_, ?_⟩
  · decide
  · exact List.getLast?_concat flush_calls

/-! ## Decoding the groups of a cursor -/

theorem apply_groups_append (prev : List Nat) (gs : List Group) (g : Group) (row : List Nat) :
    apply_groups prev (gs ++ [g]) row
      = (apply_groups prev gs row).bind (fun r => apply_group prev r g) := by
  induction gs generalizing row with
  | nil =>
    simp only [List.nil_append, apply_groups, Option.some_bind]
    cases apply_group prev row g <;> rfl
  | cons g1 gs ih =>
    simp only [List.cons_append, apply_groups]
    cases apply_group prev row g1 with
    | none => rfl
    | some r => exact ih r

/-- The group decoder, run on the encodings of well-formed groups, applies these groups. -/
theorem decode_groups_encodings (prev : List Nat) (gs : List Group) (hwf : ∀ g ∈ gs, g.wf)
    (t row : List Nat) :
    decode_groups gs.length prev ((gs.map Group.encoding).flatten ++ t) row
      = (apply_groups prev gs row).map (fun r => (r, t)) := by
  induction gs generalizing row with
  | nil => simp [decode_groups, apply_groups]
  | cons g gs ih =>
    have hg : g.wf := hwf g (List.mem_cons_self g gs)
    have hgs : ∀ g1 ∈ gs, g1.wf := fun g1 h1 => hwf g1 (List.mem_cons_of_mem g h1)
    rw [List.length_cons, decode_groups, List.map_cons, List.flatten_cons, List.append_assoc,
      decode_group_encoding g hg]
    simp only [apply_groups]
    cases apply_group prev row g with
    | none => rfl
    | some r => exact ih hgs r

theorem start_cursor_sound : start_cursor.sound :=
  ⟨rfl, fun _ h => absurd h (List.not_mem_nil _)⟩

theorem emit_repeat_sound (c : Cursor) (skip count byte : Nat) (hc : c.sound)
    (h2 : 2 ≤ count) (hn : count < 2 ^ 64) : (emit_repeat c skip count byte).sound := by
  constructor
  · show encode_repeat c.out skip count byte = _
    rw [encode_repeat_eq _ _ _ _ h2 hn, emit_repeat_calls, List.map_append, List.flatten_append,
      ← hc.1]
    simp [Call.group]
  · intro k hk
    rw [emit_repeat_calls, List.mem_append, List.mem_singleton] at hk
    cases hk with
    | inl h => exact hc.2 k h
    | inr h =>
      rw [h]
      exact h2

theorem emit_literal_sound (c : Cursor) (skip count : Nat) (inp : List Nat) (hc : c.sound)
    (h1 : 1 ≤ count) (hle : count ≤ inp.length) (hn : count < 2 ^ 64) :
    (emit_literal c skip count inp).sound := by
  constructor
  · show encode c.out skip count inp = _
    rw [encode_eq _ _ _ _ h1 hn, emit_literal_calls, List.map_append, List.flatten_append,
      ← hc.1]
    simp [Call.group]
  · intro k hk
    rw [emit_literal_calls, List.mem_append, List.mem_singleton] at hk
    cases hk with
    | inl h => exact hc.2 k h
    | inr h =>
      rw [h]
      exact ⟨h1, by rw [List.length_take]; omega⟩

/-! ## What the loops consume -/

theorem rd_eq_getElem (p : List Nat) (i : Nat) (h : i < p.length) : rd p i = p[i] := by
  unfold rd
  exact List.getD_eq_getElem p 0 h

theorem count_repeat_loop_run (buffer : List Nat) (length fuel i : Nat) (hi : 1 ≤ i)
    (h : ∀ j, j < i → rd buffer j = rd buffer 0) :
    ∀ j, j < count_repeat_loop buffer length fuel i → rd buffer j = rd buffer 0 := by
  induction fuel generalizing i with
  | zero => simpa [count_repeat_loop] using h
  | succ fuel ih =>
    rw [count_repeat_loop]
    split
    · next hc =>
      apply ih (i + 1) (by omega)
      intro j hj
      by_cases hji : j < i
      · exact h j hji
      · have hj2 : j = i := by omega
        rw [hj2, hc.2]
        exact h (i - 1) (by omega)
    · exact h

/-- The bytes counted by `count_repeat` all equal the first one, when the first three do. -/
theorem count_repeat_run (buffer : List Nat) (length : Nat)
    (h1 : rd buffer 0 = rd buffer 1) (h2 : rd buffer 0 = rd buffer 2) :
    ∀ j, j < count_repeat buffer length → rd buffer j = rd buffer 0 := by
  apply count_repeat_loop_run buffer length length 3 (by omega)
  intro j hj
  have h3 : j = 0 ∨ j = 1 ∨ j = 2 := by omega
  rcases h3 with h | h | h
  · rw [h]
  · rw [h, h1]
  · rw [h, h2]

/-- The bytes counted by `count_repeat`, as a list, are copies of the first byte. -/
theorem count_repeat_take (buffer : List Nat) (length : Nat) (hlen : length ≤ buffer.length)
    (h3 : 3 ≤ length) (h1 : rd buffer 0 = rd buffer 1) (h2 : rd buffer 0 = rd buffer 2) :
    buffer.take (count_repeat buffer length)
      = List.replicate (count_repeat buffer length) (rd buffer 0) := by
  have hb := count_repeat_bounds buffer length h3
  rw [List.eq_replicate_iff]
  refine ⟨by rw [List.length_take]; omega, ?_⟩
  intro b hb1
  obtain ⟨i, hi, hbi⟩ := List.getElem_of_mem hb1
  rw [List.length_take] at hi
  rw [List.getElem_take] at hbi
  rw [← hbi, ← rd_eq_getElem buffer i (by omega)]
  exact count_repeat_run buffer length h1 h2 i (by omega)

/-- The skip loop consumes a common prefix of the row and of the previous row. -/
theorem skip_loop_spec (inp last : List Nat) (skip : Nat) (hlen : inp.length ≤ last.length) :
    ∃ s, (skip_loop inp last skip).1 = skip + s
      ∧ (skip_loop inp last skip).2.1 = inp.drop s
      ∧ (skip_loop inp last skip).2.2 = last.drop s
      ∧ s ≤ inp.length ∧ inp.take s = last.take s := by
  induction inp generalizing last skip with
  | nil => exact ⟨0, by simp [skip_loop]⟩
  | cons a rest ih =>
    cases last with
    | nil => simp at hlen
    | cons b last1 =>
      rw [skip_loop]
      by_cases hab : a = rd (b :: last1) 0
      · rw [if_pos hab]
        have hb : a = b := by simpa [rd] using hab
        have hlen1 : rest.length ≤ last1.length := by simpa using hlen
        obtain ⟨s, e1, e2, e3, e4, e5⟩ := ih last1 (skip + 1) hlen1
        refine ⟨s + 1, ?_, ?_, ?_, ?_, ?_⟩
        · rw [List.drop_one, List.tail_cons, e1]
          omega
        · rw [List.drop_one, List.tail_cons, e2]
          rfl
        · rw [List.drop_one, List.tail_cons, e3]
          rfl
        · simp only [List.length_cons]
          omega
        · rw [List.take_succ_cons, List.take_succ_cons, e5, hb]
      · rw [if_neg hab]
        exact ⟨0, by simp⟩

/-- One pass of the window loop, seen from the decoder: the call it logs stands for a
well-formed group that copies `skip` bytes of the previous row and then yields the `count`
bytes consumed from the row. -/
theorem window_step_sound (c : Cursor) (inp : List Nat) (different skip : Nat)
    (h0 : different ≠ 0) (hd : different ≤ inp.length) (hn : inp.length < 2 ^ 64)
    (hs : c.sound) (hg : c.groups = c.calls.length) (hlt : c.groups < 253) :
    ∃ count c1 k,
      (if different ≥ 3 ∧ rd inp 0 = rd inp 1 ∧ rd inp 0 = rd inp 2 then
          count_repeat inp different
        else count_no_repeat inp different) = count
      ∧ (if different ≥ 3 ∧ rd inp 0 = rd inp 1 ∧ rd inp 0 = rd inp 2 then
          emit_repeat c skip count (rd inp 0)
        else emit_literal c skip count inp) = c1
      ∧ 1 ≤ count ∧ count ≤ different
      ∧ c1.groups = c1.calls.length ∧ c1.groups = c.groups + 1 ∧ c1.sound
      ∧ c1.calls = c.calls ++ [k]
      ∧ ∀ prev row : List Nat, apply_group prev row k.group
          = if (prev.drop row.length).length < skip then none
            else some (row ++ (prev.drop row.length).take skip ++ inp.take count) := by
  by_cases hrep : different ≥ 3 ∧ rd inp 0 = rd inp 1 ∧ rd inp 0 = rd inp 2
  · have hb := count_repeat_bounds inp different hrep.1
    have htake := count_repeat_take inp different hd hrep.1 hrep.2.1 hrep.2.2
    refine ⟨count_repeat inp different,
      emit_repeat c skip (count_repeat inp different) (rd inp 0),
      Call.rep skip (count_repeat inp different) (rd inp 0),
      if_pos hrep, if_pos hrep, by omega, hb.2, ?_, emit_repeat_groups c _ _ _ hlt,
      emit_repeat_sound c _ _ _ hs (by omega) (by omega), rfl, ?_⟩
    · rw [emit_repeat_groups c _ _ _ hlt, emit_repeat_calls, List.length_append, hg]
      rfl
    · intro prev row
      rw [htake]
      rfl
  · have hpos := count_no_repeat_pos inp different (by omega) hrep
    have hle := count_no_repeat_le inp different
    refine ⟨count_no_repeat inp different,
      emit_literal c skip (count_no_repeat inp different) inp,
      Call.lit skip (count_no_repeat inp different) (inp.take (count_no_repeat inp different)),
      if_neg hrep, if_neg hrep, hpos, hle, ?_, emit_literal_groups c _ _ _ (by omega),
      emit_literal_sound c _ _ _ hs hpos (by omega) (by omega), rfl, ?_⟩
    · rw [emit_literal_groups c _ _ _ (by omega), emit_literal_calls, List.length_append, hg]
      rfl
    · intro prev row
      rfl

/-- The window loop, seen from the decoder: the groups logged so far decode to the part of
the row consumed so far. -/
theorem window_loop_decodes (prev orig : List Nat) (fuel : Nat) (c : Cursor) (inp : List Nat)
    (last : Option (List Nat)) (different skip : Nat) (c1 : Cursor) (inp1 : List Nat)
    (last1 : Option (List Nat)) (row : List Nat)
    (hw : window_loop fuel c inp last different skip = some (c1, inp1, last1))
    (hd : different ≤ inp.length) (hn : inp.length < 2 ^ 64)
    (hs : c.sound) (hg : c.groups = c.calls.length) (hlt : c.groups < 253)
    (hdec : apply_groups prev (c.calls.map Call.group) [] = some row)
    (hsk : skip ≤ (prev.drop row.length).length)
    (horig : row ++ (prev.drop row.length).take skip ++ inp = orig)
    (h0 : different = 0 → skip = 0) :
    ∃ row1, c1.sound ∧ c1.groups = c1.calls.length ∧ c1.groups ≤ 253
      ∧ apply_groups prev (c1.calls.map Call.group) [] = some row1
      ∧ row1 ++ inp1 = orig
      ∧ last1 = last.map (fun l => l.drop (inp.length - inp1.length)) := by
  induction fuel generalizing c inp last different skip row with
  | zero => simp [window_loop] at hw
  | succ fuel ih =>
    by_cases hz : different = 0
    · rw [window_loop, if_pos hz] at hw
      simp only [Option.some.injEq, Prod.mk.injEq] at hw
      obtain ⟨e1, e2, e3⟩ := hw
      subst e1 e2 e3
      refine ⟨row, hs, hg, by omega, hdec, ?_, ?_⟩
      · rw [← horig, h0 hz, List.take_zero, List.append_nil]
      · cases last <;> simp
    · obtain ⟨count, c2, k, hcount, hc2, h1, hle, hg2, hgr, hs2, hcalls, hk⟩ :=
        window_step_sound c inp different skip hz hd hn hs hg hlt
      have hunfold : window_loop (fuel + 1) c inp last different skip
          = if c2.groups ≥ 253 then some (c2, inp.drop count, last.map (fun l => l.drop count))
            else window_loop fuel c2 (inp.drop count) (last.map (fun l => l.drop count))
              (different - count) 0 := by
        rw [window_loop, if_neg hz]
        simp only [hcount, hc2]
      rw [hunfold] at hw
      have hdec2 : apply_groups prev (c2.calls.map Call.group) []
          = some (row ++ (prev.drop row.length).take skip ++ inp.take count) := by
        rw [hcalls, List.map_append, List.map_singleton, apply_groups_append, hdec,
          Option.some_bind, hk prev row, if_neg (by omega)]
      have horig2 : row ++ (prev.drop row.length).take skip ++ inp.take count ++ inp.drop count
          = orig := by
        rw [List.append_assoc, List.take_append_drop]
        exact horig
      have hdl : (inp.drop count).length = inp.length - count := List.length_drop count inp
      by_cases h253 : c2.groups ≥ 253
      · rw [if_pos h253] at hw
        simp only [Option.some.injEq, Prod.mk.injEq] at hw
        obtain ⟨e1, e2, e3⟩ := hw
        subst e1 e2 e3
        refine ⟨_, hs2, hg2, by omega, hdec2, horig2, ?_⟩
        have hc : inp.length - (inp.drop count).length = count := by omega
        rw [hc]
      · rw [if_neg h253] at hw
        have hsuf := (window_loop_suffix _ _ _ _ _ _ _ _ _ hw).length_le
        obtain ⟨row1, r1, r2, r3, r4, r5, r6⟩ :=
          ih c2 (inp.drop count) (last.map (fun l => l.drop count)) (different - count) 0
            (row ++ (prev.drop row.length).take skip ++ inp.take count) hw
            (by omega) (by omega) hs2 hg2 (by omega) hdec2 (Nat.zero_le _)
            (by rw [List.take_zero, List.append_nil]; exact horig2) (fun _ => rfl)
        refine ⟨row1, r1, r2, r3, r4, r5, ?_⟩
        rw [r6]
        cases last with
        | none => rfl
        | some l =>
          simp only [Option.map_some', Option.some.injEq, List.drop_drop]
          congr 1
          omega

/-- The main loop up to the point where it is left, seen from the decoder. Either the loop
is left by a `return` with fewer than 253 groups, and the groups followed by the rest of
the previous row give the row; or it is left with 253 groups, and the groups followed by
the bytes not yet consumed give the row. -/
theorem main_scan_decodes (prev orig : List Nat) (fuel : Nat) (c : Cursor) (inp : List Nat)
    (last : Option (List Nat)) (cf : Cursor) (rest row : List Nat)
    (hm : main_scan fuel c inp last = some (cf, rest))
    (hn : inp.length < 2 ^ 64) (hs : c.sound) (hg : c.groups = c.calls.length)
    (hlt : c.groups < 253)
    (hdec : apply_groups prev (c.calls.map Call.group) [] = some row)
    (horig : row ++ inp = orig)
    (htr : (last = none ∧ prev = [])
      ∨ (last = some (prev.drop row.length) ∧ prev.length = orig.length)) :
    ∃ row1, cf.sound ∧ cf.groups = cf.calls.length
      ∧ apply_groups prev (cf.calls.map Call.group) [] = some row1
      ∧ ((cf.groups < 253 ∧ row1 ++ prev.drop row1.length = orig)
        ∨ (cf.groups = 253 ∧ row1 ++ rest = orig)) := by
  induction fuel generalizing c inp last row with
  | zero => simp [main_scan] at hm
  | succ fuel ih =>
    have hlen : row.length + inp.length = orig.length := by
      rw [← horig, List.length_append]
    have hprev : prev.length ≤ orig.length := by
      rcases htr with h | h
      · rw [h.2]
        exact Nat.zero_le _
      · exact Nat.le_of_eq h.2
    simp only [main_scan] at hm
    by_cases h0 : inp.length = 0
    · simp only [if_pos h0, Option.some.injEq, Prod.mk.injEq] at hm
      obtain ⟨e1, e2⟩ := hm
      subst e1 e2
      refine ⟨row, hs, hg, hdec, Or.inl ⟨hlt, ?_⟩⟩
      rw [List.drop_of_length_le (by omega), List.append_nil, ← horig,
        List.length_eq_zero.1 h0, List.append_nil]
    · simp only [if_neg h0] at hm
      rcases htr with ⟨hl, hp⟩ | ⟨hl, hp⟩
      · subst hl
        simp only [if_neg h0] at hm
        cases hw : window_loop (inp.length + 1) c inp none inp.length 0 with
        | none => rw [hw] at hm; simp at hm
        | some r =>
          obtain ⟨c2, inp2, last2⟩ := r
          rw [hw] at hm
          simp only at hm
          obtain ⟨row2, r1, r2, r3, r4, r5, r6⟩ :=
            window_loop_decodes prev orig _ c inp none inp.length 0 c2 inp2 last2 row hw
              (Nat.le_refl _) hn hs hg hlt hdec (Nat.zero_le _)
              (by rw [List.take_zero, List.append_nil]; exact horig) (fun _ => rfl)
          have hsuf := (window_loop_suffix _ _ _ _ _ _ _ _ _ hw).length_le
          by_cases h253 : c2.groups ≥ 253
          · simp only [if_pos h253, Option.some.injEq, Prod.mk.injEq] at hm
            obtain ⟨e1, e2⟩ := hm
            subst e1 e2
            exact ⟨row2, r1, r2, r4, Or.inr ⟨by omega, r5⟩⟩
          · simp only [if_neg h253] at hm
            exact ih c2 inp2 last2 row2 hm (by omega) r1 r2 (by omega) r4 r5
              (Or.inl ⟨by rw [r6]; rfl, hp⟩)
      · subst hl
        have hll : (prev.drop row.length).length = inp.length := by
          rw [List.length_drop]
          omega
        obtain ⟨s, e1, e2, e3, e4, e5⟩ :=
          skip_loop_spec inp (prev.drop row.length) 0 (Nat.le_of_eq hll.symm)
        simp only [e1, e2, e3] at hm
        by_cases h1 : (inp.drop s).length = 0
        · simp only [if_pos h1, Option.some.injEq, Prod.mk.injEq] at hm
          obtain ⟨e6, e7⟩ := hm
          subst e6
          refine ⟨row, hs, hg, hdec, Or.inl ⟨hlt, ?_⟩⟩
          rw [List.length_drop] at h1
          have hs1 : s = inp.length := by omega
          have h2 : inp = prev.drop row.length := by
            rw [hs1, List.take_length] at e5
            rw [e5, ← hll, List.take_length]
          rw [← h2]
          exact horig
        · simp only [if_neg h1] at hm
          have hdiff := skip_loop_differs inp (prev.drop row.length) 0
            (by rw [e2]; omega)
          rw [e2, e3] at hdiff
          have hpos := different_loop_pos (inp.drop s) ((prev.drop row.length).drop s)
            (by omega) hdiff
          have hdle := different_loop_le (inp.drop s) ((prev.drop row.length).drop s)
            (inp.drop s).length 0 (Nat.zero_le _)
          generalize different_loop (inp.drop s) ((prev.drop row.length).drop s)
            (inp.drop s).length 0 = different at hm hpos hdle
          cases hw : window_loop (different + 1) c (inp.drop s)
              (some ((prev.drop row.length).drop s)) different (0 + s) with
          | none => rw [hw] at hm; simp at hm
          | some r =>
            obtain ⟨c2, inp2, last2⟩ := r
            rw [hw] at hm
            simp only at hm
            have hds : (inp.drop s).length = inp.length - s := List.length_drop s inp
            obtain ⟨row2, r1, r2, r3, r4, r5, r6⟩ :=
              window_loop_decodes prev orig _ c (inp.drop s)
                (some ((prev.drop row.length).drop s)) different (0 + s) c2 inp2 last2 row hw
                hdle (by omega) hs hg hlt hdec (by omega)
                (by
                  rw [Nat.zero_add, ← e5, List.append_assoc, List.take_append_drop]
                  exact horig)
                (fun h => by omega)
            have hsuf := (window_loop_suffix _ _ _ _ _ _ _ _ _ hw).length_le
            by_cases h253 : c2.groups ≥ 253
            · simp only [if_pos h253, Option.some.injEq, Prod.mk.injEq] at hm
              obtain ⟨e6, e7⟩ := hm
              subst e6 e7
              exact ⟨row2, r1, r2, r4, Or.inr ⟨by omega, r5⟩⟩
            · simp only [if_neg h253] at hm
              have hlen2 : row2.length + inp2.length = orig.length := by
                rw [← r5, List.length_append]
              refine ih c2 inp2 last2 row2 hm (by omega) r1 r2 (by omega) r4 r5
                (Or.inr ⟨?_, hp⟩)
              rw [r6]
              simp only [Option.map_some', Option.some.injEq, List.drop_drop]
              congr 1
              omega

/-! ## Round trip -/

theorem decode_row_of_groups (n g : Nat) (last : Option (List Nat)) (body : List Nat)
    (h255 : g ≠ 255) (h0 : g ≠ 0) :
    decode_row n last (g :: body)
      = (decode_groups g (last.getD []) body []).map
          (fun r => (r.1 ++ (last.getD []).drop r.1.length, r.2)) := by
  rw [decode_row, if_neg h255, if_neg h0]
  cases decode_groups g (last.getD []) body [] with
  | none => rfl
  | some r => rfl

/-- The row decoder on the bytes of a cursor with at least one group: it applies the groups
of the encoder calls and copies the rest of the previous row. -/
theorem decode_row_cursor (n : Nat) (last : Option (List Nat)) (c : Cursor) (t row : List Nat)
    (hs : c.sound) (hg : c.groups = c.calls.length) (h255 : c.groups ≠ 255)
    (h0 : c.groups ≠ 0)
    (hdec : apply_groups (last.getD []) (c.calls.map Call.group) [] = some row) :
    decode_row n last (c.groups :: c.out ++ t)
      = some (row ++ (last.getD []).drop row.length, t) := by
  have hwf : ∀ g ∈ c.calls.map Call.group, g.wf := by
    intro g hgm
    obtain ⟨k, hk, rfl⟩ := List.mem_map.1 hgm
    exact hs.2 k hk
  have hout : c.out = ((c.calls.map Call.group).map Group.encoding).flatten := by
    rw [hs.1, List.map_map]
    rfl
  have hlen : c.groups = (c.calls.map Call.group).length := by
    rw [List.length_map]
    exact hg
  rw [List.cons_append, decode_row_of_groups n _ last _ h255 h0, hout, hlen,
    decode_groups_encodings _ _ hwf, hdec]
  rfl

theorem prepend_padding_small (c : Cursor) (p_padding : Nat) (hp : p_padding ≤ 1) :
    prepend_padding c p_padding = c := by
  unfold prepend_padding
  exact if_neg (by omega)

/-- Round trip of `compress` and the row decoder of the specification, for every row of
less than `2 ^ 64` bytes, every previous row that is absent or of the same length, and a
padding of 0 or 1, on the condition that the main loop is not left with 253 groups and no
byte of the row remaining: the decoder, run on the bytes written by `compress` followed by
any bytes `t`, returns the row and leaves `t` unread. -/
theorem round_trip_except_empty_flush (inp : List Nat) (last : Option (List Nat))
    (p_padding : Nat) (t : List Nat) (hn : inp.length < 2 ^ 64)
    (hlast : ∀ l, last = some l → l.length = inp.length) (hp : p_padding ≤ 1)
    (hex : ∀ c, main_scan (inp.length + 1) start_cursor inp last = some (c, [])
      → c.groups < 253) :
    ∃ out, compress inp last p_padding = some out
      ∧ decode_row inp.length last (out ++ t) = some (inp, t) := by
  by_cases hb : is_blank inp = true
  · refine ⟨[255], compress_of_blank inp last p_padding hb, ?_⟩
    have hrep : inp = List.replicate inp.length 0 :=
      List.eq_replicate_iff.2 ⟨rfl, (is_blank_iff inp).1 hb⟩
    rw [List.singleton_append, decode_row, if_pos rfl, ← hrep]
  · have hbf : is_blank inp = false := by simpa using hb
    have hstart : start_cursor.groups < 253 := by decide
    have hrun : compress_run inp last p_padding
        = (main_scan (inp.length + 1) start_cursor inp last).map forced_flush := by
      rw [compress_run, hbf, prepend_padding_small _ _ hp]
      simp only [Bool.false_eq_true, if_false]
      exact main_loop_eq_scan _ _ _ _ hstart
    obtain ⟨c, hc, _, _⟩ := compress_run_spec inp last p_padding hbf
    rw [hrun] at hc
    cases hm : main_scan (inp.length + 1) start_cursor inp last with
    | none => rw [hm] at hc; simp at hc
    | some r =>
      obtain ⟨cf, rest⟩ := r
      have htr : (last = none ∧ last.getD [] = [])
          ∨ (last = some ((last.getD []).drop ([] : List Nat).length)
            ∧ (last.getD []).length = inp.length) := by
        cases last with
        | none => exact Or.inl ⟨rfl, rfl⟩
        | some l => exact Or.inr ⟨rfl, hlast l rfl⟩
      have hprev : (last.getD []).length ≤ inp.length := by
        cases last with
        | none => exact Nat.zero_le _
        | some l => exact Nat.le_of_eq (hlast l rfl)
      obtain ⟨row1, r1, r2, r3, r4⟩ :=
        main_scan_decodes (last.getD []) inp _ start_cursor inp last cf rest [] hm hn
          start_cursor_sound rfl hstart rfl (List.nil_append inp) htr
      have hcomp : compress inp last p_padding
          = some ((forced_flush (cf, rest)).groups :: (forced_flush (cf, rest)).out) := by
        rw [compress, hrun, hm]
        rfl
      refine ⟨_, hcomp, ?_⟩
      rcases r4 with ⟨hlt, horig⟩ | ⟨h253, horig⟩
      · rw [forced_flush_of_lt cf rest hlt]
        by_cases hz : cf.groups = 0
        · have hcalls : cf.calls = [] := List.length_eq_zero.1 (by omega)
          have hout : cf.out = [] := by
            rw [r1.1, hcalls]
            rfl
          rw [hcalls] at r3
          simp only [List.map_nil, apply_groups, Option.some.injEq] at r3
          rw [← r3, List.nil_append, List.length_nil, List.drop_zero] at horig
          rw [hz, hout, List.cons_append, List.nil_append, decode_row,
            if_neg (by decide), if_pos rfl]
          cases last with
          | none =>
            exfalso
            simp only [Option.getD_none] at horig
            rw [← horig] at hbf
            simp [is_blank] at hbf
          | some l =>
            simp only [Option.getD_some] at horig
            rw [horig]
            rfl
        · rw [decode_row_cursor inp.length last cf t row1 r1 r2 (by omega) hz r3, horig]
      · have hrest : rest ≠ [] := by
          intro he
          rw [he] at hm
          have := hex cf hm
          omega
        have hpos : 1 ≤ rest.length := by
          cases rest with
          | nil => exact absurd rfl hrest
          | cons a u => simp
        have hrl : rest.length ≤ inp.length := by
          rw [← horig, List.length_append]
          omega
        have hff : forced_flush (cf, rest) = emit_literal cf 0 rest.length rest := by
          unfold forced_flush
          exact if_pos (by simp only [h253]; decide)
        have hs2 := emit_literal_sound cf 0 rest.length rest r1 hpos (Nat.le_refl _) (by omega)
        have hg2 : (emit_literal cf 0 rest.length rest).groups = cf.groups + 1 :=
          emit_literal_groups cf _ _ _ (by omega)
        have hdec2 : apply_groups (last.getD [])
            ((emit_literal cf 0 rest.length rest).calls.map Call.group) [] = some inp := by
          rw [emit_literal_calls, List.map_append, List.map_singleton, apply_groups_append, r3,
            Option.some_bind, List.take_length]
          simp only [Call.group, apply_group, Nat.not_lt_zero, if_false, List.take_zero,
            List.append_nil, horig]
        rw [hff, decode_row_cursor inp.length last _ t inp hs2
          (by rw [hg2, emit_literal_calls, List.length_append, r2]; rfl) (by omega) (by omega)
          hdec2, List.drop_of_length_le hprev, List.append_nil]

/-- Instance of the round trip: scenario 5 of the specification, followed by two more
bytes. -/
theorem round_trip_scenario :
    ∃ out, compress [5, 5, 9, 9, 9, 9] (some [5, 5, 2, 2, 2, 2]) 0 = some out
      ∧ decode_row [5, 5, 9, 9, 9, 9].length (some [5, 5, 2, 2, 2, 2]) (out ++ [3, 4])
        = some ([5, 5, 9, 9, 9, 9], [3, 4]) := by
  apply round_trip_except_empty_flush [5, 5, 9, 9, 9, 9] (some [5, 5, 2, 2, 2, 2]) 0 [3, 4]
    (by norm_num) (fun l h => by cases h; rfl) (by decide)
  intro c hc
  have hval : main_scan ([5, 5, 9, 9, 9, 9].length + 1) start_cursor [5, 5, 9, 9, 9, 9]
      (some [5, 5, 2, 2, 2, 2])
      = some ({ out := [194, 9], groups := 1, calls := [Call.rep 2 4 9] }, []) := by decide
  rw [hval] at hc
  simp only [Option.some.injEq, Prod.mk.injEq, and_true] at hc
  rw [← hc]
  decide

/-! ## The window loop, pass by pass -/

theorem window_loop_succ (fuel : Nat) (c : Cursor) (inp : List Nat) (last : Option (List Nat))
    (different skip : Nat) :
    window_loop (fuel + 1) c inp last different skip
      = if different = 0 then some (c, inp, last)
        else if (window_emit c inp different skip).groups ≥ 253 then
          some (window_emit c inp different skip, inp.drop (window_count inp different),
            last.map (fun l => l.drop (window_count inp different)))
        else
          window_loop fuel (window_emit c inp different skip)
            (inp.drop (window_count inp different))
            (last.map (fun l => l.drop (window_count inp different)))
            (different - window_count inp different) 0 := by
  rw [window_loop]
  by_cases h0 : different = 0
  · rw [if_pos h0, if_pos h0]
  · rw [if_neg h0, if_neg h0]
    by_cases hc : different ≥ 3 ∧ rd inp 0 = rd inp 1 ∧ rd inp 0 = rd inp 2
    · simp only [window_emit, window_count, if_pos hc]
    · simp only [window_emit, window_count, if_neg hc]

/-- The bounds of one pass: it consumes at least one byte and at most the window. -/
theorem window_count_bounds (inp : List Nat) (different : Nat) (h0 : different ≠ 0) :
    1 ≤ window_count inp different ∧ window_count inp different ≤ different := by
  unfold window_count
  by_cases hc : different ≥ 3 ∧ rd inp 0 = rd inp 1 ∧ rd inp 0 = rd inp 2
  · rw [if_pos hc]
    have hb := count_repeat_bounds inp different hc.1
    omega
  · rw [if_neg hc]
    exact ⟨count_no_repeat_pos inp different (by omega) hc, count_no_repeat_le inp different⟩

theorem window_emit_groups (c : Cursor) (inp : List Nat) (different skip : Nat)
    (hlt : c.groups < 253) : (window_emit c inp different skip).groups = c.groups + 1 := by
  unfold window_emit
  split
  · exact emit_repeat_groups c _ _ _ hlt
  · exact emit_literal_groups c _ _ _ (by omega)

theorem window_emit_calls_length (c : Cursor) (inp : List Nat) (different skip : Nat) :
    (window_emit c inp different skip).calls.length = c.calls.length + 1 := by
  unfold window_emit
  split
  · rw [emit_repeat_calls, List.length_append]
    rfl
  · rw [emit_literal_calls, List.length_append]
    rfl

/-! ## Where the counting loops stop -/

theorem count_repeat_loop_stop (buffer : List Nat) (length fuel i : Nat)
    (hf : length ≤ fuel + i) :
    ¬ (count_repeat_loop buffer length fuel i < length
      ∧ rd buffer (count_repeat_loop buffer length fuel i)
        = rd buffer (count_repeat_loop buffer length fuel i - 1)) := by
  induction fuel generalizing i with
  | zero =>
    rw [count_repeat_loop]
    omega
  | succ fuel ih =>
    rw [count_repeat_loop]
    split
    · exact ih (i + 1) (by omega)
    · next h => exact h

/-- The loop of `count_repeat` stops at the end of the window or at the first byte that
differs from its predecessor. -/
theorem count_repeat_stop (buffer : List Nat) (length : Nat) :
    ¬ (count_repeat buffer length < length
      ∧ rd buffer (count_repeat buffer length) = rd buffer (count_repeat buffer length - 1)) :=
  count_repeat_loop_stop buffer length length 3 (by omega)

/-- On a window of `m ≥ 3` equal bytes `count_repeat` returns `m`. -/
theorem count_repeat_of_run (buffer : List Nat) (m b : Nat) (h3 : 3 ≤ m)
    (h : ∀ j, j < m → rd buffer j = b) : count_repeat buffer m = m := by
  have hb := count_repeat_bounds buffer m h3
  have hs := count_repeat_stop buffer m
  by_contra hne
  apply hs
  refine ⟨by omega, ?_⟩
  rw [h _ (by omega), h _ (by omega)]

theorem count_no_repeat_loop_full (buffer : List Nat) (length fuel i : Nat)
    (hf : length ≤ fuel + i) (hi : i ≤ length)
    (h : ∀ j, i ≤ j → j < length → ¬ (rd buffer j = rd buffer (j - 1)
      ∧ rd buffer j = rd buffer (j - 2))) :
    count_no_repeat_loop buffer length fuel i = length := by
  induction fuel generalizing i with
  | zero =>
    rw [count_no_repeat_loop]
    omega
  | succ fuel ih =>
    rw [count_no_repeat_loop]
    by_cases hlt : i < length
    · rw [if_pos hlt, if_neg (h i (Nat.le_refl i) hlt)]
      exact ih (i + 1) (by omega) hlt (fun j hj => h j (by omega))
    · rw [if_neg hlt]
      omega

/-- On a window without three consecutive equal bytes `count_no_repeat` returns the length
of the window. -/
theorem count_no_repeat_of_no_run (buffer : List Nat) (length : Nat)
    (h : ∀ j, j + 2 < length → ¬ (rd buffer j = rd buffer (j + 1)
      ∧ rd buffer (j + 1) = rd buffer (j + 2))) :
    count_no_repeat buffer length = length := by
  unfold count_no_repeat
  apply count_no_repeat_loop_full
  · split <;> omega
  · split <;> omega
  · intro j hj hjl hh
    have h2 : 2 ≤ j := by
      split at hj <;> omega
    apply h (j - 2) (by omega)
    have e1 : j - 2 + 1 = j - 1 := by omega
    have e2 : j - 2 + 2 = j := by omega
    rw [e1, e2]
    exact ⟨hh.2.symm.trans hh.1, hh.1.symm⟩

theorem different_loop_stop (inp last : List Nat) (fuel d : Nat) (hf : inp.length ≤ fuel + d) :
    ¬ (different_loop inp last fuel d < inp.length
      ∧ rd inp (different_loop inp last fuel d) ≠ rd last (different_loop inp last fuel d)) := by
  induction fuel generalizing d with
  | zero =>
    rw [different_loop]
    omega
  | succ fuel ih =>
    rw [different_loop]
    split
    · exact ih (d + 1) (by omega)
    · next h => exact h

/-- If the row differs from the previous row at every position, the window is the row. -/
theorem different_loop_of_all (inp last : List Nat)
    (h : ∀ j, j < inp.length → rd inp j ≠ rd last j) :
    different_loop inp last inp.length 0 = inp.length := by
  have hle := different_loop_le inp last inp.length 0 (Nat.zero_le _)
  have hs := different_loop_stop inp last inp.length 0 (by omega)
  by_contra hne
  exact hs ⟨by omega, h _ (by omega)⟩

/-! ## Rows encoded as one group -/

/-- A pass that consumes the whole window ends the window loop. -/
theorem window_loop_single (fuel : Nat) (c : Cursor) (inp : List Nat)
    (last : Option (List Nat)) (different skip : Nat) (h0 : different ≠ 0)
    (hcount : window_count inp different = different) (hlt : c.groups + 1 < 253) :
    window_loop (fuel + 2) c inp last different skip
      = some (window_emit c inp different skip, inp.drop different,
          last.map (fun l => l.drop different)) := by
  have hg := window_emit_groups c inp different skip (by omega)
  rw [window_loop_succ, if_neg h0, if_neg (by omega), hcount, Nat.sub_self, window_loop_succ,
    if_pos rfl]

/-- Without a previous row, a row whose first pass consumes all of it is encoded as one
group. -/
theorem main_loop_none_single (fuel : Nat) (c : Cursor) (inp : List Nat) (hne : inp ≠ [])
    (hcount : window_count inp inp.length = inp.length) (hlt : c.groups + 1 < 253) :
    main_loop (fuel + 2) c inp none = some (window_emit c inp inp.length 0) := by
  have hlen : inp.length ≠ 0 := fun h => hne (List.length_eq_zero.1 h)
  obtain ⟨n, hn⟩ : ∃ n, inp.length = n + 1 := ⟨inp.length - 1, by omega⟩
  have hw := window_loop_single n c inp none inp.length 0 hlen hcount hlt
  have hg := window_emit_groups c inp inp.length 0 (by omega)
  simp only [main_loop, if_neg hlen]
  rw [show inp.length + 1 = n + 2 by omega, hw]
  simp only [if_neg (show ¬ (window_emit c inp inp.length 0).groups ≥ 253 by omega),
    List.drop_length, List.length_nil, if_true]

/-- With a previous row, a row that after the skipped bytes differs from the previous row
to its end, and whose first pass consumes all of that, is encoded as one group. -/
theorem main_loop_some_single (fuel : Nat) (c : Cursor) (inp l inp1 l1 : List Nat) (s : Nat)
    (hskip : skip_loop inp l 0 = (s, inp1, l1)) (hne : inp1 ≠ [])
    (hdiff : different_loop inp1 l1 inp1.length 0 = inp1.length)
    (hcount : window_count inp1 inp1.length = inp1.length) (hlt : c.groups + 1 < 253) :
    main_loop (fuel + 2) c inp (some l) = some (window_emit c inp1 inp1.length s) := by
  have hlen1 : inp1.length ≠ 0 := fun h => hne (List.length_eq_zero.1 h)
  have hlen : inp.length ≠ 0 := by
    have := skip_loop_length inp l 0
    rw [hskip] at this
    simp only at this
    omega
  obtain ⟨n, hn⟩ : ∃ n, inp1.length = n + 1 := ⟨inp1.length - 1, by omega⟩
  have hw := window_loop_single n c inp1 (some l1) inp1.length s hlen1 hcount hlt
  have hg := window_emit_groups c inp1 inp1.length s (by omega)
  simp only [main_loop, if_neg hlen, hskip, if_neg hlen1, hdiff]
  rw [show inp1.length + 1 = n + 2 by omega, hw]
  simp only [if_neg (show ¬ (window_emit c inp1 inp1.length s).groups ≥ 253 by omega),
    List.drop_length, List.length_nil, if_true]

theorem rd_replicate (n b j : Nat) (h : j < n) : rd (List.replicate n b) j = b := by
  rw [rd_eq_getElem _ _ (by rw [List.length_replicate]; exact h), List.getElem_replicate]

theorem rd_mem (p : List Nat) (j : Nat) (h : j < p.length) : rd p j ∈ p := by
  rw [rd_eq_getElem p j h]
  exact List.getElem_mem h

theorem compress_of_run (inp : List Nat) (last : Option (List Nat)) (p_padding : Nat)
    (c : Cursor) (h : ∃ b ∈ inp, b ≠ 0) (hp : p_padding ≤ 1)
    (hm : main_loop (inp.length + 1) start_cursor inp last = some c) :
    compress inp last p_padding = some (c.groups :: c.out) := by
  rw [compress, compress_run, (is_blank_false_iff inp).2 h, prepend_padding_small _ _ hp]
  simp only [Bool.false_eq_true, if_false, hm, Option.map_some']

/-- C17: for every row (of less than `2 ^ 64` bytes) with a non-zero byte and without three
consecutive identical bytes, with no previous row and a padding of 0 or 1, the output is the
count byte `1` followed by the encoding of the literal group with skip 0 that carries the
whole row; for a row of at most 7 bytes these are the bytes `01`, `n - 1` and the row. -/
theorem incompressible_row (inp : List Nat) (p_padding : Nat) (h : ∃ b ∈ inp, b ≠ 0)
    (hn : inp.length < 2 ^ 64)
    (hrun : ∀ j, j + 2 < inp.length →
      ¬ (rd inp j = rd inp (j + 1) ∧ rd inp (j + 1) = rd inp (j + 2)))
    (hp : p_padding ≤ 1) :
    compress inp none p_padding
        = some ([1] ++ (Group.literal 0 inp.length inp).encoding)
      ∧ (inp.length ≤ 7 → compress inp none p_padding = some ([1, inp.length - 1] ++ inp)) := by
  have hne : inp ≠ [] := by
    obtain ⟨b, hb, _⟩ := h
    exact List.ne_nil_of_mem hb
  have hpos : 1 ≤ inp.length := List.length_pos.2 hne
  have hcond : ¬ (inp.length ≥ 3 ∧ rd inp 0 = rd inp 1 ∧ rd inp 0 = rd inp 2) := by
    intro hc
    exact hrun 0 (by omega) ⟨hc.2.1, hc.2.1.symm.trans hc.2.2⟩
  have hcount : window_count inp inp.length = inp.length := by
    rw [window_count, if_neg hcond]
    exact count_no_repeat_of_no_run inp inp.length hrun
  have hmain : main_loop (inp.length + 1) start_cursor inp none
      = some (emit_literal start_cursor 0 inp.length inp) := by
    have hm := main_loop_none_single (inp.length - 1) start_cursor inp hne hcount (by decide)
    rw [show inp.length + 1 = inp.length - 1 + 2 by omega, hm, window_emit, if_neg hcond,
      hcount]
  have hout : compress inp none p_padding
      = some ([1] ++ (Group.literal 0 inp.length inp).encoding) := by
    rw [compress_of_run _ _ _ _ h hp hmain]
    show some (to_u8 (0 + 1) :: encode [] 0 inp.length inp) = _
    rw [encode_eq [] 0 inp.length inp hpos hn, List.take_length]
    rfl
  refine ⟨hout, fun h7 => ?_⟩
  rw [hout]
  have hhead : (min 0 15 <<< 3) ||| min (inp.length - 1) 7 = inp.length - 1 := by
    rw [literal_header]
    omega
  have hno : ¬ (inp.length - 1 ≥ 7) := by omega
  have hs : ¬ (0 ≥ 15) := by decide
  simp only [Group.encoding, hhead, if_neg hno, if_neg hs]
  rfl

/-- Instance of C17: scenario 3 of the specification, the row `01 02 03`. -/
theorem incompressible_row_witness :
    compress [1, 2, 3] none 0 = some ([1] ++ (Group.literal 0 [1, 2, 3].length [1, 2, 3]).encoding)
      ∧ ([1, 2, 3].length ≤ 7 → compress [1, 2, 3] none 0
          = some ([1, [1, 2, 3].length - 1] ++ [1, 2, 3])) :=
  incompressible_row [1, 2, 3] 0 ⟨1, by decide, by decide⟩ (by norm_num)
    (fun j hj => by
      have hj0 : j = 0 := by
        simp only [List.length_cons, List.length_nil] at hj
        omega
      rw [hj0]
      decide)
    (by decide)

theorem skip_loop_common (pre x y : List Nat) (s : Nat) :
    skip_loop (pre ++ x) (pre ++ y) s = skip_loop x y (s + pre.length) := by
  induction pre generalizing s with
  | nil => rfl
  | cons a pre ih =>
    have h : a = rd (a :: pre ++ y) 0 := by simp [rd]
    rw [List.cons_append, skip_loop, if_pos h, List.cons_append, List.drop_one, List.tail_cons,
      ih, List.length_cons]
    congr 1
    omega

theorem skip_loop_stop (x y : List Nat) (s : Nat) (hx : x ≠ []) (h : rd x 0 ≠ rd y 0) :
    skip_loop x y s = (s, x, y) := by
  cases x with
  | nil => exact absurd rfl hx
  | cons a x =>
    have ha : ¬ a = rd y 0 := by simpa [rd] using h
    rw [skip_loop, if_neg ha]

/-! ## Invariants of the two loops -/

theorem main_scan_succ (fuel : Nat) (c : Cursor) (inp : List Nat) (last : Option (List Nat)) :
    main_scan (fuel + 1) c inp last
      = if inp.length = 0 then some (c, inp)
        else if (skip_step inp last).2.1.length = 0 then some (c, (skip_step inp last).2.1)
        else
          match window_loop
              (window_size (skip_step inp last).2.1 (skip_step inp last).2.2 + 1) c
              (skip_step inp last).2.1 (skip_step inp last).2.2
              (window_size (skip_step inp last).2.1 (skip_step inp last).2.2)
              (skip_step inp last).1 with
          | none => none
          | some (c1, inp1, last1) =>
            if c1.groups ≥ 253 then some (c1, inp1) else main_scan fuel c1 inp1 last1 := by
  cases last with
  | none => simp only [main_scan, skip_step, window_size]
  | some l => simp only [main_scan, skip_step, window_size]

/-- Induction over the passes of the window loop: a property of the state of the loop that
every pass preserves holds when the loop is left. -/
theorem window_loop_invariant
    (I : Cursor → List Nat → Option (List Nat) → Nat → Nat → Prop)
    (hstep : ∀ c inp last different skip, I c inp last different skip → different ≠ 0 →
      c.groups < 253 →
      I (window_emit c inp different skip) (inp.drop (window_count inp different))
        (last.map (fun l => l.drop (window_count inp different)))
        (different - window_count inp different) 0)
    (fuel : Nat) (c : Cursor) (inp : List Nat) (last : Option (List Nat))
    (different skip : Nat) (c1 : Cursor) (inp1 : List Nat) (last1 : Option (List Nat))
    (hw : window_loop fuel c inp last different skip = some (c1, inp1, last1))
    (hI : I c inp last different skip) (hlt : c.groups < 253) :
    (different = 0 ∧ c1 = c ∧ inp1 = inp ∧ last1 = last)
      ∨ (different ≠ 0 ∧ ∃ d1, I c1 inp1 last1 d1 0 ∧ (d1 = 0 ∨ c1.groups ≥ 253)) := by
  induction fuel generalizing c inp last different skip with
  | zero => simp [window_loop] at hw
  | succ fuel ih =>
    rw [window_loop_succ] at hw
    by_cases h0 : different = 0
    · rw [if_pos h0] at hw
      simp only [Option.some.injEq, Prod.mk.injEq] at hw
      exact Or.inl ⟨h0, hw.1.symm, hw.2.1.symm, hw.2.2.symm⟩
    · rw [if_neg h0] at hw
      have hI2 := hstep c inp last different skip hI h0 hlt
      refine Or.inr ⟨h0, ?_⟩
      by_cases h253 : (window_emit c inp different skip).groups ≥ 253
      · rw [if_pos h253] at hw
        simp only [Option.some.injEq, Prod.mk.injEq] at hw
        obtain ⟨e1, e2, e3⟩ := hw
        subst e1 e2 e3
        exact ⟨_, hI2, Or.inr h253⟩
      · rw [if_neg h253] at hw
        rcases ih _ _ _ _ _ hw hI2 (by omega) with ⟨e0, e1, e2, e3⟩ | ⟨_, d1, hd1, hor⟩
        · subst e1 e2 e3
          exact ⟨_, hI2, Or.inl e0⟩
        · exact ⟨d1, hd1, hor⟩

/-- Induction over the passes of the main loop: `Inv` holds at the head of the loop, `Post`
where the loop is left. -/
theorem main_scan_invariant (Inv : Cursor → List Nat → Option (List Nat) → Prop)
    (Post : Cursor → List Nat → Prop)
    (hend : ∀ c inp last, Inv c inp last → inp.length = 0 → Post c inp)
    (hskip : ∀ c inp last, Inv c inp last → inp.length ≠ 0 →
      (skip_step inp last).2.1.length = 0 → Post c (skip_step inp last).2.1)
    (hwin : ∀ c inp last c1 inp1 last1, Inv c inp last → inp.length ≠ 0 → c.groups < 253 →
      (skip_step inp last).2.1.length ≠ 0 →
      window_loop (window_size (skip_step inp last).2.1 (skip_step inp last).2.2 + 1) c
          (skip_step inp last).2.1 (skip_step inp last).2.2
          (window_size (skip_step inp last).2.1 (skip_step inp last).2.2)
          (skip_step inp last).1 = some (c1, inp1, last1) →
      (c1.groups ≥ 253 → Post c1 inp1) ∧ (c1.groups < 253 → Inv c1 inp1 last1))
    (fuel : Nat) (c : Cursor) (inp : List Nat) (last : Option (List Nat)) (cf : Cursor)
    (rest : List Nat) (hm : main_scan fuel c inp last = some (cf, rest))
    (hI : Inv c inp last) (hlt : c.groups < 253) : Post cf rest := by
  induction fuel generalizing c inp last with
  | zero => simp [main_scan] at hm
  | succ fuel ih =>
    rw [main_scan_succ] at hm
    by_cases h0 : inp.length = 0
    · rw [if_pos h0] at hm
      simp only [Option.some.injEq, Prod.mk.injEq] at hm
      rw [← hm.1, ← hm.2]
      exact hend c inp last hI h0
    · rw [if_neg h0] at hm
      by_cases h1 : (skip_step inp last).2.1.length = 0
      · rw [if_pos h1] at hm
        simp only [Option.some.injEq, Prod.mk.injEq] at hm
        rw [← hm.1, ← hm.2]
        exact hskip c inp last hI h0 h1
      · rw [if_neg h1] at hm
        cases hw : window_loop
            (window_size (skip_step inp last).2.1 (skip_step inp last).2.2 + 1) c
            (skip_step inp last).2.1 (skip_step inp last).2.2
            (window_size (skip_step inp last).2.1 (skip_step inp last).2.2)
            (skip_step inp last).1 with
        | none => rw [hw] at hm; simp at hm
        | some r =>
          obtain ⟨c1, inp1, last1⟩ := r
          rw [hw] at hm
          simp only at hm
          obtain ⟨hp, hi⟩ := hwin c inp last c1 inp1 last1 hI h0 hlt h1 hw
          by_cases h253 : c1.groups ≥ 253
          · rw [if_pos h253] at hm
            simp only [Option.some.injEq, Prod.mk.injEq] at hm
            rw [← hm.1, ← hm.2]
            exact hp h253
          · rw [if_neg h253] at hm
            exact ih c1 inp1 last1 hm (hi (by omega)) (by omega)

/-! ## The output only grows -/

theorem window_emit_calls (c : Cursor) (inp : List Nat) (different skip : Nat) :
    ∃ k, (window_emit c inp different skip).calls = c.calls ++ [k] ∧ k.skip = skip
      ∧ k.count = window_count inp different := by
  unfold window_emit
  split
  · exact ⟨_, emit_repeat_calls c _ _ _, rfl, rfl⟩
  · exact ⟨_, emit_literal_calls c _ _ _, rfl, rfl⟩

theorem consumed_unskipped_step (n : Nat) (ks : List Call) (inp : List Nat) (k : Call)
    (h : consumed_unskipped n ks inp) (hs : k.skip = 0) (hc : k.count ≤ inp.length) :
    consumed_unskipped n (ks ++ [k]) (inp.drop k.count) := by
  refine ⟨?_, ?_⟩
  · intro x hx
    rw [List.mem_append, List.mem_singleton] at hx
    rcases hx with hx | hx
    · exact h.1 x hx
    · rw [hx]
      exact hs
  · rw [List.map_append, List.sum_append, List.length_drop]
    have := h.2
    simp only [List.map_cons, List.map_nil, List.sum_cons, List.sum_nil]
    omega

/-- Without a previous row, the calls made by the window loop have skip 0 and their counts
add up to the bytes consumed. -/
theorem window_loop_unskipped (n : Nat) (c0 : Cursor) (fuel : Nat) (c : Cursor)
    (inp : List Nat) (different : Nat) (c1 : Cursor) (inp1 : List Nat)
    (last1 : Option (List Nat)) (ks : List Call)
    (hw : window_loop fuel c inp none different 0 = some (c1, inp1, last1))
    (hd : different ≤ inp.length) (hlt : c.groups < 253)
    (hk : c.calls = c0.calls ++ ks) (hc : consumed_unskipped n ks inp) :
    last1 = none ∧ ∃ ks1 d1, c1.calls = c0.calls ++ ks1 ∧ consumed_unskipped n ks1 inp1
      ∧ d1 ≤ inp1.length ∧ (c1.groups < 253 → d1 = 0)
      ∧ (c1.groups < 253 → inp1.length + different = inp.length + d1) := by
  rcases window_loop_invariant
      (fun x i l d s => l = none ∧ s = 0 ∧ d ≤ i.length
        ∧ i.length + different = inp.length + d
        ∧ ∃ ks1, x.calls = c0.calls ++ ks1 ∧ consumed_unskipped n ks1 i)
      (by
        intro x i l d s ⟨hl, hs, hdi, hsum, ks1, hks, hcu⟩ hd0 _
        obtain ⟨k, e1, e2, e3⟩ := window_emit_calls x i d s
        have hb := window_count_bounds i d hd0
        refine ⟨by rw [hl]; rfl, rfl, ?_, ?_, ks1 ++ [k], ?_, ?_⟩
        · rw [List.length_drop]
          omega
        · rw [List.length_drop]
          omega
        · rw [e1, hks, List.append_assoc]
        · rw [← e3]
          exact consumed_unskipped_step n ks1 i k hcu (by rw [e2, hs]) (by rw [e3]; omega))
      fuel c inp none different 0 c1 inp1 last1 hw
      ⟨rfl, rfl, hd, rfl, ks, hk, hc⟩ hlt with
    ⟨e0, e1, e2, e3⟩ | ⟨_, d1, ⟨hl, _, hdi, hsum, ks1, hks, hcu⟩, hor⟩
  · subst e1 e2 e3
    exact ⟨rfl, ks, different, hk, hc, hd, fun _ => e0, fun _ => rfl⟩
  · refine ⟨hl, ks1, d1, hks, hcu, hdi, fun h => ?_, fun _ => hsum⟩
    rcases hor with h0 | h253
    · exact h0
    · omega

theorem main_scan_unskipped (n : Nat) (c0 : Cursor) (fuel : Nat) (c : Cursor)
    (inp : List Nat) (cf : Cursor) (rest : List Nat) (ks : List Call)
    (hm : main_scan fuel c inp none = some (cf, rest)) (hlt : c.groups < 253)
    (hk : c.calls = c0.calls ++ ks) (hc : consumed_unskipped n ks inp) :
    (∃ ks1, cf.calls = c0.calls ++ ks1 ∧ consumed_unskipped n ks1 rest)
      ∧ (cf.groups < 253 → rest.length = 0) := by
  refine main_scan_invariant
    (fun x i l => l = none ∧ ∃ ks1, x.calls = c0.calls ++ ks1 ∧ consumed_unskipped n ks1 i)
    (fun x r => (∃ ks1, x.calls = c0.calls ++ ks1 ∧ consumed_unskipped n ks1 r)
      ∧ (x.groups < 253 → r.length = 0))
    ?_ ?_ ?_ fuel c inp none cf rest hm ⟨rfl, ks, hk, hc⟩ hlt
  · intro x i l hx h0
    exact ⟨hx.2, fun _ => h0⟩
  · intro x i l hx h0 h1
    obtain ⟨hl, _⟩ := hx
    subst hl
    exact absurd h1 h0
  · intro x i l c1 inp1 last1 hx h0 hxl h1 hw
    obtain ⟨hl, ks1, hks, hcu⟩ := hx
    subst hl
    obtain ⟨e1, ks2, d1, hks2, hcu2, _, _, _⟩ :=
      window_loop_unskipped n c0 _ x i i.length c1 inp1 last1 ks1 hw (Nat.le_refl _) hxl hks hcu
    exact ⟨fun h253 => ⟨⟨ks2, hks2, hcu2⟩, fun h => by omega⟩, fun _ => ⟨e1, ks2, hks2, hcu2⟩⟩

/-! ## Termination -/

theorem skip_step_length (inp : List Nat) (last : Option (List Nat)) :
    (skip_step inp last).2.1.length ≤ inp.length := by
  cases last with
  | none => exact Nat.le_refl _
  | some l => exact skip_loop_length inp l 0

/-- After the skip loop, if a byte of the row is left, the window is not empty and does not
pass the end of the row. -/
theorem window_size_bounds (inp : List Nat) (last : Option (List Nat))
    (h : (skip_step inp last).2.1.length ≠ 0) :
    1 ≤ window_size (skip_step inp last).2.1 (skip_step inp last).2.2
      ∧ window_size (skip_step inp last).2.1 (skip_step inp last).2.2
        ≤ (skip_step inp last).2.1.length := by
  cases last with
  | none =>
    simp only [skip_step, window_size] at h ⊢
    omega
  | some l =>
    simp only [skip_step, window_size] at h ⊢
    exact ⟨different_loop_pos _ _ (by omega) (skip_loop_differs inp l 0 (by omega)),
      different_loop_le _ _ _ 0 (Nat.zero_le _)⟩

/-- A window loop entered with a non-empty window leaves fewer bytes of the row. -/
theorem window_loop_progress (fuel : Nat) (c : Cursor) (inp : List Nat)
    (last : Option (List Nat)) (different skip : Nat) (c1 : Cursor) (inp1 : List Nat)
    (last1 : Option (List Nat))
    (hw : window_loop fuel c inp last different skip = some (c1, inp1, last1))
    (h0 : different ≠ 0) (hd : different ≤ inp.length) : inp1.length < inp.length := by
  have hb := window_count_bounds inp different h0
  have hdrop : (inp.drop (window_count inp different)).length < inp.length := by
    rw [List.length_drop]
    omega
  cases fuel with
  | zero => simp [window_loop] at hw
  | succ fuel =>
    rw [window_loop_succ, if_neg h0] at hw
    by_cases h253 : (window_emit c inp different skip).groups ≥ 253
    · rw [if_pos h253] at hw
      simp only [Option.some.injEq, Prod.mk.injEq] at hw
      rw [← hw.2.1]
      exact hdrop
    · rw [if_neg h253] at hw
      exact Nat.lt_of_le_of_lt (window_loop_suffix _ _ _ _ _ _ _ _ _ hw).length_le hdrop

/-- The two loops of `compress` end: in the embedding, where the output is a list without a
capacity, a list is returned for every current row, every previous row and every padding
(the bounds on the passes of the loops are never used up); each pass of the window loop
consumes at least 1 and at most `different` bytes; and each pass of the main loop that
enters the window loop leaves strictly fewer bytes of the row. What the list holds after a
forced flush on an empty remainder is the matter of `flush_output`. -/
theorem loops_terminate (inp : List Nat) (last : Option (List Nat)) (p_padding : Nat) :
    (∃ out, compress inp last p_padding = some out)
      ∧ (∀ (w : List Nat) (different : Nat), different ≠ 0 →
          1 ≤ window_count w different ∧ window_count w different ≤ different)
      ∧ (∀ (c : Cursor) (i : List Nat) (l : Option (List Nat)) (c1 : Cursor) (i1 : List Nat)
          (l1 : Option (List Nat)), (skip_step i l).2.1.length ≠ 0 →
          window_loop (window_size (skip_step i l).2.1 (skip_step i l).2.2 + 1) c
            (skip_step i l).2.1 (skip_step i l).2.2
            (window_size (skip_step i l).2.1 (skip_step i l).2.2) (skip_step i l).1
            = some (c1, i1, l1) →
          i1.length < i.length) := by
  refine ⟨?_, window_count_bounds, ?_⟩
  · by_cases hb : is_blank inp = true
    · exact ⟨[255], compress_of_blank inp last p_padding hb⟩
    · obtain ⟨c, hc, _, _⟩ := compress_run_spec inp last p_padding (by simpa using hb)
      exact ⟨c.groups :: c.out, by rw [compress, hc]; rfl⟩
  · intro c i l c1 i1 l1 h1 hw
    have hs := window_size_bounds i l h1
    exact Nat.lt_of_lt_of_le (window_loop_progress _ _ _ _ _ _ _ _ _ hw (by omega) hs.2)
      (skip_step_length i l)

/-! ## Self-delimiting output -/

theorem window_emit_sound (c : Cursor) (inp : List Nat) (different skip : Nat)
    (h0 : different ≠ 0) (hd : different ≤ inp.length) (hn : inp.length < 2 ^ 64)
    (hs : c.sound) : (window_emit c inp different skip).sound := by
  have hb := window_count_bounds inp different h0
  unfold window_emit
  by_cases hc : different ≥ 3 ∧ rd inp 0 = rd inp 1 ∧ rd inp 0 = rd inp 2
  · rw [if_pos hc]
    have h3 : 3 ≤ window_count inp different := by
      rw [window_count, if_pos hc]
      exact (count_repeat_bounds inp different hc.1).1
    exact emit_repeat_sound c _ _ _ hs (by omega) (by omega)
  · rw [if_neg hc]
    exact emit_literal_sound c _ _ _ hs hb.1 (by omega) (by omega)

/-- The window loop keeps the cursor sound and the group counter exact. -/
theorem window_loop_sound (fuel : Nat) (c : Cursor) (inp : List Nat)
    (last : Option (List Nat)) (different skip : Nat) (c1 : Cursor) (inp1 : List Nat)
    (last1 : Option (List Nat))
    (hw : window_loop fuel c inp last different skip = some (c1, inp1, last1))
    (hd : different ≤ inp.length) (hn : inp.length < 2 ^ 64) (hs : c.sound)
    (hg : c.groups = c.calls.length) (hlt : c.groups < 253) :
    c1.sound ∧ c1.groups = c1.calls.length ∧ c1.groups ≤ 253 := by
  rcases window_loop_invariant
      (fun x i _ d _ => x.sound ∧ x.groups = x.calls.length ∧ x.groups ≤ 253
        ∧ d ≤ i.length ∧ i.length < 2 ^ 64)
      (by
        intro x i l d s ⟨h1, h2, _, h4, h5⟩ hd0 hx
        have hb := window_count_bounds i d hd0
        refine ⟨window_emit_sound x i d s hd0 h4 h5 h1, ?_, ?_, ?_, ?_⟩
        · rw [window_emit_groups x i d s hx, window_emit_calls_length, h2]
        · rw [window_emit_groups x i d s hx]
          omega
        · rw [List.length_drop]
          omega
        · rw [List.length_drop]
          omega)
      fuel c inp last different skip c1 inp1 last1 hw ⟨hs, hg, by omega, hd, hn⟩ hlt with
    ⟨_, e1, _, _⟩ | ⟨_, d1, ⟨h1, h2, h3, _, _⟩, _⟩
  · rw [e1]
    exact ⟨hs, hg, by omega⟩
  · exact ⟨h1, h2, h3⟩

/-- Where the main loop is left the cursor is sound and the group counter exact. -/
theorem main_scan_sound (fuel : Nat) (c : Cursor) (inp : List Nat)
    (last : Option (List Nat)) (cf : Cursor) (rest : List Nat)
    (hm : main_scan fuel c inp last = some (cf, rest)) (hn : inp.length < 2 ^ 64)
    (hs : c.sound) (hg : c.groups = c.calls.length) (hlt : c.groups < 253) :
    cf.sound ∧ cf.groups = cf.calls.length ∧ cf.groups ≤ 253 ∧ rest.length < 2 ^ 64 := by
  refine main_scan_invariant
    (fun x i _ => x.sound ∧ x.groups = x.calls.length ∧ x.groups ≤ 253 ∧ i.length < 2 ^ 64)
    (fun x r => x.sound ∧ x.groups = x.calls.length ∧ x.groups ≤ 253 ∧ r.length < 2 ^ 64)
    (fun _ _ _ h _ => h) ?_ ?_ fuel c inp last cf rest hm ⟨hs, hg, by omega, hn⟩ hlt
  · intro x i l ⟨h1, h2, h3, h4⟩ _ _
    exact ⟨h1, h2, h3, Nat.lt_of_le_of_lt (skip_step_length i l) h4⟩
  · intro x i l c1 inp1 last1 ⟨h1, h2, _, h4⟩ _ hxl hne hw
    have hsz := window_size_bounds i l hne
    have hlen := skip_step_length i l
    obtain ⟨r1, r2, r3⟩ := window_loop_sound _ _ _ _ _ _ _ _ _ hw hsz.2 (by omega) h1 h2 hxl
    have hsuf := (window_loop_suffix _ _ _ _ _ _ _ _ _ hw).length_le
    exact ⟨fun _ => ⟨r1, r2, r3, by omega⟩, fun _ => ⟨r1, r2, r3, by omega⟩⟩

theorem parse_groups_encodings (gs : List Group) (hwf : ∀ g ∈ gs, g.wf) (t : List Nat) :
    parse_groups gs.length ((gs.map Group.encoding).flatten ++ t) = some (gs, t) := by
  induction gs with
  | nil => rfl
  | cons g gs ih =>
    have hg : g.wf := hwf g (List.mem_cons_self g gs)
    have hgs : ∀ g1 ∈ gs, g1.wf := fun g1 h1 => hwf g1 (List.mem_cons_of_mem g h1)
    rw [List.length_cons, parse_groups, List.map_cons, List.flatten_cons, List.append_assoc,
      decode_group_encoding g hg]
    simp only [ih hgs]

/-- After the encodings of well-formed groups, bytes that are not a group make the parser
fail. -/
theorem parse_groups_fail (gs : List Group) (hwf : ∀ g ∈ gs, g.wf) (t : List Nat)
    (ht : decode_group t = none) :
    parse_groups (gs.length + 1) ((gs.map Group.encoding).flatten ++ t) = none := by
  induction gs with
  | nil =>
    simp only [List.length_nil, List.map_nil, List.flatten_nil, List.nil_append, parse_groups,
      ht]
  | cons g gs ih =>
    have hg : g.wf := hwf g (List.mem_cons_self g gs)
    have hgs : ∀ g1 ∈ gs, g1.wf := fun g1 h1 => hwf g1 (List.mem_cons_of_mem g h1)
    rw [List.length_cons, parse_groups, List.map_cons, List.flatten_cons, List.append_assoc,
      decode_group_encoding g hg]
    simp only [ih hgs]

/-- A literal header `7` followed by an escaped count `v` and fewer than `v + 8` bytes is
not a group. -/
theorem decode_group_seven_short (v : Nat) (t : List Nat) (h : t.length < v + 8) :
    decode_group (7 :: (escape_bytes v ++ t)) = none := by
  have hf : ¬ (7 ≥ 128) := by decide
  have h1 : decode_field (7 / 8 % 16) 15 (escape_bytes v ++ t) = some (0, escape_bytes v ++ t) := by
    rw [decode_field, if_neg (by decide)]
  have h2 : decode_field (7 % 8) 7 (escape_bytes v ++ t) = some (v + 7, t) := by
    rw [decode_field, if_pos (by decide), decode_count_escape_bytes v t]
    rfl
  have h3 : t.length < v + 7 + 1 := by omega
  rw [decode_group, if_neg hf, h1]
  simp only [h2]
  exact if_pos h3

theorem prepend_padding_sound (p_padding : Nat) (hp : p_padding < 2 ^ 64) :
    (prepend_padding start_cursor p_padding).sound := by
  unfold prepend_padding
  split
  · exact emit_repeat_sound _ _ _ _ start_cursor_sound (by omega) hp
  · exact start_cursor_sound

theorem parse_row_cursor (c : Cursor) (t : List Nat) (hs : c.sound)
    (hg : c.groups = c.calls.length) (h255 : c.groups ≠ 255) :
    parse_row (c.groups :: c.out ++ t) = some (c.calls.map Call.group, t) := by
  have hwf : ∀ g ∈ c.calls.map Call.group, g.wf := by
    intro g hgm
    obtain ⟨k, hk, rfl⟩ := List.mem_map.1 hgm
    exact hs.2 k hk
  have hout : c.out = ((c.calls.map Call.group).map Group.encoding).flatten := by
    rw [hs.1, List.map_map]
    rfl
  rw [List.cons_append, parse_row]
  by_cases h0 : c.groups = 0
  · have hcalls : c.calls = [] := List.length_eq_zero.1 (by omega)
    rw [if_pos (Or.inr h0), hout, hcalls]
    rfl
  · rw [if_neg (by omega), hout]
    have hlen : c.groups = (c.calls.map Call.group).length := by
      rw [List.length_map]
      exact hg
    conv => lhs; rw [hlen]
    exact parse_groups_encodings _ hwf t

theorem sound_length (c : Cursor) (hs : c.sound) :
    c.out.length = ((c.calls.map Call.group).map (fun g => g.encoding.length)).sum := by
  rw [hs.1, List.length_flatten, List.map_map, List.map_map]
  rfl

/-- The output of `compress` is self-delimiting, for every row of less than `2 ^ 64` bytes,
every previous row and every padding below `2 ^ 64`, on the condition that the main loop is
not left with 253 groups and no byte of the row remaining: the parser, run on the bytes
written by `compress` followed by any bytes `t`, returns groups and leaves `t` unread, and
the number of bytes written is 1 plus the lengths of the encodings of these groups. -/
theorem self_delimiting_except_empty_flush (inp : List Nat) (last : Option (List Nat))
    (p_padding : Nat) (t : List Nat) (hn : inp.length < 2 ^ 64) (hp : p_padding < 2 ^ 64)
    (hex : ∀ c, main_scan (inp.length + 1) (prepend_padding start_cursor p_padding) inp last
      = some (c, []) → c.groups < 253) :
    ∃ out gs, compress inp last p_padding = some out
      ∧ parse_row (out ++ t) = some (gs, t)
      ∧ out.length = 1 + (gs.map (fun g => g.encoding.length)).sum := by
  by_cases hb : is_blank inp = true
  · exact ⟨[255], [], compress_of_blank inp last p_padding hb, rfl, rfl⟩
  · have hbf : is_blank inp = false := by simpa using hb
    obtain ⟨hg0, hlt0⟩ := prepend_padding_counted p_padding
    obtain ⟨c, hc, hg, hle⟩ := compress_run_spec inp last p_padding hbf
    have hc2 := hc
    rw [compress_run, hbf] at hc2
    simp only [Bool.false_eq_true, if_false] at hc2
    rw [main_loop_eq_scan _ _ _ _ hlt0] at hc2
    cases hm : main_scan (inp.length + 1) (prepend_padding start_cursor p_padding) inp last with
    | none => rw [hm] at hc2; simp at hc2
    | some r =>
      obtain ⟨cf, rest⟩ := r
      rw [hm] at hc2
      simp only [Option.map_some', Option.some.injEq] at hc2
      obtain ⟨r1, r2, r3, r4⟩ :=
        main_scan_sound _ _ _ _ _ _ hm hn (prepend_padding_sound p_padding hp) hg0 hlt0
      have hsound : c.sound := by
        rw [← hc2, forced_flush]
        by_cases h253 : cf.groups ≥ 253
        · rw [if_pos h253]
          have hrest : rest ≠ [] := by
            intro he
            rw [he] at hm
            have := hex cf hm
            omega
          have hpos : 1 ≤ rest.length := List.length_pos.2 hrest
          exact emit_literal_sound cf 0 rest.length rest r1 hpos (Nat.le_refl _) r4
        · rw [if_neg h253]
          exact r1
      refine ⟨c.groups :: c.out, c.calls.map Call.group, by rw [compress, hc]; rfl,
        parse_row_cursor c t hsound hg (by omega), ?_⟩
      rw [List.length_cons, sound_length c hsound]
      omega

/-- The parser fails on the bytes of a sound cursor with 253 groups that are followed, under
the group count 254, by bytes that are not a group. -/
theorem parse_row_fail (c : Cursor) (t : List Nat) (hs : c.sound) (hg : c.calls.length = 253)
    (ht : decode_group t = none) : parse_row (254 :: (c.out ++ t)) = none := by
  have hwf : ∀ g ∈ c.calls.map Call.group, g.wf := by
    intro g hgm
    obtain ⟨k, hk, rfl⟩ := List.mem_map.1 hgm
    exact hs.2 k hk
  have hout : c.out = ((c.calls.map Call.group).map Group.encoding).flatten := by
    rw [hs.1, List.map_map]
    rfl
  have hlen : 254 = (c.calls.map Call.group).length + 1 := by
    rw [List.length_map, hg]
  rw [parse_row, if_neg (by decide), hout]
  conv => lhs; rw [hlen]
  exact parse_groups_fail _ hwf t ht

set_option maxRecDepth 100000 in
/-- C13 fails on the code at `flush_row` over `flush_prev`, padding 0: whatever follows the
bytes that `compress` returns (less than `2 ^ 64` bytes), the parser fails after the 253rd
group, so the output does not delimit itself. -/
theorem self_delimiting_fails :
    ∃ out, compress flush_row (some flush_prev) 0 = some out
      ∧ ∀ rest : List Nat, rest.length < 2 ^ 64 → parse_row (out ++ rest) = none := by
  refine ⟨_, flush_output, ?_⟩
  intro rest hrest
  have hlt : (prepend_padding start_cursor 0).groups < 253 := by decide
  obtain ⟨r1, _, _, _⟩ := main_scan_sound _ _ _ _ _ _ flush_scan (by decide)
    (prepend_padding_sound 0 (by norm_num)) rfl hlt
  have hshort : rest.length < 2 ^ 64 - 8 + 8 := by
    have h8 : 2 ^ 64 - 8 + 8 = 2 ^ 64 := by norm_num
    rw [h8]
    exact hrest
  have h := parse_row_fail { out := flush_body, groups := 253, calls := flush_calls }
    (7 :: (escape_bytes (2 ^ 64 - 8) ++ rest)) r1 (by decide)
    (decode_group_seven_short _ rest hshort)
  rw [List.cons_append, List.append_assoc, List.cons_append]
  exact h

/-! ## Blocks of rows -/

theorem block_header_eq (b : List (List Nat)) (h : b.length ≤ 128) :
    block_header b.flatten.length b.length ++ b.flatten = block_bytes b := by
  have h0 : to_u8 0 = 0 := by decide
  have hr : to_u8 b.length = b.length := to_u8_of_lt (by omega)
  rw [block_header, block_bytes, h0, hr]

/-- One call of `raster_data` keeps the framing: the row joins the pending rows, after these
have been emitted as a block if the `if` of `raster_data` fires. -/
theorem raster_data_framed (s : Framer) (rows : List (List Nat))
    (blocks : List (List (List Nat))) (pending : List (List Nat)) (row : List Nat)
    (h : framed s rows blocks pending) (hrow : row.length ≤ 16384)
    (hne : rows ≠ [] → pending ≠ []) :
    ∃ blocks1 pending1, framed (raster_data s row) (rows ++ [row]) blocks1 pending1
      ∧ pending1 ≠ [] := by
  obtain ⟨h1, h2, h3, h4, h5, h6, h7⟩ := h
  by_cases hc : row.length + s.buffer.length > 16384 ∨ s.buffer_rows ≥ 128
  · have hp : pending ≠ [] := by
      apply hne
      intro hr
      rw [hr] at h1
      have hpe : pending = [] := (List.append_eq_nil.1 h1).2
      rw [hpe] at h3 h4
      rw [h3, h4] at hc
      simp only [List.flatten_nil, List.length_nil] at hc
      omega
    have hpl : 1 ≤ pending.length := List.length_pos.2 hp
    refine ⟨blocks ++ [pending], [row], ⟨?_, ?_, ?_, ?_, ?_, ?_, ?_⟩, by simp⟩
    · rw [List.flatten_append, List.flatten_singleton, h1]
    · show (flush_if_full s row).stdout = _
      rw [flush_if_full, if_pos hc, List.map_append, List.flatten_append, ← h2, h3, h4,
        List.append_assoc, block_header_eq pending h5]
      simp
    · show (flush_if_full s row).buffer ++ row = _
      rw [flush_if_full, if_pos hc]
      simp
    · show to_u8 ((flush_if_full s row).buffer_rows + 1) = _
      rw [flush_if_full, if_pos hc]
      rfl
    · simp
    · show ((flush_if_full s row).buffer ++ row).length ≤ 16384
      rw [flush_if_full, if_pos hc]
      simpa using hrow
    · intro b hb
      rw [List.mem_append, List.mem_singleton] at hb
      rcases hb with hb | hb
      · exact h7 b hb
      · rw [hb, ← h3]
        exact ⟨hpl, h5, h6⟩
  · have hc1 : row.length + s.buffer.length ≤ 16384 := by omega
    have hc2 : s.buffer_rows < 128 := by omega
    refine ⟨blocks, pending ++ [row], ⟨?_, ?_, ?_, ?_, ?_, ?_, h7⟩, by simp⟩
    · rw [← List.append_assoc, h1]
    · show (flush_if_full s row).stdout = _
      rw [flush_if_full, if_neg hc, h2]
    · show (flush_if_full s row).buffer ++ row = _
      rw [flush_if_full, if_neg hc, h3]
      simp
    · show to_u8 ((flush_if_full s row).buffer_rows + 1) = _
      rw [flush_if_full, if_neg hc, to_u8_of_lt (by omega), h4]
      simp
    · rw [List.length_append, ← h4]
      simp only [List.length_singleton]
      omega
    · show ((flush_if_full s row).buffer ++ row).length ≤ 16384
      rw [flush_if_full, if_neg hc, List.length_append]
      omega

/-- The framing after any sequence of calls of `raster_data`, from a framed state. -/
theorem raster_rows_framed (rows : List (List Nat)) (s : Framer) (done : List (List Nat))
    (blocks : List (List (List Nat))) (pending : List (List Nat))
    (h : framed s done blocks pending) (hne : done ≠ [] → pending ≠ [])
    (hrows : ∀ r ∈ rows, r.length ≤ 16384) :
    ∃ blocks1 pending1, framed (raster_rows s rows) (done ++ rows) blocks1 pending1
      ∧ (done ++ rows ≠ [] → pending1 ≠ []) := by
  induction rows generalizing s done blocks pending with
  | nil =>
    refine ⟨blocks, pending, ?_, ?_⟩
    · rw [List.append_nil]
      exact h
    · rw [List.append_nil]
      exact hne
  | cons row rows ih =>
    obtain ⟨b1, p1, hf, hp⟩ :=
      raster_data_framed s done blocks pending row h (hrows row (List.mem_cons_self _ _)) hne
    obtain ⟨b2, p2, hf2, hp2⟩ := ih (raster_data s row) (done ++ [row]) b1 p1 hf (fun _ => hp)
      (fun r hr => hrows r (List.mem_cons_of_mem _ hr))
    refine ⟨b2, p2, ?_, ?_⟩
    · rw [List.append_assoc] at hf2
      exact hf2
    · rw [List.append_assoc] at hp2
      exact hp2

theorem empty_framer_framed : framed empty_framer [] [] [] :=
  ⟨rfl, rfl, rfl, rfl, by decide, by decide, fun _ h => absurd h (List.not_mem_nil _)⟩

theorem raster_rows_append (s : Framer) (rows : List (List Nat)) (row : List Nat) :
    raster_rows s (rows ++ [row]) = raster_data (raster_rows s rows) row := by
  simp only [raster_rows, List.foldl_append, List.foldl_cons, List.foldl_nil]

/-- C19: starting from the empty block, after any sequence of calls of `raster_data` whose
rows are at most 16384 bytes long (the calls for `rows`, then the call for `row`), the block
holds at most 16384 bytes and between 1 and 128 rows; and the call for `row` first emits the
block it finds (header, then the bytes of the block) and resets it exactly when
`row_length + buffer_length > 16384` or `buffer_rows >= 128`, otherwise it writes nothing
and appends to the block it finds. -/
theorem block_bounds (rows : List (List Nat)) (row : List Nat)
    (hrows : ∀ r ∈ rows, r.length ≤ 16384) (hrow : row.length ≤ 16384) :
    raster_rows empty_framer (rows ++ [row]) = raster_data (raster_rows empty_framer rows) row
      ∧ (raster_data (raster_rows empty_framer rows) row).buffer.length ≤ 16384
      ∧ 1 ≤ (raster_data (raster_rows empty_framer rows) row).buffer_rows
      ∧ (raster_data (raster_rows empty_framer rows) row).buffer_rows ≤ 128
      ∧ (row.length + (raster_rows empty_framer rows).buffer.length > 16384
          ∨ (raster_rows empty_framer rows).buffer_rows ≥ 128 →
        (raster_data (raster_rows empty_framer rows) row).stdout
            = (raster_rows empty_framer rows).stdout
              ++ block_header (raster_rows empty_framer rows).buffer.length
                  (raster_rows empty_framer rows).buffer_rows
              ++ (raster_rows empty_framer rows).buffer
          ∧ (raster_data (raster_rows empty_framer rows) row).buffer = row)
      ∧ (¬ (row.length + (raster_rows empty_framer rows).buffer.length > 16384
          ∨ (raster_rows empty_framer rows).buffer_rows ≥ 128) →
        (raster_data (raster_rows empty_framer rows) row).stdout
            = (raster_rows empty_framer rows).stdout
          ∧ (raster_data (raster_rows empty_framer rows) row).buffer
            = (raster_rows empty_framer rows).buffer ++ row) := by
  obtain ⟨b0, p0, hf0, hp0⟩ := raster_rows_framed rows empty_framer [] [] [] empty_framer_framed
    (fun h => absurd rfl h) hrows
  obtain ⟨b1, p1, hf1, hp1⟩ := raster_data_framed _ _ b0 p0 row hf0 hrow hp0
  obtain ⟨_, _, _, h4, h5, h6, _⟩ := hf1
  have hpl : 1 ≤ p1.length := List.length_pos.2 hp1
  refine ⟨raster_rows_append _ _ _, h6, by omega, by omega, ?_, ?_⟩
  · intro hc
    constructor
    · show (flush_if_full _ row).stdout = _
      rw [flush_if_full, if_pos hc]
    · show (flush_if_full _ row).buffer ++ row = _
      rw [flush_if_full, if_pos hc]
      rfl
  · intro hc
    constructor
    · show (flush_if_full _ row).stdout = _
      rw [flush_if_full, if_neg hc]
    · show (flush_if_full _ row).buffer ++ row = _
      rw [flush_if_full, if_neg hc]

/-- Instance of C19: two rows of two bytes and one byte. -/
theorem block_bounds_witness :
    raster_rows empty_framer ([[1, 2]] ++ [[3]])
        = raster_data (raster_rows empty_framer [[1, 2]]) [3]
      ∧ (raster_data (raster_rows empty_framer [[1, 2]]) [3]).buffer.length ≤ 16384
      ∧ 1 ≤ (raster_data (raster_rows empty_framer [[1, 2]]) [3]).buffer_rows
      ∧ (raster_data (raster_rows empty_framer [[1, 2]]) [3]).buffer_rows ≤ 128
      ∧ (([3] : List Nat).length + (raster_rows empty_framer [[1, 2]]).buffer.length > 16384
          ∨ (raster_rows empty_framer [[1, 2]]).buffer_rows ≥ 128 →
        (raster_data (raster_rows empty_framer [[1, 2]]) [3]).stdout
            = (raster_rows empty_framer [[1, 2]]).stdout
              ++ block_header (raster_rows empty_framer [[1, 2]]).buffer.length
                  (raster_rows empty_framer [[1, 2]]).buffer_rows
              ++ (raster_rows empty_framer [[1, 2]]).buffer
          ∧ (raster_data (raster_rows empty_framer [[1, 2]]) [3]).buffer = [3])
      ∧ (¬ (([3] : List Nat).length + (raster_rows empty_framer [[1, 2]]).buffer.length > 16384
          ∨ (raster_rows empty_framer [[1, 2]]).buffer_rows ≥ 128) →
        (raster_data (raster_rows empty_framer [[1, 2]]) [3]).stdout
            = (raster_rows empty_framer [[1, 2]]).stdout
          ∧ (raster_data (raster_rows empty_framer [[1, 2]]) [3]).buffer
            = (raster_rows empty_framer [[1, 2]]).buffer ++ [3]) :=
  block_bounds [[1, 2]] [3] (by decide) (by decide)

/-- C20: for every sequence of rows, each non-empty and at most 16384 bytes long, passed to
`raster_data` and followed by the final flush of `pcl_page`, the bytes emitted are a
sequence of blocks, each made of the decimal ASCII text of the payload length plus 2, the
character `w`, a zero byte, one byte equal to the number of rows of the block, and the
payload; the blocks hold between 1 and 128 rows and at most 16384 bytes; and the rows of the
blocks, in order, are the rows passed in: none lost, duplicated, reordered or split. -/
theorem framing_fidelity (rows : List (List Nat))
    (h : ∀ r ∈ rows, r ≠ [] ∧ r.length ≤ 16384) :
    ∃ blocks : List (List (List Nat)), blocks.flatten = rows
      ∧ (blocks.map List.flatten).flatten = rows.flatten
      ∧ (∀ b ∈ blocks, 1 ≤ b.length ∧ b.length ≤ 128 ∧ b.flatten.length ≤ 16384)
      ∧ final_flush (raster_rows empty_framer rows) = (blocks.map block_bytes).flatten := by
  obtain ⟨blocks, pending, hf, hp⟩ := raster_rows_framed rows empty_framer [] [] []
    empty_framer_framed (fun h => absurd rfl h) (fun r hr => (h r hr).2)
  rw [List.nil_append] at hf hp
  obtain ⟨h1, h2, h3, h4, h5, h6, h7⟩ := hf
  have hflat : ∀ bs : List (List (List Nat)), bs.flatten = rows →
      (bs.map List.flatten).flatten = rows.flatten := by
    intro bs hbs
    rw [← hbs, List.flatten_flatten]
  by_cases hpe : pending = []
  · rw [hpe, List.append_nil] at h1
    refine ⟨blocks, h1, hflat blocks h1, h7, ?_⟩
    rw [final_flush, h3, hpe]
    simpa using h2
  · have hpl : 1 ≤ pending.length := List.length_pos.2 hpe
    have hbuf : (raster_rows empty_framer rows).buffer.length ≠ 0 := by
      rw [h3]
      cases pending with
      | nil => exact absurd rfl hpe
      | cons r ps =>
        have hr : r ∈ rows := by
          rw [← h1]
          exact List.mem_append_right _ (List.mem_cons_self r ps)
        have hrl : 1 ≤ r.length := List.length_pos.2 (h r hr).1
        rw [List.flatten_cons, List.length_append]
        omega
    have hall : (blocks ++ [pending]).flatten = rows := by
      rw [List.flatten_append, List.flatten_singleton, h1]
    refine ⟨blocks ++ [pending], hall, hflat _ hall, ?_, ?_⟩
    · intro b hb
      rw [List.mem_append, List.mem_singleton] at hb
      rcases hb with hb | hb
      · exact h7 b hb
      · rw [hb, ← h3]
        exact ⟨hpl, h5, h6⟩
    · rw [final_flush, if_pos hbuf, h2, h3, h4, List.append_assoc, block_header_eq pending h5,
        List.map_append, List.flatten_append]
      simp

/-- Instance of C20: two rows, emitted as one block of five payload bytes. -/
theorem framing_fidelity_witness :
    ∃ blocks : List (List (List Nat)), blocks.flatten = [[1, 2], [3, 4, 5]]
      ∧ (blocks.map List.flatten).flatten = [[1, 2], [3, 4, 5]].flatten
      ∧ (∀ b ∈ blocks, 1 ≤ b.length ∧ b.length ≤ 128 ∧ b.flatten.length ≤ 16384)
      ∧ final_flush (raster_rows empty_framer [[1, 2], [3, 4, 5]])
        = (blocks.map block_bytes).flatten :=
  framing_fidelity [[1, 2], [3, 4, 5]] (by decide)

/-! ## The size of the output -/

theorem escape_bytes_length (v : Nat) : (escape_bytes v).length = v / 255 + 1 := by
  simp [escape_bytes]

/-- The encoding of a repeat group of count at least 2 takes fewer than twice the bytes it
stands for. -/
theorem repeat_encoding_length (skip count byte : Nat) (h2 : 2 ≤ count) :
    (Group.rep skip count byte).encoding.length + 1 ≤ 2 * (skip + count) := by
  simp only [Group.encoding, List.length_append, List.length_singleton]
  split <;> split <;> simp only [escape_bytes_length, List.length_nil] <;> omega

/-- The encoding of a literal group takes at most twice the bytes it stands for, and fewer
unless it has skip 0 and carries one byte. -/
theorem literal_encoding_length (skip count : Nat) (bytes : List Nat) (h1 : 1 ≤ count)
    (hlen : bytes.length = count) :
    (Group.literal skip count bytes).encoding.length ≤ 2 * (skip + count)
      ∧ (1 ≤ skip ∨ 2 ≤ count →
        (Group.literal skip count bytes).encoding.length + 1 ≤ 2 * (skip + count)) := by
  simp only [Group.encoding, List.length_append, List.length_singleton, hlen]
  split <;> split <;> simp only [escape_bytes_length, List.length_nil] <;> omega

theorem emit_repeat_out_length (c : Cursor) (skip count byte : Nat) (h2 : 2 ≤ count)
    (hn : count < 2 ^ 64) :
    (emit_repeat c skip count byte).out.length + 1 ≤ c.out.length + 2 * (skip + count) := by
  show (encode_repeat c.out skip count byte).length + 1 ≤ _
  rw [encode_repeat_eq _ _ _ _ h2 hn, List.length_append]
  have := repeat_encoding_length skip count byte h2
  omega

theorem emit_literal_out_length (c : Cursor) (skip count : Nat) (inp : List Nat)
    (h1 : 1 ≤ count) (hle : count ≤ inp.length) (hn : count < 2 ^ 64) :
    (emit_literal c skip count inp).out.length ≤ c.out.length + 2 * (skip + count)
      ∧ (1 ≤ skip ∨ 2 ≤ count →
        (emit_literal c skip count inp).out.length + 1 ≤ c.out.length + 2 * (skip + count)) := by
  show (encode c.out skip count inp).length ≤ _ ∧ (_ → (encode c.out skip count inp).length + 1 ≤ _)
  rw [encode_eq _ _ _ _ h1 hn, List.length_append]
  have h := literal_encoding_length skip count (inp.take count) h1
    (by rw [List.length_take]; omega)
  exact ⟨by omega, fun hh => by have := h.2 hh; omega⟩

/-- The bytes written by one pass of the window loop: at most twice the bytes skipped and
consumed, and fewer than that if a byte was skipped, or two bytes are consumed, or the pass
is a repeat. -/
theorem window_emit_out_length (c : Cursor) (inp : List Nat) (different skip : Nat)
    (h0 : different ≠ 0) (hd : different ≤ inp.length) (hn : inp.length < 2 ^ 64) :
    (window_emit c inp different skip).out.length
        ≤ c.out.length + 2 * (skip + window_count inp different)
      ∧ (1 ≤ skip ∨ 2 ≤ window_count inp different
          ∨ (different ≥ 3 ∧ rd inp 0 = rd inp 1 ∧ rd inp 0 = rd inp 2) →
        (window_emit c inp different skip).out.length + 1
          ≤ c.out.length + 2 * (skip + window_count inp different)) := by
  have hb := window_count_bounds inp different h0
  unfold window_emit
  by_cases hc : different ≥ 3 ∧ rd inp 0 = rd inp 1 ∧ rd inp 0 = rd inp 2
  · rw [if_pos hc]
    have h3 : 3 ≤ window_count inp different := by
      rw [window_count, if_pos hc]
      exact (count_repeat_bounds inp different hc.1).1
    have := emit_repeat_out_length c skip (window_count inp different) (rd inp 0) (by omega)
      (by omega)
    exact ⟨by omega, fun _ => this⟩
  · rw [if_neg hc]
    have h := emit_literal_out_length c skip (window_count inp different) inp hb.1 (by omega)
      (by omega)
    refine ⟨h.1, fun hh => ?_⟩
    rcases hh with h1 | h2 | h3
    · exact h.2 (Or.inl h1)
    · exact h.2 (Or.inr h2)
    · exact absurd h3 hc

theorem rd_drop (p : List Nat) (k j : Nat) : rd (p.drop k) j = rd p (k + j) := by
  simp only [rd, List.getD_eq_getElem?_getD, List.getElem?_drop]

theorem count_no_repeat_loop_found (buffer : List Nat) (length fuel i : Nat)
    (hf : length ≤ fuel + i) (hi : 2 ≤ i)
    (hlt : count_no_repeat_loop buffer length fuel i < length) :
    count_no_repeat_loop buffer length fuel i + 2 < length
      ∧ rd buffer (count_no_repeat_loop buffer length fuel i + 2)
        = rd buffer (count_no_repeat_loop buffer length fuel i + 1)
      ∧ rd buffer (count_no_repeat_loop buffer length fuel i + 2)
        = rd buffer (count_no_repeat_loop buffer length fuel i) := by
  induction fuel generalizing i with
  | zero =>
    rw [count_no_repeat_loop] at hlt
    omega
  | succ fuel ih =>
    rw [count_no_repeat_loop] at hlt ⊢
    by_cases h1 : i < length
    · rw [if_pos h1] at hlt ⊢
      by_cases h2 : rd buffer i = rd buffer (i - 1) ∧ rd buffer i = rd buffer (i - 2)
      · rw [if_pos h2]
        have e1 : i - 2 + 2 = i := by omega
        have e2 : i - 2 + 1 = i - 1 := by omega
        rw [e1, e2]
        exact ⟨h1, h2.1, h2.2⟩
      · rw [if_neg h2] at hlt ⊢
        exact ih (i + 1) (by omega) (by omega) hlt
    · rw [if_neg h1] at hlt
      omega

/-- If `count_no_repeat` stops before the end of the window, three equal bytes follow. -/
theorem count_no_repeat_found (buffer : List Nat) (length : Nat)
    (hlt : count_no_repeat buffer length < length) :
    count_no_repeat buffer length + 2 < length
      ∧ rd buffer (count_no_repeat buffer length + 2) = rd buffer (count_no_repeat buffer length + 1)
      ∧ rd buffer (count_no_repeat buffer length + 2) = rd buffer (count_no_repeat buffer length) := by
  unfold count_no_repeat at hlt ⊢
  by_cases h2 : length ≤ 2
  · rw [if_pos h2] at hlt
    have := count_no_repeat_loop_ge buffer length length length
    have hfull := count_no_repeat_loop_full buffer length length length (by omega)
      (Nat.le_refl _) (fun j hj hjl => by omega)
    omega
  · rw [if_neg h2] at hlt ⊢
    exact count_no_repeat_loop_found buffer length length 2 (by omega) (Nat.le_refl _) hlt

/-- In the window loop a literal pass that does not end the window is followed by a repeat
pass. -/
theorem window_count_next (inp : List Nat) (different : Nat)
    (hc : ¬ (different ≥ 3 ∧ rd inp 0 = rd inp 1 ∧ rd inp 0 = rd inp 2))
    (hlt : window_count inp different < different) :
    different - window_count inp different ≥ 3
      ∧ rd (inp.drop (window_count inp different)) 0 = rd (inp.drop (window_count inp different)) 1
      ∧ rd (inp.drop (window_count inp different)) 0
        = rd (inp.drop (window_count inp different)) 2 := by
  rw [window_count, if_neg hc] at hlt ⊢
  obtain ⟨h1, h2, h3⟩ := count_no_repeat_found inp different hlt
  rw [rd_drop, rd_drop, rd_drop, Nat.add_zero]
  exact ⟨by omega, h3.symm.trans h2, h3.symm⟩

/-- The bytes written by the window loop: at most twice the bytes skipped before it and
consumed by it, and fewer unless no byte was skipped and one byte is consumed. The loop
is left at the end of the window unless the group counter has reached 253. -/
theorem window_loop_out_length (fuel : Nat) (c : Cursor) (inp : List Nat)
    (last : Option (List Nat)) (different skip : Nat) (c1 : Cursor) (inp1 : List Nat)
    (last1 : Option (List Nat))
    (hw : window_loop fuel c inp last different skip = some (c1, inp1, last1))
    (h0 : different ≠ 0) (hd : different ≤ inp.length) (hn : inp.length < 2 ^ 64)
    (hlt : c.groups < 253) :
    inp1.length < inp.length
      ∧ c1.out.length ≤ c.out.length + 2 * (skip + (inp.length - inp1.length))
      ∧ c1.groups ≤ c.groups + (inp.length - inp1.length)
      ∧ (c1.out.length + 1 ≤ c.out.length + 2 * (skip + (inp.length - inp1.length))
        ∨ (skip = 0 ∧ inp.length - inp1.length = 1))
      ∧ (c1.groups < 253 → inp1.length + different = inp.length)
      ∧ last1 = last.map (fun t => t.drop (inp.length - inp1.length)) := by
  have hprog := window_loop_progress _ _ _ _ _ _ _ _ _ hw h0 hd
  rcases window_loop_invariant
      (fun x i l d s =>
        i.length ≤ inp.length ∧ d ≤ i.length ∧ i.length + different = inp.length + d
        ∧ l = last.map (fun t => t.drop (inp.length - i.length))
        ∧ x.out.length ≤ c.out.length + 2 * (skip + (inp.length - i.length))
        ∧ x.groups ≤ c.groups + (inp.length - i.length)
        ∧ ((i.length = inp.length ∧ x = c ∧ s = skip)
          ∨ (s = 0 ∧ (x.out.length + 1 ≤ c.out.length + 2 * (skip + (inp.length - i.length))
            ∨ (skip = 0 ∧ inp.length - i.length = 1
              ∧ (d = 0 ∨ (d ≥ 3 ∧ rd i 0 = rd i 1 ∧ rd i 0 = rd i 2)))))))
      (by
        intro x i l d s ⟨h1, h2, h3, h4, h5, h6, h7⟩ hd0 hx
        have hb := window_count_bounds i d hd0
        have hcost := window_emit_out_length x i d s hd0 h2 (by omega)
        have hgr := window_emit_groups x i d s hx
        have hdl : (i.drop (window_count i d)).length = i.length - window_count i d :=
          List.length_drop _ _
        refine ⟨by omega, by omega, by omega, ?_, ?_, by omega, Or.inr ⟨rfl, ?_⟩⟩
        · rw [h4]
          cases last with
          | none => rfl
          | some t =>
            simp only [Option.map_some', Option.some.injEq, List.drop_drop]
            congr 1
            omega
        · rcases h7 with ⟨e1, e2, e3⟩ | ⟨e3, _⟩
          · have e2s := e2.symm
            have e3s := e3.symm
            subst e2s e3s
            omega
          · subst e3
            omega
        · rcases h7 with ⟨e1, e2, e3⟩ | ⟨e3, hs | ⟨t1, t2, t3⟩⟩
          · have e2s := e2.symm
            have e3s := e3.symm
            subst e2s e3s
            by_cases hstrict : 1 ≤ skip ∨ 2 ≤ window_count i d
                ∨ (d ≥ 3 ∧ rd i 0 = rd i 1 ∧ rd i 0 = rd i 2)
            · exact Or.inl (by have := hcost.2 hstrict; omega)
            · refine Or.inr ⟨by omega, by omega, ?_⟩
              by_cases hk : window_count i d < d
              · exact Or.inr (window_count_next i d (fun hc => hstrict (Or.inr (Or.inr hc))) hk)
              · exact Or.inl (by omega)
          · subst e3
            exact Or.inl (by omega)
          · subst e3
            rcases t3 with t3 | t3
            · exact absurd t3 hd0
            · exact Or.inl (by have := hcost.2 (Or.inr (Or.inr t3)); omega))
      fuel c inp last different skip c1 inp1 last1 hw
      ⟨Nat.le_refl _, hd, rfl, by cases last <;> simp, by omega, by omega,
        Or.inl ⟨rfl, rfl, rfl⟩⟩ hlt with
    ⟨e0, _, _, _⟩ | ⟨_, d1, ⟨h1, h2, h3, h4, h5, h6, h7⟩, hor⟩
  · exact absurd e0 h0
  · refine ⟨hprog, h5, h6, ?_, ?_, h4⟩
    · rcases h7 with ⟨e1, _, _⟩ | ⟨_, hs | ⟨t1, t2, _⟩⟩
      · omega
      · exact Or.inl hs
      · exact Or.inr ⟨t1, t2⟩
    · intro hg
      rcases hor with hz | h253
      · omega
      · omega

theorem skip_loop_count (inp last : List Nat) (skip : Nat) :
    (skip_loop inp last skip).1 + (skip_loop inp last skip).2.1.length = skip + inp.length := by
  induction inp generalizing last skip with
  | nil => simp [skip_loop]
  | cons a rest ih =>
    rw [skip_loop]
    split
    · rw [ih, List.length_cons]
      omega
    · rfl

/-- The bytes skipped and the bytes left after the skip loop are the bytes before it. -/
theorem skip_step_count (inp : List Nat) (last : Option (List Nat)) :
    (skip_step inp last).1 + (skip_step inp last).2.1.length = inp.length := by
  cases last with
  | none => simp [skip_step]
  | some l =>
    have := skip_loop_count inp l 0
    simp only [skip_step]
    omega

/-- If the next byte of the row equals the byte of the previous row, the skip loop skips
it. -/
theorem skip_step_pos (inp l : List Nat) (hne : inp.length ≠ 0) (h : rd inp 0 = rd l 0) :
    1 ≤ (skip_step inp (some l)).1 := by
  cases inp with
  | nil => exact absurd rfl hne
  | cons a rest =>
    have ha : a = rd l 0 := by simpa [rd] using h
    have hc := skip_loop_count rest (l.drop 1) (0 + 1)
    have hl := skip_loop_length rest (l.drop 1) (0 + 1)
    simp only [skip_step, skip_loop, if_pos ha]
    omega

/-- Where the window loop has consumed its whole window, the row is at its end or its next
byte equals the byte of the previous row. -/
theorem window_exit_aligned (inp : List Nat) (last : Option (List Nat)) (inp1 : List Nat)
    (last1 : Option (List Nat)) (hsuf : inp1 <:+ inp)
    (hlast : last1 = last.map (fun t => t.drop (inp.length - inp1.length)))
    (hd : inp1.length + window_size inp last = inp.length) :
    inp1.length = 0 ∨ ∃ t, last1 = some t ∧ rd inp1 0 = rd t 0 := by
  cases last with
  | none =>
    simp only [window_size] at hd
    exact Or.inl (by omega)
  | some l =>
    simp only [window_size] at hd
    have hstop := different_loop_stop inp l inp.length 0 (by omega)
    by_cases hz : inp1.length = 0
    · exact Or.inl hz
    · refine Or.inr ⟨l.drop (inp.length - inp1.length), hlast, ?_⟩
      have hdrop : inp1 = inp.drop (inp.length - inp1.length) := List.suffix_iff_eq_drop.1 hsuf
      have hlt : different_loop inp l inp.length 0 < inp.length := by omega
      have heq : rd inp (different_loop inp l inp.length 0)
          = rd l (different_loop inp l inp.length 0) := by
        by_contra hne
        exact hstop ⟨hlt, hne⟩
      have hidx : inp.length - inp1.length = different_loop inp l inp.length 0 := by omega
      calc rd inp1 0 = rd (inp.drop (inp.length - inp1.length)) 0 :=
            congrArg (fun p => rd p 0) hdrop
        _ = rd inp (inp.length - inp1.length + 0) := rd_drop _ _ _
        _ = rd inp (different_loop inp l inp.length 0) := by rw [Nat.add_zero, hidx]
        _ = rd l (different_loop inp l inp.length 0) := heq
        _ = rd l (inp.length - inp1.length + 0) := by rw [Nat.add_zero, hidx]
        _ = rd (l.drop (inp.length - inp1.length)) 0 := (rd_drop _ _ _).symm

/-- The bytes written up to the point where the main loop is left, for a row of `n` bytes
entered with `o0` bytes written and `g0` groups counted: at most `o0` plus twice the bytes
of the row consumed, and fewer unless at most one byte is consumed; the group counter is at
most `g0` plus the bytes consumed; and with fewer than 253 groups the row is consumed. -/
theorem main_scan_out_length (n o0 g0 fuel : Nat) (c : Cursor) (inp : List Nat)
    (last : Option (List Nat)) (cf : Cursor) (rest : List Nat)
    (hm : main_scan fuel c inp last = some (cf, rest)) (hn : n < 2 ^ 64)
    (hlen : inp.length = n) (ho : c.out.length = o0) (hg : c.groups = g0)
    (hlt : c.groups < 253) :
    rest.length ≤ n
      ∧ cf.out.length ≤ o0 + 2 * (n - rest.length)
      ∧ cf.groups ≤ g0 + (n - rest.length)
      ∧ (cf.out.length + 1 ≤ o0 + 2 * (n - rest.length) ∨ n - rest.length ≤ 1)
      ∧ (cf.groups < 253 → rest.length = 0) := by
  refine main_scan_invariant
    (fun x i l => i.length ≤ n
      ∧ x.out.length ≤ o0 + 2 * (n - i.length)
      ∧ x.groups ≤ g0 + (n - i.length)
      ∧ (x.out.length + 1 ≤ o0 + 2 * (n - i.length) ∨ n - i.length = 0
        ∨ (n - i.length = 1 ∧ (i.length = 0 ∨ ∃ t, l = some t ∧ rd i 0 = rd t 0))))
    (fun x r => r.length ≤ n
      ∧ x.out.length ≤ o0 + 2 * (n - r.length)
      ∧ x.groups ≤ g0 + (n - r.length)
      ∧ (x.out.length + 1 ≤ o0 + 2 * (n - r.length) ∨ n - r.length ≤ 1)
      ∧ (x.groups < 253 → r.length = 0))
    ?_ ?_ ?_ fuel c inp last cf rest hm
    ⟨by omega, by omega, by omega, Or.inr (Or.inl (by omega))⟩ hlt
  · intro x i l ⟨h1, h2, h3, h4⟩ h0
    refine ⟨h1, h2, h3, ?_, fun _ => h0⟩
    rcases h4 with h | h | h
    · exact Or.inl h
    · exact Or.inr (by omega)
    · exact Or.inr (by omega)
  · intro x i l ⟨h1, h2, h3, _⟩ h0 hs
    refine ⟨by omega, by omega, by omega, Or.inl (by omega), fun _ => hs⟩
  · intro x i l c1 inp1 last1 ⟨h1, h2, h3, h4⟩ h0 hxl hne hw
    have hsz := window_size_bounds i l hne
    have hcount := skip_step_count i l
    obtain ⟨w1, w2, w3, w4, w5, w6⟩ :=
      window_loop_out_length _ _ _ _ _ _ _ _ _ hw (by omega) hsz.2 (by omega) hxl
    have hsuf := window_loop_suffix _ _ _ _ _ _ _ _ _ hw
    have hstrict : c1.out.length + 1 ≤ o0 + 2 * (n - inp1.length)
        ∨ (n - i.length = 0 ∧ (skip_step i l).1 = 0
          ∧ (skip_step i l).2.1.length - inp1.length = 1) := by
      rcases h4 with h | h | ⟨h, ha⟩
      · exact Or.inl (by omega)
      · rcases w4 with w | ⟨w, w'⟩
        · exact Or.inl (by omega)
        · exact Or.inr ⟨h, w, w'⟩
      · rcases ha with ha | ⟨t, ht, hrd⟩
        · exact absurd ha h0
        · have hpos : 1 ≤ (skip_step i l).1 := by
            rw [ht]
            exact skip_step_pos i t h0 hrd
          rcases w4 with w | ⟨w, _⟩
          · exact Or.inl (by omega)
          · omega
    clear h4
    constructor
    · intro _
      refine ⟨by omega, by omega, by omega, ?_, fun h => by omega⟩
      rcases hstrict with h | ⟨e1, e2, e3⟩
      · exact Or.inl h
      · exact Or.inr (by omega)
    · intro hlt1
      refine ⟨by omega, by omega, by omega, ?_⟩
      rcases hstrict with h | ⟨e1, e2, e3⟩
      · exact Or.inl h
      · exact Or.inr (Or.inr ⟨by omega,
          window_exit_aligned _ _ inp1 last1 hsuf w6 (w5 hlt1)⟩)

/-- Rows that take more than twice their length: a row of one non-zero byte is encoded in
three bytes, the empty row in one byte, and with a padding of two the row `01 02` is encoded
in six bytes. -/
theorem output_capacity_counterexample :
    (compress [1] none 0 = some [1, 0, 1] ∧ 2 * [1].length < [1, 0, 1].length)
      ∧ (compress [] none 0 = some [255] ∧ 2 * ([] : List Nat).length < [255].length)
      ∧ (compress [1, 2] none 2 = some [2, 128, 0, 1, 1, 2]
        ∧ 2 * [1, 2].length < [2, 128, 0, 1, 1, 2].length) := by
  decide

/-- The size of the output: for every current row of `n < 2 ^ 64` bytes, every previous row
and every padding below `2 ^ 64`, on the condition that the main loop is not left with 253 groups and
no byte of the row remaining, the number of bytes `compress` writes is at most `2 * n + 1`
plus the bytes of the padding group, and at most `2 * n` plus the bytes of the padding group
when `n ≥ 2`; there is no padding group when the padding is 0 or 1, so that then an output
buffer of `2 * n` bytes is large enough for every row of at least two bytes. -/
theorem output_capacity (inp : List Nat) (last : Option (List Nat)) (p_padding : Nat)
    (hn : inp.length < 2 ^ 64) (hp : p_padding < 2 ^ 64)
    (hex : ∀ c, main_scan (inp.length + 1) (prepend_padding start_cursor p_padding) inp last
      = some (c, []) → c.groups < 253) :
    ∃ out, compress inp last p_padding = some out
      ∧ out.length ≤ (prepend_padding start_cursor p_padding).out.length + 2 * inp.length + 1
      ∧ (2 ≤ inp.length →
        out.length ≤ (prepend_padding start_cursor p_padding).out.length + 2 * inp.length)
      ∧ (p_padding ≤ 1 → (prepend_padding start_cursor p_padding).out.length = 0)
      ∧ (2 ≤ p_padding → (prepend_padding start_cursor p_padding).out.length
          = (Group.rep 0 p_padding 0).encoding.length) := by
  have hpad0 : p_padding ≤ 1 → (prepend_padding start_cursor p_padding).out.length = 0 := by
    intro h
    rw [prepend_padding_small _ _ h]
    rfl
  have hpad2 : 2 ≤ p_padding → (prepend_padding start_cursor p_padding).out.length
      = (Group.rep 0 p_padding 0).encoding.length := by
    intro h
    rw [prepend_padding, if_pos (by omega)]
    show (encode_repeat [] 0 p_padding 0).length = _
    rw [encode_repeat_eq [] 0 p_padding 0 h hp, List.nil_append]
  by_cases hb : is_blank inp = true
  · refine ⟨[255], compress_of_blank inp last p_padding hb, ?_, ?_, hpad0, hpad2⟩
    · simp only [List.length_singleton]
      omega
    · intro h2
      simp only [List.length_singleton]
      omega
  · have hbf : is_blank inp = false := by simpa using hb
    obtain ⟨hg0, hlt0⟩ := prepend_padding_counted p_padding
    obtain ⟨c, hc, hg, hle⟩ := compress_run_spec inp last p_padding hbf
    have hc2 := hc
    rw [compress_run, hbf] at hc2
    simp only [Bool.false_eq_true, if_false] at hc2
    rw [main_loop_eq_scan _ _ _ _ hlt0] at hc2
    cases hm : main_scan (inp.length + 1) (prepend_padding start_cursor p_padding) inp last with
    | none => rw [hm] at hc2; simp at hc2
    | some r =>
      obtain ⟨cf, rest⟩ := r
      rw [hm] at hc2
      simp only [Option.map_some', Option.some.injEq] at hc2
      obtain ⟨r1, r2, r3, r4, r5⟩ := main_scan_out_length inp.length _ _ _ _ _ _ _ _ hm hn rfl
        rfl rfl hlt0
      have hg1 : (prepend_padding start_cursor p_padding).groups ≤ 1 := by
        unfold prepend_padding
        split
        · rw [emit_repeat_groups _ _ _ _ (by decide)]
          decide
        · decide
      have hout : c.out.length + 1
            ≤ (prepend_padding start_cursor p_padding).out.length + 2 * inp.length + 1
          ∧ (2 ≤ inp.length → c.out.length + 1
            ≤ (prepend_padding start_cursor p_padding).out.length + 2 * inp.length) := by
        rw [← hc2, forced_flush]
        by_cases h253 : cf.groups ≥ 253
        · rw [if_pos h253]
          have hrest : rest ≠ [] := by
            intro he
            rw [he] at hm
            have := hex cf hm
            omega
          have hpos : 1 ≤ rest.length := List.length_pos.2 hrest
          have hcost := (emit_literal_out_length cf 0 rest.length rest hpos (Nat.le_refl _)
            (by omega)).1
          simp only at h253 hcost ⊢
          constructor
          · omega
          · intro _
            omega
        · rw [if_neg h253]
          have hz := r5 (by simpa using h253)
          simp only at hz ⊢
          constructor
          · omega
          · intro h2
            omega
      refine ⟨c.groups :: c.out, by rw [compress, hc]; rfl, ?_, ?_, hpad0, hpad2⟩
      · rw [List.length_cons]
        exact hout.1
      · intro h2
        rw [List.length_cons]
        exact hout.2 h2

/-- Instance of the bound on the size: scenario 5 of the specification, three bytes for a
row of six. -/
theorem output_capacity_witness :
    ∃ out, compress [5, 5, 9, 9, 9, 9] (some [5, 5, 2, 2, 2, 2]) 0 = some out
      ∧ out.length ≤ (prepend_padding start_cursor 0).out.length
          + 2 * [5, 5, 9, 9, 9, 9].length + 1
      ∧ (2 ≤ [5, 5, 9, 9, 9, 9].length →
        out.length ≤ (prepend_padding start_cursor 0).out.length + 2 * [5, 5, 9, 9, 9, 9].length)
      ∧ (0 ≤ 1 → (prepend_padding start_cursor 0).out.length = 0)
      ∧ (2 ≤ 0 → (prepend_padding start_cursor 0).out.length
          = (Group.rep 0 0 0).encoding.length) := by
  apply output_capacity [5, 5, 9, 9, 9, 9] (some [5, 5, 2, 2, 2, 2]) 0 (by norm_num)
    (by norm_num)
  intro c hc
  have hval : main_scan ([5, 5, 9, 9, 9, 9].length + 1) (prepend_padding start_cursor 0)
      [5, 5, 9, 9, 9, 9] (some [5, 5, 2, 2, 2, 2])
      = some ({ out := [194, 9], groups := 1, calls := [Call.rep 2 4 9] }, []) := by decide
  rw [hval] at hc
  simp only [Option.some.injEq, Prod.mk.injEq, and_true] at hc
  rw [← hc]
  decide


/-! ## The two counting functions on their own -/

theorem count_repeat_int_loop_eq (buffer : List Nat) (length fuel i : Nat)
    (hmax : length < 2 ^ 31) :
    count_repeat_int_loop buffer length fuel i
      = some (count_repeat_loop buffer length fuel i) := by
  induction fuel generalizing i with
  | zero => rfl
  | succ fuel ih =>
    rw [count_repeat_int_loop, count_repeat_loop]
    by_cases h : i < length ∧ rd buffer i = rd buffer (i - 1)
    · have hi : i + 1 ≤ 2 ^ 31 - 1 := by omega
      rw [if_pos h, if_pos h, if_pos hi]
      exact ih (i + 1)
    · rw [if_neg h, if_neg h]

/-- On a window of fewer than `2 ^ 31` bytes the counter `int i` of `count_repeat` does not
overflow, and the function returns what the natural-number counter of the embedding of
`compress` returns. -/
theorem count_repeat_int_eq (buffer : List Nat) (length : Nat) (hmax : length < 2 ^ 31) :
    count_repeat_int buffer length = some (count_repeat buffer length) :=
  count_repeat_int_loop_eq buffer length length 3 hmax

theorem count_repeat_int_loop_overflow (n b fuel i : Nat) (hn : 2 ^ 31 ≤ n) (h1 : 1 ≤ i)
    (hi : i ≤ 2 ^ 31 - 1) (hf : 2 ^ 31 - 1 - i < fuel) :
    count_repeat_int_loop (List.replicate n b) n fuel i = none := by
  induction fuel generalizing i with
  | zero => omega
  | succ fuel ih =>
    rw [count_repeat_int_loop]
    have hc : i < n ∧ rd (List.replicate n b) i = rd (List.replicate n b) (i - 1) :=
      ⟨by omega, by rw [rd_replicate n b i (by omega), rd_replicate n b (i - 1) (by omega)]⟩
    rw [if_pos hc]
    by_cases h2 : i + 1 ≤ 2 ^ 31 - 1
    · rw [if_pos h2]
      exact ih (i + 1) (by omega) h2 (by omega)
    · rw [if_neg h2]

/-- On a window of `n ≥ 2 ^ 31` equal bytes the counter `int i` of `count_repeat`
overflows. -/
theorem count_repeat_int_overflow (n b : Nat) (hn : 2 ^ 31 ≤ n) :
    count_repeat_int (List.replicate n b) n = none :=
  count_repeat_int_loop_overflow n b n 3 hn (by omega) (by omega) (by omega)

/-- C23 as stated fails on the code at the window of `2 ^ 31` bytes `01`: its length is at
least 3 and its first three bytes are equal, but the counter `int i` of `count_repeat`
overflows when it is incremented at `2 ^ 31 - 1`, so no run length is returned. -/
theorem repeat_run_counterexample :
    3 ≤ 2 ^ 31
      ∧ rd (List.replicate (2 ^ 31) 1) 0 = rd (List.replicate (2 ^ 31) 1) 1
      ∧ rd (List.replicate (2 ^ 31) 1) 0 = rd (List.replicate (2 ^ 31) 1) 2
      ∧ count_repeat_int (List.replicate (2 ^ 31) 1) (2 ^ 31) = none := by
  refine ⟨by omega, ?_, ?_, count_repeat_int_overflow _ _ (Nat.le_refl _)⟩
  · rw [rd_replicate _ _ 0 (by omega), rd_replicate _ _ 1 (by omega)]
  · rw [rd_replicate _ _ 0 (by omega), rd_replicate _ _ 2 (by omega)]

/-- C23, amended: for every buffer and every length from 3 to `2 ^ 31 - 1` (the range of the
counter `int i`) whose first three bytes are equal, `count_repeat` returns `r` with
`3 ≤ r ≤ length`, the bytes at the indices `0 .. r - 1` all equal `buffer[0]`, and either
`r = length` or `buffer[r] ≠ buffer[0]`. -/
theorem repeat_run_length (buffer : List Nat) (length : Nat) (h3 : 3 ≤ length)
    (hmax : length < 2 ^ 31)
    (h1 : rd buffer 0 = rd buffer 1) (h2 : rd buffer 0 = rd buffer 2) :
    ∃ r, count_repeat_int buffer length = some r ∧ 3 ≤ r ∧ r ≤ length
      ∧ (∀ j, j < r → rd buffer j = rd buffer 0)
      ∧ (r = length ∨ rd buffer r ≠ rd buffer 0) := by
  have hb := count_repeat_bounds buffer length h3
  have hrun := count_repeat_run buffer length h1 h2
  have hstop := count_repeat_stop buffer length
  refine ⟨count_repeat buffer length, count_repeat_int_eq buffer length hmax, hb.1, hb.2,
    hrun, ?_⟩
  by_cases he : count_repeat buffer length = length
  · exact Or.inl he
  · refine Or.inr (fun hq => hstop ⟨by omega, ?_⟩)
    rw [hq]
    exact (hrun _ (by omega)).symm

/-- Instance of the amended C23: in the window `07 07 07 07 09` the run has length 4 and
stops at the byte `09`. -/
theorem repeat_run_length_witness :
    ∃ r, count_repeat_int [7, 7, 7, 7, 9] 5 = some r ∧ 3 ≤ r ∧ r ≤ 5
      ∧ (∀ j, j < r → rd [7, 7, 7, 7, 9] j = rd [7, 7, 7, 7, 9] 0)
      ∧ (r = 5 ∨ rd [7, 7, 7, 7, 9] r ≠ rd [7, 7, 7, 7, 9] 0) :=
  repeat_run_length [7, 7, 7, 7, 9] 5 (by decide) (by decide) (by decide) (by decide)

theorem count_no_repeat_loop_min (buffer : List Nat) (length fuel i : Nat)
    (hf : length ≤ fuel + i) (hi : 2 ≤ i)
    (hinv : ∀ j, j + 2 < i → j + 2 < length →
      ¬ (rd buffer j = rd buffer (j + 1) ∧ rd buffer (j + 1) = rd buffer (j + 2))) :
    ∀ j, j < count_no_repeat_loop buffer length fuel i → j + 2 < length →
      ¬ (rd buffer j = rd buffer (j + 1) ∧ rd buffer (j + 1) = rd buffer (j + 2)) := by
  induction fuel generalizing i with
  | zero =>
    intro j _ hjl
    exact hinv j (by omega) hjl
  | succ fuel ih =>
    intro j hj hjl
    rw [count_no_repeat_loop] at hj
    by_cases h1 : i < length
    · rw [if_pos h1] at hj
      by_cases h2 : rd buffer i = rd buffer (i - 1) ∧ rd buffer i = rd buffer (i - 2)
      · rw [if_pos h2] at hj
        exact hinv j (by omega) hjl
      · rw [if_neg h2] at hj
        refine ih (i + 1) (by omega) (by omega) (fun k hk hkl => ?_) j hj hjl
        by_cases hki : k + 2 < i
        · exact hinv k hki hkl
        · have e0 : i = k + 2 := by omega
          intro ht
          apply h2
          rw [e0]
          have e1 : k + 2 - 1 = k + 1 := by omega
          have e2 : k + 2 - 2 = k := by omega
          rw [e1, e2]
          exact ⟨ht.2.symm, (ht.1.trans ht.2).symm⟩
    · exact hinv j (by omega) hjl

/-- No three consecutive equal bytes start before the index `count_no_repeat` returns. -/
theorem count_no_repeat_min (buffer : List Nat) (length : Nat) :
    ∀ j, j < count_no_repeat buffer length → j + 2 < length →
      ¬ (rd buffer j = rd buffer (j + 1) ∧ rd buffer (j + 1) = rd buffer (j + 2)) := by
  intro j hj hjl
  unfold count_no_repeat at hj
  have h2 : ¬ length ≤ 2 := by omega
  rw [if_neg h2] at hj
  exact count_no_repeat_loop_min buffer length length 2 (by omega) (Nat.le_refl _)
    (fun k hk _ => by omega) j hj hjl

/-- C24: for every buffer and length, `count_no_repeat` returns the smallest index `j` with
`j + 2 < length` and `buffer[j] = buffer[j+1] = buffer[j+2]`, and returns `length` if there
is no such index. Hence, when the window has at least one byte and does not start with
three equal bytes (the condition under which `compress` calls it), the result `k` satisfies
`1 ≤ k ≤ length`, no three consecutive bytes among the first `k` are equal, and if
`k < length` the three bytes from index `k` on are inside the window and equal. -/
theorem literal_run_length (buffer : List Nat) (length : Nat) :
    (∀ j, j + 2 < length → rd buffer j = rd buffer (j + 1) →
        rd buffer (j + 1) = rd buffer (j + 2) →
        (∀ i, i < j → ¬ (rd buffer i = rd buffer (i + 1) ∧ rd buffer (i + 1) = rd buffer (i + 2))) →
        count_no_repeat buffer length = j)
      ∧ ((∀ j, j + 2 < length →
            ¬ (rd buffer j = rd buffer (j + 1) ∧ rd buffer (j + 1) = rd buffer (j + 2))) →
          count_no_repeat buffer length = length)
      ∧ (1 ≤ length → ¬ (3 ≤ length ∧ rd buffer 0 = rd buffer 1 ∧ rd buffer 0 = rd buffer 2) →
          1 ≤ count_no_repeat buffer length ∧ count_no_repeat buffer length ≤ length
            ∧ (∀ j, j + 2 < count_no_repeat buffer length →
                ¬ (rd buffer j = rd buffer (j + 1) ∧ rd buffer (j + 1) = rd buffer (j + 2)))
            ∧ (count_no_repeat buffer length < length →
                count_no_repeat buffer length + 2 < length
                  ∧ rd buffer (count_no_repeat buffer length)
                    = rd buffer (count_no_repeat buffer length + 1)
                  ∧ rd buffer (count_no_repeat buffer length + 1)
                    = rd buffer (count_no_repeat buffer length + 2))) := by
  have hle := count_no_repeat_le buffer length
  have hmin := count_no_repeat_min buffer length
  have hfound : count_no_repeat buffer length < length →
      count_no_repeat buffer length + 2 < length
        ∧ rd buffer (count_no_repeat buffer length)
          = rd buffer (count_no_repeat buffer length + 1)
        ∧ rd buffer (count_no_repeat buffer length + 1)
          = rd buffer (count_no_repeat buffer length + 2) := by
    intro hlt
    obtain ⟨f1, f2, f3⟩ := count_no_repeat_found buffer length hlt
    exact ⟨f1, (f2.symm.trans f3).symm, f2.symm⟩
  refine ⟨fun j hjl e1 e2 hfirst => ?_, count_no_repeat_of_no_run buffer length,
    fun h1 hno => ⟨count_no_repeat_pos buffer length h1 hno, hle,
      fun j hj => hmin j (by omega) (by omega), hfound⟩⟩
  have hlej : count_no_repeat buffer length ≤ j := by
    by_contra hgt
    exact hmin j (by omega) hjl ⟨e1, e2⟩
  obtain ⟨_, f2, f3⟩ := hfound (by omega)
  by_contra hne
  exact hfirst _ (by omega) ⟨f2, f3⟩

/-- Instance of C24: in the window `01 02 03 03 03 04` the first three equal bytes start at
index 2, which `count_no_repeat` returns, and the window does not start with three equal
bytes. -/
theorem literal_run_length_witness :
    count_no_repeat [1, 2, 3, 3, 3, 4] 6 = 2
      ∧ (1 ≤ count_no_repeat [1, 2, 3, 3, 3, 4] 6 ∧ count_no_repeat [1, 2, 3, 3, 3, 4] 6 ≤ 6
        ∧ (∀ j, j + 2 < count_no_repeat [1, 2, 3, 3, 3, 4] 6 →
            ¬ (rd [1, 2, 3, 3, 3, 4] j = rd [1, 2, 3, 3, 3, 4] (j + 1)
              ∧ rd [1, 2, 3, 3, 3, 4] (j + 1) = rd [1, 2, 3, 3, 3, 4] (j + 2)))
        ∧ (count_no_repeat [1, 2, 3, 3, 3, 4] 6 < 6 →
            count_no_repeat [1, 2, 3, 3, 3, 4] 6 + 2 < 6
              ∧ rd [1, 2, 3, 3, 3, 4] (count_no_repeat [1, 2, 3, 3, 3, 4] 6)
                = rd [1, 2, 3, 3, 3, 4] (count_no_repeat [1, 2, 3, 3, 3, 4] 6 + 1)
              ∧ rd [1, 2, 3, 3, 3, 4] (count_no_repeat [1, 2, 3, 3, 3, 4] 6 + 1)
                = rd [1, 2, 3, 3, 3, 4] (count_no_repeat [1, 2, 3, 3, 3, 4] 6 + 2))) :=
  ⟨(literal_run_length [1, 2, 3, 3, 3, 4] 6).1 2 (by decide) (by decide) (by decide)
      (fun i hi => by interval_cases i <;> decide),
    (literal_run_length [1, 2, 3, 3, 3, 4] 6).2.2 (by decide) (by decide)⟩

/-! ## The stored group count -/

/-- On a row with a non-zero byte `compress` returns the cursor with which the main loop is
left, after the statement of lines 129-133 when the group counter has reached 253 there. -/
theorem compress_run_scan (inp : List Nat) (last : Option (List Nat)) (p_padding : Nat)
    (hb : is_blank inp = false) :
    ∃ c0 rest, main_scan (inp.length + 1) (prepend_padding start_cursor p_padding) inp last
          = some (c0, rest)
      ∧ compress_run inp last p_padding = some (forced_flush (c0, rest))
      ∧ c0.groups = c0.calls.length ∧ c0.groups ≤ 253 ∧ rest <:+ inp := by
  obtain ⟨hg0, hlt0⟩ := prepend_padding_counted p_padding
  obtain ⟨c, hc, _, _⟩ := compress_run_spec inp last p_padding hb
  have hrun : compress_run inp last p_padding
      = (main_scan (inp.length + 1) (prepend_padding start_cursor p_padding) inp last).map
          forced_flush := by
    rw [compress_run, hb]
    simp only [Bool.false_eq_true, if_false]
    exact main_loop_eq_scan _ _ _ _ hlt0
  cases hm : main_scan (inp.length + 1) (prepend_padding start_cursor p_padding) inp last with
  | none =>
    rw [hrun, hm] at hc
    simp at hc
  | some r =>
    obtain ⟨c0, rest⟩ := r
    obtain ⟨hg, hle, hsuf⟩ := main_scan_spec _ _ _ _ _ _ hm hg0 hlt0
    refine ⟨c0, rest, rfl, ?_, hg, hle, hsuf⟩
    rw [hrun, hm]
    rfl

/-! ## The size of the output without the forced flush -/

/-- C22: let `W` and `H` be the width and the height of the selected paper in dots at the
selected resolution, and `w` and `h` the data width and height after an unset value (0) is
replaced by `W` or `H`. Then `param_validate` fails exactly when `w > W` or `h > H`; and
when it succeeds it leaves `w`, `h` and `p_padding = ((W - w) / 2) / 8`, so that
`8 * p_padding ≤ (W - w) / 2 < 8 * p_padding + 8` and `2 * 8 * p_padding + w ≤ W`, and
`p_padding = 0` when the width is left unset. -/
theorem centering_padding (p_paper : Paper) (p_resolution : Resolution) (p_width p_height : Nat) :
    (param_validate p_paper p_resolution p_width p_height = none ↔
        (if p_width = 0 then (paper_size p_paper p_resolution).1 else p_width)
            > (paper_size p_paper p_resolution).1
          ∨ (if p_height = 0 then (paper_size p_paper p_resolution).2 else p_height)
            > (paper_size p_paper p_resolution).2)
      ∧ ∀ g, param_validate p_paper p_resolution p_width p_height = some g →
          g.p_width = (if p_width = 0 then (paper_size p_paper p_resolution).1 else p_width)
            ∧ g.p_height
              = (if p_height = 0 then (paper_size p_paper p_resolution).2 else p_height)
            ∧ g.p_padding = ((paper_size p_paper p_resolution).1 - g.p_width) / 2 / 8
            ∧ 8 * g.p_padding ≤ ((paper_size p_paper p_resolution).1 - g.p_width) / 2
            ∧ ((paper_size p_paper p_resolution).1 - g.p_width) / 2 < 8 * g.p_padding + 8
            ∧ 2 * 8 * g.p_padding + g.p_width ≤ (paper_size p_paper p_resolution).1
            ∧ (p_width = 0 → g.p_padding = 0) := by
  generalize hW : (paper_size p_paper p_resolution).1 = W
  generalize hH : (paper_size p_paper p_resolution).2 = H
  generalize hw : (if p_width = 0 then W else p_width) = w
  generalize hh : (if p_height = 0 then H else p_height) = h
  have hv : param_validate p_paper p_resolution p_width p_height
      = if w > W then none else if h > H then none
        else some { p_width := w, p_height := h, p_padding := ((W - w) / 2) >>> 3 } := by
    simp only [param_validate, hW, hH, hw, hh]
  rw [hv]
  constructor
  · by_cases h1 : w > W
    · simp [h1]
    · by_cases h2 : h > H
      · simp [h1, h2]
      · simp [h1, h2]
  · intro g hg
    by_cases h1 : w > W
    · simp [h1] at hg
    · by_cases h2 : h > H
      · simp [h1, h2] at hg
      · rw [if_neg h1, if_neg h2] at hg
        have hg' := (Option.some.inj hg).symm
        subst hg'
        simp only [Nat.shiftRight_eq_div_pow]
        refine ⟨trivial, trivial, trivial, by omega, by omega, by omega, fun h0 => ?_⟩
        have hwW : w = W := by rw [← hw, if_pos h0]
        rw [hwW]
        simp

/-- Instance of C22: letter paper at 600 dpi (5100 dots wide) with the data width 4000 and
the height left unset; the padding is 68 bytes. -/
theorem centering_padding_witness :
    param_validate Paper.P_LETTER Resolution.RES_600 4000 0
        = some { p_width := 4000, p_height := 6600, p_padding := 68 }
      ∧ (4000 = (if 4000 = 0 then (paper_size Paper.P_LETTER Resolution.RES_600).1 else 4000)
        ∧ 6600 = (if 0 = 0 then (paper_size Paper.P_LETTER Resolution.RES_600).2 else 0)
        ∧ 68 = ((paper_size Paper.P_LETTER Resolution.RES_600).1 - 4000) / 2 / 8
        ∧ 8 * 68 ≤ ((paper_size Paper.P_LETTER Resolution.RES_600).1 - 4000) / 2
        ∧ ((paper_size Paper.P_LETTER Resolution.RES_600).1 - 4000) / 2 < 8 * 68 + 8
        ∧ 2 * 8 * 68 + 4000 ≤ (paper_size Paper.P_LETTER Resolution.RES_600).1
        ∧ (4000 = 0 → 68 = 0)) :=
  ⟨by decide, (centering_padding Paper.P_LETTER Resolution.RES_600 4000 0).2
    { p_width := 4000, p_height := 6600, p_padding := 68 } (by decide)⟩

/-! ## The printable region -/

theorem paper_size_le (p_paper : Paper) (p_resolution : Resolution) :
    (paper_size p_paper p_resolution).1 ≤ 10200
      ∧ (p_resolution = Resolution.RES_600 ∨ p_resolution = Resolution.RES_600x300 →
          (paper_size p_paper p_resolution).1 ≤ 5100) := by
  cases p_paper <;> cases p_resolution <;> simp [paper_size, paper_dots]

theorem param_validate_some (p_paper : Paper) (p_resolution : Resolution)
    (p_width p_height : Nat) (g : Geometry)
    (h : param_validate p_paper p_resolution p_width p_height = some g) :
    g.p_width = (if p_width = 0 then (paper_size p_paper p_resolution).1 else p_width)
      ∧ g.p_height = (if p_height = 0 then (paper_size p_paper p_resolution).2 else p_height)
      ∧ g.p_width ≤ (paper_size p_paper p_resolution).1
      ∧ g.p_height ≤ (paper_size p_paper p_resolution).2
      ∧ g.p_padding = ((paper_size p_paper p_resolution).1 - g.p_width) / 2 / 8 := by
  generalize hW : (paper_size p_paper p_resolution).1 = W at h ⊢
  generalize hH : (paper_size p_paper p_resolution).2 = H at h ⊢
  have hv : param_validate p_paper p_resolution p_width p_height
      = if (if p_width = 0 then W else p_width) > W then none
        else if (if p_height = 0 then H else p_height) > H then none
        else some { p_width := if p_width = 0 then W else p_width,
                    p_height := if p_height = 0 then H else p_height,
                    p_padding := ((W - (if p_width = 0 then W else p_width)) / 2) >>> 3 } := by
    simp only [param_validate, hW, hH]
  rw [hv] at h
  by_cases h1 : (if p_width = 0 then W else p_width) > W
  · rw [if_pos h1] at h
    exact absurd h (by simp)
  · by_cases h2 : (if p_height = 0 then H else p_height) > H
    · rw [if_neg h1, if_pos h2] at h
      exact absurd h (by simp)
    · rw [if_neg h1, if_neg h2] at h
      have hg := (Option.some.inj h).symm
      subst hg
      simp only [Nat.shiftRight_eq_div_pow]
      exact ⟨trivial, trivial, by omega, by omega, by norm_num⟩

/-- For a configuration accepted by `param_validate` whose rows are at least as long as the
two horizontal margins and whose page has at least as many rows as the two vertical margins,
the printable region of `pcl_page` lies inside the page and no subtraction wraps. -/
theorem printable_region_inside (p_paper : Paper) (p_resolution : Resolution)
    (p_width p_height : Nat) (g : Geometry)
    (h : param_validate p_paper p_resolution p_width p_height = some g)
    (hw : 2 * (page_margins p_resolution).2 ≤ main_row_length g.p_width)
    (hh : 2 * (page_margins p_resolution).1 ≤ g.p_height) :
    (page_margins p_resolution).2
        + printable_length p_resolution g.p_padding (main_row_length g.p_width)
        ≤ main_row_length g.p_width
      ∧ (page_margins p_resolution).1 + printable_rows p_resolution g.p_height ≤ g.p_height := by
  obtain ⟨_, _, h1, hhp, h2⟩ := param_validate_some _ _ _ _ _ h
  obtain ⟨h3, h4⟩ := paper_size_le p_paper p_resolution
  have hrl : main_row_length g.p_width = (g.p_width + 7) / 8 := by
    rw [main_row_length, size_add_of_lt (by omega), Nat.shiftRight_eq_div_pow]
  have hH : (paper_size p_paper p_resolution).2 ≤ 16800 := by
    cases p_paper <;> cases p_resolution <;> simp [paper_size, paper_dots]
  generalize hL : main_row_length g.p_width = L at *
  have hLlt : L < 2 ^ 64 := by omega
  have hRlt : g.p_height < 2 ^ 64 := by omega
  cases p_resolution with
  | RES_300 =>
    simp only [page_margins] at hw hh ⊢
    simp only [printable_length, printable_rows]
    rw [size_sub_of_le (by omega) hLlt, size_sub_of_le (by omega) hRlt]
    split <;> omega
  | RES_600 =>
    simp only [page_margins] at hw hh ⊢
    simp only [printable_length, printable_rows]
    have h5 := h4 (Or.inl rfl)
    rw [size_sub_of_le (by omega) hLlt, size_sub_of_le (by omega) hRlt,
      size_add_of_lt (by omega)]
    split
    · rw [size_sub_of_le (by omega) (by omega)]
      omega
    · omega
  | RES_600x300 =>
    simp only [page_margins] at hw hh ⊢
    simp only [printable_length, printable_rows]
    have h5 := h4 (Or.inr rfl)
    rw [size_sub_of_le (by omega) hLlt, size_sub_of_le (by omega) hRlt,
      size_add_of_lt (by omega)]
    split
    · rw [size_sub_of_le (by omega) (by omega)]
      omega
    · omega
  | RES_1200 =>
    simp only [page_margins] at hw hh ⊢
    simp only [printable_length, printable_rows]
    rw [size_sub_of_le (by omega) hLlt, size_sub_of_le (by omega) hRlt,
      size_add_of_lt (by omega)]
    split
    · rw [size_sub_of_le (by omega) (by omega)]
      omega
    · omega
  | RES_HQ1200A =>
    simp only [page_margins] at hw hh ⊢
    simp only [printable_length, printable_rows]
    rw [size_sub_of_le (by omega) hLlt, size_sub_of_le (by omega) hRlt,
      size_add_of_lt (by omega)]
    split
    · rw [size_sub_of_le (by omega) (by omega)]
      omega
    · omega
  | RES_HQ1200B =>
    simp only [page_margins] at hw hh ⊢
    simp only [printable_length, printable_rows]
    rw [size_sub_of_le (by omega) hLlt, size_sub_of_le (by omega) hRlt,
      size_add_of_lt (by omega)]
    split
    · rw [size_sub_of_le (by omega) (by omega)]
      omega
    · omega

/-- C28 fails on the code. With letter paper at 600 dpi, the data height 100 and the width
left unset, `param_validate` accepts, `main` passes `row_length = 638` and `row_count = 100`,
and in `pcl_page` the subtraction `row_count - 200` wraps to `2 ^ 64 - 100`: the top offset
of 100 rows plus `printable_rows` is not at most `row_count`. With the data width 8 and the
height left unset, `row_length` is 1, `row_length - 24` wraps to `2 ^ 64 - 23`, the test on
`printable_length + p_padding` (which wraps to 295) does not cap it, and the left offset of
12 bytes plus `printable_length` is not at most `row_length`. -/
theorem printable_region_wraps :
    (param_validate Paper.P_LETTER Resolution.RES_600 0 100
          = some { p_width := 5100, p_height := 100, p_padding := 0 }
        ∧ main_row_length 5100 = 638
        ∧ printable_rows Resolution.RES_600 100 = 2 ^ 64 - 100
        ∧ ¬ ((page_margins Resolution.RES_600).1 + printable_rows Resolution.RES_600 100 ≤ 100))
      ∧ (param_validate Paper.P_LETTER Resolution.RES_600 8 0
          = some { p_width := 8, p_height := 6600, p_padding := 318 }
        ∧ main_row_length 8 = 1
        ∧ printable_length Resolution.RES_600 318 1 = 2 ^ 64 - 23
        ∧ ¬ ((page_margins Resolution.RES_600).2 + printable_length Resolution.RES_600 318 1
              ≤ 1)) := by
  decide

/-! ## The first row of a block -/

theorem dense_row_length (r : Nat) : (dense_row r).length = 130 := by
  unfold dense_row
  split <;> rfl

theorem dense_rows_length (k r : Nat) : (dense_rows k r).length = 142 * k := by
  induction k generalizing r with
  | zero => rfl
  | succ k ih =>
    simp only [dense_rows, List.length_append, List.length_replicate, dense_row_length, ih]
    omega

theorem dense_page_length : dense_page.length = 221 * 142 := by
  simp only [dense_page, List.length_append, List.length_replicate, dense_rows_length]

theorem dense_rows_drop (k r j : Nat) (tail : List Nat) :
    (dense_rows (j + k) r ++ tail).drop (142 * j) = dense_rows k (r + j) ++ tail := by
  induction j generalizing r with
  | zero => simp
  | succ j ih =>
    have e : j + 1 + k = (j + k) + 1 := by omega
    have hl : (List.replicate 6 0 ++ dense_row r ++ List.replicate 6 0).length = 142 := by
      simp only [List.length_append, List.length_replicate, dense_row_length]
    rw [e, dense_rows, List.append_assoc, Nat.mul_succ, Nat.add_comm (142 * j) 142,
      ← List.drop_drop, List.drop_left' hl, ih (r + 1)]
    have e2 : r + 1 + j = r + (j + 1) := by omega
    rw [e2]

/-- The bytes of `dense_page` at the offset of `in` for the printable row `r`. -/
theorem dense_page_row (r : Nat) (hr : r < 121) :
    (dense_page.drop (7106 + 142 * r)).take 130 = dense_row r := by
  have e : 7106 + 142 * r = 7100 + (142 * r + 6) := by omega
  have e2 : 121 = r + ((120 - r) + 1) := by omega
  have hl : (List.replicate 7100 0).length = 7100 := List.length_replicate _ _
  have h6 : (List.replicate 6 0).length = 6 := List.length_replicate _ _
  rw [dense_page, e, ← List.drop_drop, ← List.drop_drop, List.drop_left' hl]
  nth_rewrite 1 [e2]
  rw [dense_rows_drop, dense_rows, List.append_assoc, List.append_assoc, List.append_assoc,
    List.drop_left' h6, List.take_left' (dense_row_length (0 + r)), Nat.zero_add]


set_option maxRecDepth 100000 in
theorem dense_compress_first :
    (compress (dense_row 0) none 88).map List.length = some 136 := by
  decide!

set_option maxRecDepth 100000 in
theorem dense_compress_odd :
    (compress (dense_row 1) (some (dense_row 0)) 88).map List.length = some 136 := by
  decide!

set_option maxRecDepth 100000 in
theorem dense_compress_even :
    (compress (dense_row 0) (some (dense_row 1)) 88).map List.length = some 136 := by
  decide!

theorem dense_row_mod (r : Nat) : dense_row r = dense_row (r % 2) := by
  unfold dense_row
  rw [Nat.mod_mod]

/-- Every printable row of `dense_page` is compressed to 136 bytes, without a previous row
(row 0) or with the row above it. -/
theorem dense_compress (r : Nat) :
    ∃ out, compress (dense_row r) (if r = 0 then none else some (dense_row (r - 1))) 88
        = some out ∧ out.length = 136 := by
  have key : (compress (dense_row r) (if r = 0 then none else some (dense_row (r - 1))) 88).map
      List.length = some 136 := by
    by_cases h0 : r = 0
    · rw [if_pos h0, h0]
      exact dense_compress_first
    · rw [if_neg h0, dense_row_mod r, dense_row_mod (r - 1)]
      rcases Nat.mod_two_eq_zero_or_one r with h | h
      · have h1 : (r - 1) % 2 = 1 := by omega
        rw [h, h1]
        exact dense_compress_even
      · have h1 : (r - 1) % 2 = 0 := by omega
        rw [h, h1]
        exact dense_compress_odd
  cases hc : compress (dense_row r) (if r = 0 then none else some (dense_row (r - 1))) 88 with
  | none => rw [hc] at key; exact absurd key (by simp)
  | some out =>
    rw [hc] at key
    exact ⟨out, rfl, by simpa using key⟩

/-- One pass of the row loop of `pcl_page` on `dense_page`, for the printable row `r`, when
the block holds the `r` rows before it: the row is compressed with the row above it as
soon as `r` is not 0, and `raster_data` emits the block first exactly when the 136 bytes no
longer fit. -/
theorem dense_row_step (s : PageLoop) (r : Nat) (hr : r < 121)
    (hpos : s.pos = 7106 + 142 * r) (hrows : s.framer.buffer_rows = r) :
    ∃ out, out.length = 136
      ∧ row_step Resolution.RES_300 88 dense_page 142 130 s r
        = some { framer := raster_data s.framer out, pos := 7106 + 142 * (r + 1),
                 events := s.events ++ [{ row := r, with_last := decide (r ≠ 0),
                                          flushed := block_is_full s.framer 136 }] } := by
  obtain ⟨out, hout, hlen⟩ := dense_compress r
  refine ⟨out, hlen, ?_⟩
  have hin : (dense_page.drop s.pos).take 130 = dense_row r := by
    rw [hpos]
    exact dense_page_row r hr
  have hlast : (if s.framer.buffer_rows < 128 ∧ r ≠ 0 then
        some ((dense_page.drop (s.pos - 142)).take 130) else none)
      = (if r = 0 then none else some (dense_row (r - 1))) := by
    by_cases h0 : r = 0
    · rw [if_neg (by omega), if_pos h0]
    · have e : s.pos - 142 = 7106 + 142 * (r - 1) := by omega
      rw [if_pos ⟨by omega, h0⟩, if_neg h0, e, dense_page_row (r - 1) (by omega)]
  have hsome : (if r = 0 then (none : Option (List Nat)) else some (dense_row (r - 1))).isSome
      = decide (r ≠ 0) := by
    by_cases h0 : r = 0
    · simp [h0]
    · simp [h0]
  simp only [row_step, hin, hlast, hout, hsome, hlen]
  have e : 7106 + 142 * r + 142 = 7106 + 142 * (r + 1) := by omega
  rw [if_neg (fun h => absurd h.1 (by decide)), if_neg (by decide), hpos, e]

theorem raster_data_appended (s : Framer) (row : List Nat)
    (h : ¬ (row.length + s.buffer.length > 16384 ∨ s.buffer_rows ≥ 128)) :
    (raster_data s row).buffer.length = s.buffer.length + row.length
      ∧ (raster_data s row).buffer_rows = s.buffer_rows + 1 := by
  simp only [raster_data, flush_if_full, if_neg h, List.length_append]
  exact ⟨trivial, to_u8_of_lt (by omega)⟩

/-- The row loop of `pcl_page` on `dense_page` from the printable row `r` on, when the block
holds the `r` rows before it (136 bytes each): the loop reaches row 120 with 120 rows in the
block, and there the compressed row, made with the row above it, no longer fits. -/
theorem dense_row_loop (k r : Nat) (s : PageLoop) (hk : r + k = 120)
    (hpos : s.pos = 7106 + 142 * r) (hrows : s.framer.buffer_rows = r)
    (hbuf : s.framer.buffer.length = 136 * r) :
    ∃ s1, row_loop Resolution.RES_300 88 dense_page 142 130 (k + 1) r s = some s1
      ∧ { row := 120, with_last := true, flushed := true } ∈ s1.events := by
  induction k generalizing r s with
  | zero =>
    obtain ⟨out, hlen, hstep⟩ := dense_row_step s r (by omega) hpos hrows
    have hr : r = 120 := by omega
    have hfull : block_is_full s.framer 136 = true := by
      simp only [block_is_full, decide_eq_true_eq]
      exact Or.inl (by omega)
    have hlast : decide (r ≠ 0) = true := by
      simp only [decide_eq_true_eq]
      omega
    rw [hfull, hlast, hr] at hstep
    refine ⟨{ framer := raster_data s.framer out, pos := 7106 + 142 * (120 + 1),
              events := s.events ++ [{ row := 120, with_last := true, flushed := true }] },
      ?_, List.mem_append_right _ (List.mem_singleton.2 rfl)⟩
    rw [hr, row_loop, hstep]
    rfl
  | succ k ih =>
    obtain ⟨out, hlen, hstep⟩ := dense_row_step s r (by omega) hpos hrows
    have hfit : ¬ (out.length + s.framer.buffer.length > 16384 ∨ s.framer.buffer_rows ≥ 128) := by
      omega
    obtain ⟨a1, a2⟩ := raster_data_appended s.framer out hfit
    obtain ⟨s1, h1, h2⟩ := ih (r + 1)
      { framer := raster_data s.framer out, pos := 7106 + 142 * (r + 1),
        events := s.events ++ [{ row := r, with_last := decide (r ≠ 0),
                                 flushed := block_is_full s.framer 136 }] }
      (by omega) rfl (by rw [a2, hrows]) (by rw [a1, hbuf, hlen]; omega)
    refine ⟨s1, ?_, h2⟩
    rw [row_loop, hstep]
    exact h1


/-- When the block already holds 128 rows, the row loop of `pcl_page` compresses the next
row without a previous row, and `raster_data` emits the block before it appends the row: the
part of C21 that holds. -/
theorem row_step_full_block (p_resolution : Resolution) (p_padding : Nat) (page : List Nat)
    (row_length printable_length : Nat) (s s1 : PageLoop) (row : Nat)
    (h : row_step p_resolution p_padding page row_length printable_length s row = some s1)
    (hfull : s.framer.buffer_rows ≥ 128)
    (hmode : ¬ (p_resolution = Resolution.RES_HQ1200A ∧ row % 2 = 1)) :
    ∃ e, s1.events = s.events ++ [e] ∧ e.row = row ∧ e.with_last = false
      ∧ e.flushed = true := by
  have hlast : ¬ (s.framer.buffer_rows < 128 ∧ row ≠ 0) := by omega
  simp only [row_step, if_neg hmode, if_neg hlast] at h
  cases hc : compress ((page.drop s.pos).take printable_length) none p_padding with
  | none =>
    rw [hc] at h
    exact absurd h (by simp)
  | some out =>
    rw [hc] at h
    have hs := (Option.some.inj h).symm
    subst hs
    refine ⟨_, rfl, rfl, rfl, ?_⟩
    simp only [block_is_full, decide_eq_true_eq]
    exact Or.inr hfull

/-- C21 fails on the code at `dense_page`, a page for letter paper at 300 dpi with the data
width 1136 and height 221 (`p_padding = 88`, `row_length = 142`, 31382 bytes): each of its
121 printable rows is compressed to 136 bytes, so when `pcl_page` comes to row 120 the block
holds 120 rows and 16320 bytes; `block_rows < 128` and the row index is not 0, so `compress`
is called with the row above as `last`, and `raster_data` then emits the block because the
136 bytes do not fit: the row is the first of the next block and was compressed with a
previous-row reference. -/
theorem block_start_with_previous_row :
    param_validate Paper.P_LETTER Resolution.RES_300 1136 221
        = some { p_width := 1136, p_height := 221, p_padding := 88 }
      ∧ main_row_length 1136 = 142
      ∧ dense_page.length = 221 * 142
      ∧ ∃ s out, pcl_page Resolution.RES_300 88 dense_page 142 221 = some (s, out)
          ∧ { row := 120, with_last := true, flushed := true } ∈ s.events := by
  refine ⟨by decide, by decide, dense_page_length, ?_⟩
  obtain ⟨s1, h1, h2⟩ := dense_row_loop 120 0
    { framer := { empty_framer with stdout := [27, 42, 98, 49, 48, 51, 48, 109] },
      pos := first_printable Resolution.RES_300 142, events := [] }
    (Nat.zero_add 120) (by decide) rfl rfl
  have hl : printable_length Resolution.RES_300 88 142 = 130 := by decide
  have hr : printable_rows Resolution.RES_300 221 = 120 + 1 := by decide
  refine ⟨s1, final_flush s1.framer ++ [49, 48, 51, 48, 77, 12], ?_, h2⟩
  rw [pcl_page, hl, hr, h1]

/-! ## The forced flush on an empty remainder -/

set_option maxRecDepth 1000000 in
theorem nr_scan :
    main_scan (nr_row.length + 1) (prepend_padding start_cursor 0) nr_row none
      = some ({ out := nr_body, groups := 253, calls := nr_calls }, []) := by
  decide!

set_option maxRecDepth 100000 in
/-- The cursor at the `return` of `compress` on `nr_row` without a previous row: after the
253 groups of the row, the forced flush calls `encode` with a count of zero. -/
theorem nr_run :
    compress_run nr_row none 0
      = some { out := nr_body ++ 7 :: escape_bytes (2 ^ 64 - 8), groups := 254,
               calls := nr_calls ++ [Call.lit 0 0 []] } := by
  have hb : is_blank nr_row = false := by decide
  have hlt : (prepend_padding start_cursor 0).groups < 253 := by decide
  rw [compress_run, hb]
  simp only [Bool.false_eq_true, if_false]
  rw [main_loop_eq_scan _ _ _ _ hlt, nr_scan]
  have hg : to_u8 (253 + 1) = 254 := by decide
  have h253 : (253 : Nat) ≥ 253 := Nat.le_refl _
  simp only [Bool.false_eq_true, if_false, Option.map_some', forced_flush, emit_literal,
    List.length_nil, List.take_nil, encode_zero_count, hg, if_pos h253]

/-- The forced flush with a count of zero writes more than `2 ^ 56` bytes. -/
theorem empty_flush_length :
    (7 :: escape_bytes (2 ^ 64 - 8)).length = 72340172838076674 := by
  rw [List.length_cons, escape_bytes_length]
  norm_num

set_option maxRecDepth 100000 in
/-- C14 fails on the code at `nr_row` (505 bytes, `01 02 02 02` 126 times, then `01`), with
no previous row and padding 0. The row has a non-zero byte; the main loop is left after 253
groups with skip 0 whose counts add up to the 505 bytes, no byte remaining and the counter
at 253; the statement of lines 129-133 then calls `encode` with a count of zero, so that
under the stored count 254 the bytes of the 253 groups are followed by 72340172838076674
bytes that are no group: the groups of the output do not account for the row. -/
theorem no_previous_row_fails :
    (∃ b ∈ nr_row, b ≠ 0)
      ∧ main_scan (nr_row.length + 1) (prepend_padding start_cursor 0) nr_row none
          = some ({ out := nr_body, groups := 253, calls := nr_calls }, [])
      ∧ (nr_calls.map Call.count).sum = nr_row.length
      ∧ compress_run nr_row none 0
          = some { out := nr_body ++ 7 :: escape_bytes (2 ^ 64 - 8), groups := 254,
                   calls := nr_calls ++ [Call.lit 0 0 []] }
      ∧ decode_group (7 :: escape_bytes (2 ^ 64 - 8)) = none
      ∧ (7 :: escape_bytes (2 ^ 64 - 8)).length = 72340172838076674 :=
  ⟨⟨1, by decide, by decide⟩, nr_scan, by decide, nr_run, decode_group_seven _,
    empty_flush_length⟩

set_option maxRecDepth 100000 in
/-- C15 fails on the code at `flush_row` over `flush_prev` (both of 505 bytes), padding 0:
when the 253rd group has consumed the last byte of the row, the forced flush calls `encode`
with a count of zero, which consumes no byte and writes 72340172838076674 bytes; the
output of 72340172838077181 bytes is more than the `2 * 505` bytes of the output buffer that
`pcl_page` allocates for such a row, and it is no encoding: the parser of the specification
fails on it. -/
theorem totality_fails :
    flush_prev.length = flush_row.length
      ∧ ∃ out, compress flush_row (some flush_prev) 0 = some out
          ∧ out.length = 72340172838077181
          ∧ 2 * flush_row.length < out.length
          ∧ parse_row out = none := by
  have hlen : (254 :: (flush_body ++ 7 :: escape_bytes (2 ^ 64 - 8))).length
      = 72340172838077181 := by
    have hb : flush_body.length = 506 := by decide
    rw [List.length_cons, List.length_append, empty_flush_length, hb]
  refine ⟨by decide, _, flush_output, hlen, ?_, ?_⟩
  · have h505 : flush_row.length = 505 := by decide
    rw [hlen, h505]
    norm_num
  · have hlt : (prepend_padding start_cursor 0).groups < 253 := by decide
    obtain ⟨r1, _, _, _⟩ := main_scan_sound _ _ _ _ _ _ flush_scan (by decide)
      (prepend_padding_sound 0 (by norm_num)) rfl hlt
    exact parse_row_fail { out := flush_body, groups := 253, calls := flush_calls } _ r1
      (by decide) (decode_group_seven _)

set_option maxRecDepth 100000 in
/-- C26 fails on the code at `flush_row` over `flush_prev`, padding 0. When the main loop is
left the count byte holds 253 and no byte of the row remains; the statement of line 130
then calls `encode` with a count of zero, which writes 72340172838076674 bytes after the 506
bytes of the groups, more than any output buffer holds, so that line 131, which would store
254, is not reached: the count byte stays at 253. The bytes written are no Literal. -/
theorem stored_count_253_at_fault :
    main_scan (flush_row.length + 1) (prepend_padding start_cursor 0) flush_row
        (some flush_prev)
        = some ({ out := flush_body, groups := 253, calls := flush_calls }, [])
      ∧ encode flush_body 0 ([] : List Nat).length []
        = flush_body ++ 7 :: escape_bytes (2 ^ 64 - 8)
      ∧ (7 :: escape_bytes (2 ^ 64 - 8)).length = 72340172838076674
      ∧ decode_group (7 :: escape_bytes (2 ^ 64 - 8)) = none :=
  ⟨flush_scan, encode_zero_count _ _, empty_flush_length, decode_group_seven _⟩

/-- C12 fails on the code for letter paper at 600 dpi with the data width 200 and the height
left unset: `param_validate` accepts with `p_padding = 306`, `main` passes
`row_length = 25`, `pcl_page` finds `printable_length = 1` and allocates `out_row` with
`calloc(2, 1)`, 2 bytes; on a printable row that is the byte `01`, without a previous row,
`compress` writes the 7 bytes `02 9F FF 12 00 00 01`, more than twice the length of the
row. -/
theorem output_capacity_overrun :
    param_validate Paper.P_LETTER Resolution.RES_600 200 0
        = some { p_width := 200, p_height := 6600, p_padding := 306 }
      ∧ main_row_length 200 = 25
      ∧ printable_length Resolution.RES_600 306 25 = 1
      ∧ compress [1] none 306 = some [2, 159, 255, 18, 0, 0, 1]
      ∧ 2 * [1].length < [2, 159, 255, 18, 0, 0, 1].length := by
  decide

/-- The cursor that `compress` returns on a row with a non-zero byte, when the main loop is
not left with 253 groups and no byte of the row remaining: it is sound (the bytes written
are the encodings of the groups of its encoder calls, each of them well-formed), and it is
the cursor of the main loop, followed, when the counter has reached 253 there, by the
literal of the bytes that remain. -/
theorem compress_run_except_empty_flush (inp : List Nat) (last : Option (List Nat))
    (p_padding : Nat) (hb : is_blank inp = false) (hn : inp.length < 2 ^ 64)
    (hp : p_padding < 2 ^ 64)
    (hex : ∀ c, main_scan (inp.length + 1) (prepend_padding start_cursor p_padding) inp last
      = some (c, []) → c.groups < 253) :
    ∃ c c0 rest, compress_run inp last p_padding = some c
      ∧ main_scan (inp.length + 1) (prepend_padding start_cursor p_padding) inp last
          = some (c0, rest)
      ∧ c.sound ∧ c.groups = c.calls.length ∧ c0.groups ≤ 253
      ∧ (c0.groups < 253 → c = c0)
      ∧ (c0.groups = 253 → rest ≠ [] ∧ rest <:+ inp ∧ c.groups = 254
          ∧ c.out = c0.out ++ (Group.literal 0 rest.length rest).encoding
          ∧ c.calls = c0.calls ++ [Call.lit 0 rest.length rest]) := by
  obtain ⟨hg0, hlt0⟩ := prepend_padding_counted p_padding
  obtain ⟨c0, rest, hm, hrun, hg, hle, hsuf⟩ := compress_run_scan inp last p_padding hb
  obtain ⟨r1, r2, _, r4⟩ :=
    main_scan_sound _ _ _ _ _ _ hm hn (prepend_padding_sound p_padding hp) hg0 hlt0
  by_cases h253 : c0.groups ≥ 253
  · have hrest : rest ≠ [] := by
      intro he
      rw [he] at hm
      have := hex c0 hm
      omega
    have hpos : 1 ≤ rest.length := List.length_pos.2 hrest
    have hff : forced_flush (c0, rest) = emit_literal c0 0 rest.length rest := by
      rw [forced_flush]
      exact if_pos h253
    have hgr : (emit_literal c0 0 rest.length rest).groups = 254 := by
      rw [emit_literal_groups _ _ _ _ (by omega)]
      omega
    have hcalls : (emit_literal c0 0 rest.length rest).calls
        = c0.calls ++ [Call.lit 0 rest.length rest] := by
      rw [emit_literal_calls, List.take_length]
    refine ⟨_, c0, rest, hrun, hm, ?_, ?_, hle, fun h => by omega, fun _ => ?_⟩
    · rw [hff]
      exact emit_literal_sound c0 0 rest.length rest r1 hpos (Nat.le_refl _) r4
    · rw [hff, hgr, hcalls, List.length_append, List.length_singleton]
      omega
    · rw [hff]
      refine ⟨hrest, hsuf, hgr, ?_, hcalls⟩
      show encode c0.out 0 rest.length rest = _
      rw [encode_eq c0.out 0 rest.length rest hpos r4, List.take_length]
  · refine ⟨_, c0, rest, hrun, hm, ?_, ?_, hle, fun _ => forced_flush_of_lt _ _ (by omega),
      fun h => by omega⟩
    · rw [forced_flush_of_lt _ _ (by omega)]
      exact r1
    · rw [forced_flush_of_lt _ _ (by omega)]
      exact r2

/-- The stored group count, for every row of less than `2 ^ 64` bytes, every previous row
and every padding below `2 ^ 64`, on the condition that the main loop is not left with 253
groups and no byte of the row remaining: `compress` returns, the count byte is at most 252,
or 254, or 255, never 253; and when it is 254 the main loop was left with the counter at 253
and at least one byte remaining, and the last group written is the literal with skip 0 of
all the bytes that remained. -/
theorem stored_count_except_empty_flush (inp : List Nat) (last : Option (List Nat))
    (p_padding : Nat) (hn : inp.length < 2 ^ 64) (hp : p_padding < 2 ^ 64)
    (hex : ∀ c, main_scan (inp.length + 1) (prepend_padding start_cursor p_padding) inp last
      = some (c, []) → c.groups < 253) :
    ∃ c, compress_run inp last p_padding = some c
      ∧ compress inp last p_padding = some (c.groups :: c.out)
      ∧ (c.groups ≤ 252 ∨ c.groups = 254 ∨ c.groups = 255)
      ∧ c.groups ≠ 253
      ∧ (c.groups = 254 → ∃ c0 rest,
          main_scan (inp.length + 1) (prepend_padding start_cursor p_padding) inp last
              = some (c0, rest)
            ∧ c0.groups = 253 ∧ rest ≠ [] ∧ rest <:+ inp
            ∧ c.out = c0.out ++ (Group.literal 0 rest.length rest).encoding
            ∧ c.calls = c0.calls ++ [Call.lit 0 rest.length rest]) := by
  by_cases hb : is_blank inp = true
  · have hrun : compress_run inp last p_padding = some { start_cursor with groups := 255 } := by
      rw [compress_run, if_pos hb]
    refine ⟨_, hrun, by rw [compress, hrun]; rfl, Or.inr (Or.inr rfl), by decide, ?_⟩
    intro h
    exact absurd h (by decide)
  · obtain ⟨c, c0, rest, hrun, hm, _, _, hle, hlt, h253⟩ :=
      compress_run_except_empty_flush inp last p_padding (by simpa using hb) hn hp hex
    refine ⟨c, hrun, by rw [compress, hrun]; rfl, ?_⟩
    by_cases hc0 : c0.groups < 253
    · have hcc := hlt hc0
      rw [hcc]
      exact ⟨Or.inl (by omega), by omega, fun h => by omega⟩
    · have hc253 : c0.groups = 253 := by omega
      obtain ⟨q1, q2, q3, q4, q5⟩ := h253 hc253
      exact ⟨Or.inr (Or.inl q3), by omega, fun _ => ⟨c0, rest, hm, hc253, q1, q2, q4, q5⟩⟩

/-- Without a previous row, for every row of `n < 2 ^ 64` bytes with a non-zero byte and
every padding below `2 ^ 64`, on the condition that the main loop is not left with 253
groups and no byte of the row remaining: the bytes `compress` writes are the encodings of
well-formed groups, and those after the padding step all have skip 0 and counts that add up
to exactly `n`. -/
theorem no_previous_row_except_empty_flush (inp : List Nat) (p_padding : Nat)
    (h : ∃ b ∈ inp, b ≠ 0) (hn : inp.length < 2 ^ 64) (hp : p_padding < 2 ^ 64)
    (hex : ∀ c, main_scan (inp.length + 1) (prepend_padding start_cursor p_padding) inp none
      = some (c, []) → c.groups < 253) :
    ∃ c ks, compress_run inp none p_padding = some c ∧ c.sound
      ∧ c.calls = (prepend_padding start_cursor p_padding).calls ++ ks
      ∧ (∀ k ∈ ks, k.skip = 0) ∧ (ks.map Call.count).sum = inp.length := by
  obtain ⟨_, hlt0⟩ := prepend_padding_counted p_padding
  obtain ⟨c, c0, rest, hrun, hm, hs, _, hle, hlt, h253⟩ :=
    compress_run_except_empty_flush inp none p_padding ((is_blank_false_iff inp).2 h) hn hp hex
  obtain ⟨⟨ks, hks, hskip, hsum⟩, hrest⟩ :=
    main_scan_unskipped inp.length (prepend_padding start_cursor p_padding) _ _ inp c0 rest []
      hm hlt0 (List.append_nil _).symm
      ⟨fun _ hk => absurd hk (List.not_mem_nil _), by simp⟩
  by_cases hc0 : c0.groups < 253
  · have hcc := hlt hc0
    refine ⟨c, ks, hrun, hs, by rw [hcc]; exact hks, hskip, ?_⟩
    have := hrest hc0
    omega
  · obtain ⟨_, _, _, _, q5⟩ := h253 (by omega)
    refine ⟨c, ks ++ [Call.lit 0 rest.length rest], hrun, hs, ?_, ?_, ?_⟩
    · rw [q5, hks, List.append_assoc]
    · intro k hk
      rw [List.mem_append, List.mem_singleton] at hk
      rcases hk with hk | hk
      · exact hskip k hk
      · rw [hk]
        rfl
    · rw [List.map_append, List.sum_append]
      simpa [Call.count] using hsum

/-! ## Runs longer than the counter of `count_repeat` -/

/-- On a window of fewer than `2 ^ 31` bytes the count of one pass of the window loop is the
same with the counter `int i` as with the natural-number counter of the embedding. -/
theorem window_count_int_eq (inp : List Nat) (different : Nat) (hmax : different < 2 ^ 31) :
    window_count_int inp different = some (window_count inp different) := by
  unfold window_count_int window_count
  split
  · exact count_repeat_int_eq inp different hmax
  · rfl

/-- On a window of `n ≥ 2 ^ 31` equal bytes the first pass of the window loop calls
`count_repeat`, whose counter overflows. -/
theorem window_count_int_overflow (n b : Nat) (hn : 2 ^ 31 ≤ n) :
    window_count_int (List.replicate n b) n = none := by
  have hcond : n ≥ 3 ∧ rd (List.replicate n b) 0 = rd (List.replicate n b) 1
      ∧ rd (List.replicate n b) 0 = rd (List.replicate n b) 2 := by
    rw [rd_replicate n b 0 (by omega), rd_replicate n b 1 (by omega),
      rd_replicate n b 2 (by omega)]
    exact ⟨by omega, rfl, rfl⟩
  rw [window_count_int, if_pos hcond]
  exact count_repeat_int_overflow n b hn

theorem window_loop_int_eq (fuel : Nat) (c : Cursor) (inp : List Nat)
    (last : Option (List Nat)) (different skip : Nat) (h : different < 2 ^ 31) :
    window_loop_int fuel c inp last different skip
      = window_loop fuel c inp last different skip := by
  induction fuel generalizing c inp last different skip with
  | zero => rfl
  | succ fuel ih =>
    rw [window_loop_succ, window_loop_int, window_count_int_eq _ _ h]
    by_cases h0 : different = 0
    · rw [if_pos h0, if_pos h0]
    · rw [if_neg h0, if_neg h0]
      show (if (window_emit c inp different skip).groups ≥ 253 then _ else _) = _
      by_cases h253 : (window_emit c inp different skip).groups ≥ 253
      · rw [if_pos h253, if_pos h253]
        rfl
      · rw [if_neg h253, if_neg h253]
        exact ih _ _ _ _ _ (by omega)

theorem main_loop_int_eq (fuel : Nat) (c : Cursor) (inp : List Nat)
    (last : Option (List Nat)) (h : inp.length < 2 ^ 31) :
    main_loop_int fuel c inp last = main_loop fuel c inp last := by
  induction fuel generalizing c inp last with
  | zero => rfl
  | succ fuel ih =>
    have hstep : ∀ (skip : Nat) (inp1 : List Nat) (last1 : Option (List Nat)) (different : Nat),
        inp1.length ≤ inp.length → different ≤ inp1.length →
        (match window_loop_int (different + 1) c inp1 last1 different skip with
          | none => none
          | some (c, inp, last) =>
            if c.groups ≥ 253 then some (emit_literal c 0 inp.length inp)
            else main_loop_int fuel c inp last)
        = (match window_loop (different + 1) c inp1 last1 different skip with
          | none => none
          | some (c, inp, last) =>
            if c.groups ≥ 253 then some (emit_literal c 0 inp.length inp)
            else main_loop fuel c inp last) := by
      intro skip inp1 last1 different hl hd
      rw [window_loop_int_eq _ _ _ _ _ _ (by omega)]
      cases hw : window_loop (different + 1) c inp1 last1 different skip with
      | none => rfl
      | some r =>
        obtain ⟨c2, inp2, last2⟩ := r
        have hsuf := (window_loop_suffix _ _ _ _ _ _ _ _ _ hw).length_le
        simp only
        rw [ih c2 inp2 last2 (by omega)]
    simp only [main_loop_int, main_loop]
    by_cases h0 : inp.length = 0
    · simp only [if_pos h0]
    · simp only [if_neg h0]
      cases last with
      | none =>
        simp only [if_neg h0]
        exact hstep 0 inp none inp.length (Nat.le_refl _) (Nat.le_refl _)
      | some l =>
        simp only
        by_cases h1 : (skip_loop inp l 0).2.1.length = 0
        · simp only [if_pos h1]
        · simp only [if_neg h1]
          exact hstep _ _ _ _ (skip_loop_length inp l 0)
            (different_loop_le _ _ _ 0 (Nat.zero_le _))

/-- On a row of fewer than `2 ^ 31` bytes the counter `int i` of `count_repeat` never
overflows: the embedding of `compress` with this counter and the one with the natural-number
counter give the same bytes. -/
theorem compress_int_eq (inp : List Nat) (last : Option (List Nat)) (p_padding : Nat)
    (h : inp.length < 2 ^ 31) :
    compress_int inp last p_padding = compress inp last p_padding := by
  rw [compress_int, compress, compress_run_int, compress_run, main_loop_int_eq _ _ _ _ h]

theorem main_tail_int_eq (fuel : Nat) (c : Cursor) (skip : Nat) (inp1 : List Nat)
    (last1 : Option (List Nat)) (different : Nat) (hl : inp1.length < 2 ^ 31)
    (hd : different ≤ inp1.length) :
    (match window_loop_int (different + 1) c inp1 last1 different skip with
      | none => none
      | some (c, inp, last) =>
        if c.groups ≥ 253 then some (emit_literal c 0 inp.length inp)
        else main_loop_int fuel c inp last)
    = (match window_loop (different + 1) c inp1 last1 different skip with
      | none => none
      | some (c, inp, last) =>
        if c.groups ≥ 253 then some (emit_literal c 0 inp.length inp)
        else main_loop fuel c inp last) := by
  rw [window_loop_int_eq _ _ _ _ _ _ (by omega)]
  cases hw : window_loop (different + 1) c inp1 last1 different skip with
  | none => rfl
  | some r =>
    obtain ⟨c2, inp2, last2⟩ := r
    have hsuf := (window_loop_suffix _ _ _ _ _ _ _ _ _ hw).length_le
    simp only
    rw [main_loop_int_eq fuel c2 inp2 last2 (by omega)]

/-- If fewer than `2 ^ 31` bytes of the row are left after the first run of the skip loop,
the counter `int i` of `count_repeat` never overflows: the embedding of `compress` with this
counter and the one with the natural-number counter give the same bytes. -/
theorem compress_int_eq_of_remainder (inp : List Nat) (last : Option (List Nat))
    (p_padding : Nat) (h : (skip_step inp last).2.1.length < 2 ^ 31) :
    compress_int inp last p_padding = compress inp last p_padding := by
  have hm : ∀ c, main_loop_int (inp.length + 1) c inp last
      = main_loop (inp.length + 1) c inp last := by
    intro c
    simp only [main_loop_int, main_loop]
    by_cases h0 : inp.length = 0
    · simp only [if_pos h0]
    · simp only [if_neg h0]
      cases last with
      | none =>
        simp only [if_neg h0]
        exact main_tail_int_eq _ c 0 inp none inp.length h (Nat.le_refl _)
      | some l =>
        simp only
        by_cases h1 : (skip_loop inp l 0).2.1.length = 0
        · simp only [if_pos h1]
        · simp only [if_neg h1]
          exact main_tail_int_eq _ c _ _ _ _ h (different_loop_le _ _ _ 0 (Nat.zero_le _))
  rw [compress_int, compress, compress_run_int, compress_run, hm]

/-- Without a previous row, a row of `n ≥ 2 ^ 31` copies of a non-zero byte makes the
counter `int i` of `count_repeat` overflow in the first pass of the window loop. -/
theorem compress_int_uniform_overflow (n b p_padding : Nat) (hn : 2 ^ 31 ≤ n) (hb : b ≠ 0)
    (hp : p_padding ≤ 1) : compress_int (List.replicate n b) none p_padding = none := by
  have hblank : is_blank (List.replicate n b) = false :=
    (is_blank_false_iff _).2 ⟨b, List.mem_replicate.2 ⟨by omega, rfl⟩, hb⟩
  have hlen : (List.replicate n b).length = n := List.length_replicate n b
  have h0 : ¬ (List.replicate n b).length = 0 := by omega
  have hov : window_count_int (List.replicate n b) (List.replicate n b).length = none := by
    rw [hlen]
    exact window_count_int_overflow n b hn
  rw [compress_int, compress_run_int, hblank, prepend_padding_small _ _ hp]
  simp only [Bool.false_eq_true, if_false, main_loop_int, if_neg h0, window_loop_int, hov,
    Option.map_none']

/-- After `pre`, common to both rows, a run of `m ≥ 2 ^ 31` copies of `b` over bytes `q` that
all differ from `b` makes the counter `int i` of `count_repeat` overflow in the first pass
of the window loop. -/
theorem compress_int_run_overflow (pre q : List Nat) (m b p_padding : Nat) (hm : 2 ^ 31 ≤ m)
    (hb : b ≠ 0) (hq : q.length = m) (hdiff : ∀ x ∈ q, x ≠ b) (hp : p_padding ≤ 1) :
    compress_int (pre ++ List.replicate m b) (some (pre ++ q)) p_padding = none := by
  have hlen : (List.replicate m b).length = m := List.length_replicate m b
  have hne : List.replicate m b ≠ [] := by
    intro h
    rw [h] at hlen
    simp at hlen
    omega
  have hd : ∀ j, j < (List.replicate m b).length → rd (List.replicate m b) j ≠ rd q j := by
    intro j hj
    rw [hlen] at hj
    rw [rd_replicate m b j hj]
    exact fun h => hdiff _ (rd_mem q j (by omega)) h.symm
  have hskip : skip_loop (pre ++ List.replicate m b) (pre ++ q) 0
      = (pre.length, List.replicate m b, q) := by
    rw [skip_loop_common, skip_loop_stop _ _ _ hne (hd 0 (by omega)), Nat.zero_add]
  have hblank : is_blank (pre ++ List.replicate m b) = false :=
    (is_blank_false_iff _).2
      ⟨b, List.mem_append_right _ (List.mem_replicate.2 ⟨by omega, rfl⟩), hb⟩
  have h0 : ¬ (pre ++ List.replicate m b).length = 0 := by
    rw [List.length_append, hlen]
    omega
  have h1 : ¬ (List.replicate m b).length = 0 := by omega
  have hdl : different_loop (List.replicate m b) q (List.replicate m b).length 0
      = (List.replicate m b).length := different_loop_of_all _ q hd
  have h2 : ¬ (List.replicate m b).length = 0 := h1
  have hov : window_count_int (List.replicate m b) (List.replicate m b).length = none := by
    rw [hlen]
    exact window_count_int_overflow m b hm
  rw [compress_int, compress_run_int, hblank, prepend_padding_small _ _ hp]
  simp only [Bool.false_eq_true, if_false, main_loop_int, if_neg h0, hskip, if_neg h1, hdl,
    window_loop_int, hov, Option.map_none']

/-- C16 as stated fails on the code at `n = 2 ^ 31` and `b = 01`. The row of `2 ^ 31` bytes
`01` is not blank; without a previous row no byte is skipped and the window is the whole
row; the test of line 104 holds, and the call `count_repeat(in, different)` of line 105
overflows its counter `int i`: no count is defined for the repeat group, and `compress`
has no defined output. -/
theorem uniform_row_counterexample :
    3 ≤ 2 ^ 31 ∧ (1 : Nat) ≠ 0
      ∧ window_size (skip_step (List.replicate (2 ^ 31) 1) none).2.1
          (skip_step (List.replicate (2 ^ 31) 1) none).2.2 = 2 ^ 31
      ∧ window_count_int (List.replicate (2 ^ 31) 1) (2 ^ 31) = none
      ∧ compress_int (List.replicate (2 ^ 31) 1) none 0 = none := by
  refine ⟨by omega, by omega, ?_, window_count_int_overflow _ _ (Nat.le_refl _),
    compress_int_uniform_overflow _ _ _ (Nat.le_refl _) (by omega) (by omega)⟩
  show (List.replicate (2 ^ 31) 1).length = 2 ^ 31
  exact List.length_replicate _ _

/-- C18 as stated fails on the code at `k = 1`, `m = 2 ^ 31` and `b = 01`. The current row is
the byte `05` followed by `2 ^ 31` bytes `01`, the previous row the byte `05` followed by
`2 ^ 31` bytes `00`: the skip loop skips one byte, the window is the `2 ^ 31` bytes that
remain, the test of line 104 holds, and the call `count_repeat(in, different)` of line 105
overflows its counter `int i`: no count is defined for the repeat group, and `compress`
has no defined output. -/
theorem skip_then_repeat_counterexample :
    3 ≤ 2 ^ 31 ∧ (1 : Nat) ≠ 0
      ∧ (List.replicate (2 ^ 31) 0).length = 2 ^ 31
      ∧ (∀ x ∈ List.replicate (2 ^ 31) 0, x ≠ 1)
      ∧ window_count_int (List.replicate (2 ^ 31) 1) (2 ^ 31) = none
      ∧ compress_int ([5] ++ List.replicate (2 ^ 31) 1)
          (some ([5] ++ List.replicate (2 ^ 31) 0)) 0 = none := by
  have hdiff : ∀ x ∈ List.replicate (2 ^ 31) 0, x ≠ 1 := by
    intro x hx
    rw [(List.mem_replicate.1 hx).2]
    omega
  exact ⟨by omega, by omega, List.length_replicate _ _, hdiff,
    window_count_int_overflow _ _ (Nat.le_refl _),
    compress_int_run_overflow [5] _ _ 1 0 (Nat.le_refl _) (by omega)
      (List.length_replicate _ _) hdiff (by omega)⟩

/-- C16, amended: for every `n` from 3 to `2 ^ 31 - 1` (the range of the counter `int i` of
`count_repeat`) and every non-zero byte `b`, the row of `n` copies of `b`, with no previous
row and a padding of 0 or 1, is encoded as the count byte `1` followed by the encoding of
the repeat group with skip 0, count `n` and byte `b`; for `n ≤ 32` these are the three bytes
`01`, `0x80 + (n - 2)`, `b`. This is the output of `compress` with the counter `int i`, and
the same bytes are the output of the embedding with the natural-number counter. -/
theorem uniform_row (n b p_padding : Nat) (h3 : 3 ≤ n) (hn : n < 2 ^ 31) (hb : b ≠ 0)
    (hp : p_padding ≤ 1) :
    compress_int (List.replicate n b) none p_padding
        = some ([1] ++ (Group.rep 0 n b).encoding)
      ∧ compress (List.replicate n b) none p_padding = some ([1] ++ (Group.rep 0 n b).encoding)
      ∧ (n ≤ 32 →
        compress_int (List.replicate n b) none p_padding = some [1, 128 + (n - 2), b]) := by
  have hlen : (List.replicate n b).length = n := List.length_replicate n b
  have hcond : n ≥ 3 ∧ rd (List.replicate n b) 0 = rd (List.replicate n b) 1
      ∧ rd (List.replicate n b) 0 = rd (List.replicate n b) 2 := by
    rw [rd_replicate n b 0 (by omega), rd_replicate n b 1 (by omega),
      rd_replicate n b 2 (by omega)]
    exact ⟨h3, rfl, rfl⟩
  have hcount : window_count (List.replicate n b) n = n := by
    rw [window_count, if_pos hcond]
    exact count_repeat_of_run _ n b h3 (fun j hj => rd_replicate n b j hj)
  have hint : compress_int (List.replicate n b) none p_padding
      = compress (List.replicate n b) none p_padding :=
    compress_int_eq _ _ _ (by rw [hlen]; exact hn)
  have hne : List.replicate n b ≠ [] := by
    intro h
    rw [h] at hlen
    simp at hlen
    omega
  have hmain : main_loop ((List.replicate n b).length + 1) start_cursor (List.replicate n b) none
      = some (emit_repeat start_cursor 0 n b) := by
    have h := main_loop_none_single (n - 1) start_cursor (List.replicate n b) hne
      (by rw [hlen]; exact hcount) (by decide)
    rw [hlen] at h ⊢
    rw [show n + 1 = n - 1 + 2 by omega, h, window_emit, if_pos hcond, hcount,
      rd_replicate n b 0 (by omega)]
  have hmem : ∃ x ∈ List.replicate n b, x ≠ 0 :=
    ⟨b, List.mem_replicate.2 ⟨by omega, rfl⟩, hb⟩
  have hout : compress (List.replicate n b) none p_padding
      = some ([1] ++ (Group.rep 0 n b).encoding) := by
    rw [compress_of_run _ _ _ _ hmem hp hmain]
    show some (to_u8 (0 + 1) :: encode_repeat [] 0 n b) = _
    rw [encode_repeat_eq [] 0 n b (by omega) (by omega)]
    rfl
  refine ⟨hint.trans hout, hout, fun h32 => ?_⟩
  rw [hint, hout]
  have hhead : 128 ||| (min 0 3 <<< 5) ||| min (n - 2) 31 = 128 + (n - 2) := by
    rw [repeat_header]
    omega
  have hno : ¬ (n - 2 ≥ 31) := by omega
  have hs : ¬ (0 ≥ 3) := by decide
  simp only [Group.encoding, hhead, if_neg hno, if_neg hs]
  rfl

/-- Instance of the amended C16: scenario 4 of the specification, five bytes `07`. -/
theorem uniform_row_witness :
    compress_int (List.replicate 5 7) none 0 = some ([1] ++ (Group.rep 0 5 7).encoding)
      ∧ compress (List.replicate 5 7) none 0 = some ([1] ++ (Group.rep 0 5 7).encoding)
      ∧ (5 ≤ 32 → compress_int (List.replicate 5 7) none 0 = some [1, 128 + (5 - 2), 7]) :=
  uniform_row 5 7 0 (by decide) (by norm_num) (by decide) (by decide)

/-- C18, amended: for every `k ≥ 0`, every `m` from 3 to `2 ^ 31 - 1` (the range of the
counter `int i` of `count_repeat`) and non-zero byte `b`, if the current row is `k` bytes
equal to the previous row (the bytes `pre`) followed by `m` copies of `b`, and the previous
row differs from `b` at each of these last `m` positions (the bytes `q`), then with a padding
of 0 or 1 the output is the count byte `1` followed by the encoding of the repeat group with
skip `k`, count `m` and byte `b`. This is the output of
`compress` with the counter `int i`, and the same bytes are the output of the embedding with
the natural-number counter. -/
theorem skip_then_repeat (pre q : List Nat) (m b p_padding : Nat) (h3 : 3 ≤ m)
    (hm : m < 2 ^ 31) (hb : b ≠ 0) (hq : q.length = m) (hdiff : ∀ x ∈ q, x ≠ b)
    (hp : p_padding ≤ 1) :
    compress_int (pre ++ List.replicate m b) (some (pre ++ q)) p_padding
        = some ([1] ++ (Group.rep pre.length m b).encoding)
      ∧ compress (pre ++ List.replicate m b) (some (pre ++ q)) p_padding
        = some ([1] ++ (Group.rep pre.length m b).encoding) := by
  have hlen : (List.replicate m b).length = m := List.length_replicate m b
  have hne : List.replicate m b ≠ [] := by
    intro h
    rw [h] at hlen
    simp at hlen
    omega
  have hd : ∀ j, j < (List.replicate m b).length → rd (List.replicate m b) j ≠ rd q j := by
    intro j hj
    rw [hlen] at hj
    rw [rd_replicate m b j hj]
    exact fun h => hdiff _ (rd_mem q j (by omega)) h.symm
  have hskip : skip_loop (pre ++ List.replicate m b) (pre ++ q) 0
      = (pre.length, List.replicate m b, q) := by
    rw [skip_loop_common, skip_loop_stop _ _ _ hne (hd 0 (by omega)), Nat.zero_add]
  have hcond : m ≥ 3 ∧ rd (List.replicate m b) 0 = rd (List.replicate m b) 1
      ∧ rd (List.replicate m b) 0 = rd (List.replicate m b) 2 := by
    rw [rd_replicate m b 0 (by omega), rd_replicate m b 1 (by omega),
      rd_replicate m b 2 (by omega)]
    exact ⟨h3, rfl, rfl⟩
  have hcount : window_count (List.replicate m b) m = m := by
    rw [window_count, if_pos hcond]
    exact count_repeat_of_run _ m b h3 (fun j hj => rd_replicate m b j hj)
  have hint : compress_int (pre ++ List.replicate m b) (some (pre ++ q)) p_padding
      = compress (pre ++ List.replicate m b) (some (pre ++ q)) p_padding := by
    apply compress_int_eq_of_remainder
    simp only [skip_step, hskip, hlen]
    exact hm
  have hmain : main_loop ((pre ++ List.replicate m b).length + 1) start_cursor
      (pre ++ List.replicate m b) (some (pre ++ q))
      = some (emit_repeat start_cursor pre.length m b) := by
    have h := main_loop_some_single (pre.length + m - 1) start_cursor _ _ _ _ _ hskip hne
      (different_loop_of_all _ q hd) (by rw [hlen]; exact hcount) (by decide)
    rw [List.length_append, hlen, show pre.length + m + 1 = pre.length + m - 1 + 2 by omega, h,
      hlen, window_emit, if_pos hcond, hcount, rd_replicate m b 0 (by omega)]
  have hmem : ∃ x ∈ pre ++ List.replicate m b, x ≠ 0 :=
    ⟨b, List.mem_append_right _ (List.mem_replicate.2 ⟨by omega, rfl⟩), hb⟩
  have hout : compress (pre ++ List.replicate m b) (some (pre ++ q)) p_padding
      = some ([1] ++ (Group.rep pre.length m b).encoding) := by
    rw [compress_of_run _ _ _ _ hmem hp hmain]
    show some (to_u8 (0 + 1) :: encode_repeat [] pre.length m b) = _
    rw [encode_repeat_eq [] pre.length m b (by omega) (by omega)]
    rfl
  exact ⟨hint.trans hout, hout⟩

/-- Instance of the amended C18: scenario 5 of the specification, output `01 C2 09`. -/
theorem skip_then_repeat_witness :
    compress_int ([5, 5] ++ List.replicate 4 9) (some ([5, 5] ++ [2, 2, 2, 2])) 0
        = some ([1] ++ (Group.rep [5, 5].length 4 9).encoding)
      ∧ compress ([5, 5] ++ List.replicate 4 9) (some ([5, 5] ++ [2, 2, 2, 2])) 0
        = some ([1] ++ (Group.rep [5, 5].length 4 9).encoding) :=
  skip_then_repeat [5, 5] [2, 2, 2, 2] 4 9 0 (by decide) (by norm_num) (by decide) rfl
    (by decide) (by decide)

end OhBrother
